import Mathlib

/-!
# The `time` package: a shallow embedding of `src/time/time.go`

Machine integers are modelled with explicit truncation.

* `int64`, `int` (taken to be 64 bits wide, as on every 64-bit Go target) and
  `Duration` are `Int`, every arithmetic result passing through `wrap64`;
* `int32` is `Int`, every arithmetic result passing through `wrap32`;
* `uint64` is `Nat`, every arithmetic result reduced modulo `2^64`.

Methods with a pointer receiver that mutate the receiver are functions that
return the new `Time`.  A `panic` is the result `none`.  A `[]byte` and a `string`
are the list of their bytes.
-/

namespace GoTime

/-! ## Machine arithmetic -/

/-- Two's-complement truncation of an integer to `int64`. -/
def wrap64 (x : Int) : Int :=
  (x + 9223372036854775808) % 18446744073709551616 - 9223372036854775808

/-- Two's-complement truncation of an integer to `int32`. -/
def wrap32 (x : Int) : Int :=
  (x + 2147483648) % 4294967296 - 2147483648

/-- Conversion of a signed integer to `uint64`. -/
def wrapU64 (x : Int) : Nat :=
  (x % 18446744073709551616).toNat

/-- Conversion `int64(n)` of an unsigned word. -/
def toInt64 (n : Nat) : Int := wrap64 (n : Int)

/-- Conversion `int32(n)` of an unsigned word. -/
def toInt32 (n : Nat) : Int := wrap32 (n : Int)

/-- Addition on `int64`. -/
def add64 (a b : Int) : Int := wrap64 (a + b)

/-- Subtraction on `int64`. -/
def sub64 (a b : Int) : Int := wrap64 (a - b)

/-- Multiplication on `int64`. -/
def mul64 (a b : Int) : Int := wrap64 (a * b)

/-- Negation on `int64`. -/
def neg64 (a : Int) : Int := wrap64 (-a)

/-- Division on `int64`: Go truncates the quotient toward zero. -/
def div64 (a b : Int) : Int := wrap64 (Int.tdiv a b)

/-- Remainder on `int64`: Go gives the remainder the sign of the dividend. -/
def rem64 (a b : Int) : Int := wrap64 (Int.tmod a b)

/-- Addition on `int32`. -/
def add32 (a b : Int) : Int := wrap32 (a + b)

/-- Subtraction on `int32`. -/
def sub32 (a b : Int) : Int := wrap32 (a - b)

/-- Addition on `uint64`. -/
def uadd (a b : Nat) : Nat := (a + b) % 18446744073709551616

/-- Subtraction on `uint64`. -/
def usub (a b : Nat) : Nat := (a + (18446744073709551616 - b % 18446744073709551616)) % 18446744073709551616

/-- Multiplication on `uint64`. -/
def umul (a b : Nat) : Nat := (a * b) % 18446744073709551616

/-- Left shift on `uint64`. -/
def shl64 (a k : Nat) : Nat := (a <<< k) % 18446744073709551616

/-- The Go operator `&^` (bit clear) on `uint64`. -/
def andNot64 (a b : Nat) : Nat := a &&& (18446744073709551615 ^^^ b)

/-- An integer is a value of type `int64`. -/
def isInt64 (x : Int) : Prop := -9223372036854775808 ≤ x ∧ x ≤ 9223372036854775807

instance (x : Int) : Decidable (isInt64 x) := by unfold isInt64; infer_instance

/-! ## Locations -/

/-- Modelled from the spec: a `*Location` value.  The type `Location` and the variables
`utcLoc`, `localLoc`, `UTC` and `Local` live in `zoneinfo.go`, which is not among the
sources; the spec describes an opaque, immutable Location capability with a distinguished
UTC instance and a distinguished Local instance.  A pointer is `nil`, `&utcLoc`,
`&localLoc`, or the address of any other zone descriptor. -/
inductive LocPtr where
  | nil : LocPtr
  | utcLoc : LocPtr
  | localLoc : LocPtr
  | zone (id : Nat) : LocPtr
  deriving DecidableEq, Repr

/-- Modelled from the spec: `UTC` is the distinguished UTC instance, `&utcLoc`. -/
def UTC : LocPtr := LocPtr.utcLoc

/-- Modelled from the spec: `Local` is the distinguished Local instance, `&localLoc`. -/
def Local : LocPtr := LocPtr.localLoc

/-- The result of a zone lookup, `(offsetSeconds, validFrom, validTo)`; the abbreviation
is not used by any computation here and is left out. -/
structure Lookup where
  offset : Int
  start : Int
  stop : Int
  deriving DecidableEq, Repr

/-- Modelled from the spec: the zone data behind the Location capability, which this
package only consumes: the lookup of every non-UTC location and the single-entry zone
cache of a location (`cacheZone.offset` when `cacheZone` is not nil, `cacheStart`,
`cacheEnd`), and the identity of the descriptor that `FixedZone` allocates for an offset. -/
structure Zones where
  lookup : LocPtr → Int → Lookup
  cacheZone : LocPtr → Option Int
  cacheStart : LocPtr → Int
  cacheEnd : LocPtr → Int
  fixedZone : Int → Nat

/-- Zone data in which every lookup answers offset 0 and no cache entry is set; used as a
concrete instance. -/
def plainZones : Zones :=
  { lookup := fun _ _ => { offset := 0, start := -9223372036854775808,
                           stop := 9223372036854775807 },
    cacheZone := fun _ => none,
    cacheStart := fun _ => 0,
    cacheEnd := fun _ => 0,
    fixedZone := fun _ => 0 }

/-- Zone data in which every lookup answers the offset `o`; used as a concrete
instance. -/
def offsetZones (o : Int) : Zones :=
  { lookup := fun _ _ => { offset := o, start := -9223372036854775808,
                           stop := 9223372036854775807 },
    cacheZone := fun _ => none,
    cacheStart := fun _ => 0,
    cacheEnd := fun _ => 0,
    fixedZone := fun _ => 0 }

/-- Modelled from the spec: `FixedZone("", offset)`, the constructor of a synthetic
fixed-offset zone; it returns the address of a fresh descriptor, whose identity the zone
data supplies. -/
def FixedZone (Z : Zones) (offset : Int) : LocPtr := LocPtr.zone (Z.fixedZone offset)

/-- Modelled from the spec: `l.get()` resolves the nil location to UTC. -/
def LocPtr.get (l : LocPtr) : LocPtr :=
  if l = LocPtr.nil then LocPtr.utcLoc else l

/-- Modelled from the spec: `l.lookup(sec)`; the UTC instance has offset 0 at every
instant, valid over the whole `int64` range. -/
def LocPtr.lookup (Z : Zones) (l : LocPtr) (sec : Int) : Lookup :=
  let l := l.get
  if l = LocPtr.utcLoc then
    { offset := 0, start := -9223372036854775808, stop := 9223372036854775807 }
  else Z.lookup l sec

/-! ## Constants -/

def hasMonotonic : Nat := 1 <<< 63
def nsecMask : Nat := (1 <<< 30) - 1
def nsecShift : Nat := 30

def secondsPerMinute : Nat := 60
def secondsPerHour : Nat := 60 * secondsPerMinute
def secondsPerDay : Nat := 24 * secondsPerHour
def secondsPerWeek : Nat := 7 * secondsPerDay
def daysPer400Years : Nat := 365 * 400 + 97
def daysPer100Years : Nat := 365 * 100 + 24
def daysPer4Years : Nat := 365 * 4 + 1

def absoluteZeroYear : Int := -292277022399
def internalYear : Int := 1

/-- The constant `(absoluteZeroYear - internalYear) * 365.2425 * secondsPerDay`, an exact
constant expression in Go; `365.2425` is `3652425 / 10000`. -/
def absoluteToInternal : Int :=
  (absoluteZeroYear - internalYear) * 3652425 * (secondsPerDay : Int) / 10000
def internalToAbsolute : Int := -absoluteToInternal

def unixToInternal : Int :=
  (1969 * 365 + 1969 / 4 - 1969 / 100 + 1969 / 400) * (secondsPerDay : Int)
def internalToUnix : Int := -unixToInternal

def wallToInternal : Int :=
  (1884 * 365 + 1884 / 4 - 1884 / 100 + 1884 / 400) * (secondsPerDay : Int)
def internalToWall : Int := -wallToInternal

def maxWall : Int := wallToInternal + ((1 <<< 33 : Nat) - 1 : Int)
def minWall : Int := wallToInternal

def minDuration : Int := -9223372036854775808
def maxDuration : Int := 9223372036854775807

def Nanosecond : Int := 1
def Microsecond : Int := 1000 * Nanosecond
def Millisecond : Int := 1000 * Microsecond
def Second : Int := 1000 * Millisecond
def Minute : Int := 60 * Second
def Hour : Int := 60 * Minute

def January : Int := 1
def February : Int := 2
def March : Int := 3
def December : Int := 12

/-! ## The type `Time` -/

/-- The struct `Time`: the packed word `wall` (`uint64`), `ext` (`int64`) and the
location pointer. -/
structure Time where
  wall : Nat
  ext : Int
  loc : LocPtr
  deriving DecidableEq, Repr

/-- The fields of `t` are values of their machine types. -/
def Time.isWord (t : Time) : Prop :=
  t.wall < 18446744073709551616 ∧ isInt64 t.ext

instance (t : Time) : Decidable t.isWord := by unfold Time.isWord; infer_instance

/-- The receiver carries a monotonic clock reading: `t.wall&hasMonotonic != 0`. -/
def Time.hasMono (t : Time) : Prop := t.wall &&& hasMonotonic ≠ 0

instance (t : Time) : Decidable t.hasMono := by unfold Time.hasMono; infer_instance

/-- The method `nsec`: `int32(t.wall & nsecMask)`. -/
def Time.nsec (t : Time) : Int := toInt32 (t.wall &&& nsecMask)

/-- The method `sec`. -/
def Time.sec (t : Time) : Int :=
  if t.wall &&& hasMonotonic ≠ 0 then
    add64 wallToInternal (toInt64 (shl64 t.wall 1 >>> (nsecShift + 1)))
  else t.ext

/-- The method `unixSec`. -/
def Time.unixSec (t : Time) : Int := add64 t.sec internalToUnix

/-- The method `stripMono`. -/
def Time.stripMono (t : Time) : Time :=
  if t.wall &&& hasMonotonic ≠ 0 then
    { t with ext := t.sec, wall := t.wall &&& nsecMask }
  else t

/-- The method `addSec`. -/
def Time.addSec (t : Time) (d : Int) : Time :=
  if t.wall &&& hasMonotonic ≠ 0 then
    let sec := toInt64 (shl64 t.wall 1 >>> (nsecShift + 1))
    let dsec := add64 sec d
    if 0 ≤ dsec ∧ dsec ≤ ((1 <<< 33 : Nat) : Int) - 1 then
      { t with wall := ((t.wall &&& nsecMask) ||| shl64 (wrapU64 dsec) nsecShift) ||| hasMonotonic }
    else
      let t1 := t.stripMono
      { t1 with ext := add64 t1.ext d }
  else
    { t with ext := add64 t.ext d }

/-- The method `setLoc`. -/
def Time.setLoc (t : Time) (loc : LocPtr) : Time :=
  let loc := if loc = LocPtr.utcLoc then LocPtr.nil else loc
  let t1 := t.stripMono
  { t1 with loc := loc }

/-- The method `setMono`. -/
def Time.setMono (t : Time) (m : Int) : Time :=
  if t.wall &&& hasMonotonic = 0 then
    let sec := t.ext
    if sec < minWall ∨ maxWall < sec then t
    else
      { t with wall := t.wall ||| (hasMonotonic ||| shl64 (wrapU64 (sub64 sec minWall)) nsecShift),
               ext := m }
  else { t with ext := m }

/-- The method `mono`. -/
def Time.mono (t : Time) : Int :=
  if t.wall &&& hasMonotonic = 0 then 0 else t.ext

/-- The method `After`. -/
def Time.After (t u : Time) : Bool :=
  if (t.wall &&& u.wall) &&& hasMonotonic ≠ 0 then decide (t.ext > u.ext)
  else
    let ts := t.sec
    let us := u.sec
    decide (ts > us) || (decide (ts = us) && decide (t.nsec > u.nsec))

/-- The method `Before`. -/
def Time.Before (t u : Time) : Bool :=
  if (t.wall &&& u.wall) &&& hasMonotonic ≠ 0 then decide (t.ext < u.ext)
  else
    let ts := t.sec
    let us := u.sec
    decide (ts < us) || (decide (ts = us) && decide (t.nsec < u.nsec))

/-- The method `Equal`. -/
def Time.Equal (t u : Time) : Bool :=
  if (t.wall &&& u.wall) &&& hasMonotonic ≠ 0 then decide (t.ext = u.ext)
  else decide (t.sec = u.sec) && decide (t.nsec = u.nsec)

/-- The method `IsZero`. -/
def Time.IsZero (t : Time) : Bool := decide (t.sec = 0) && decide (t.nsec = 0)

/-- The method `Nanosecond`. -/
def Time.Nanosecond (t : Time) : Int := t.nsec

/-- The method `Add`; a `Duration` is an `int64`. -/
def Time.Add (t : Time) (d : Int) : Time :=
  let dsec := div64 d 1000000000
  let nsec := add32 t.nsec (wrap32 (rem64 d 1000000000))
  let p : Int × Int :=
    if nsec ≥ 1000000000 then (add64 dsec 1, sub32 nsec 1000000000)
    else if nsec < 0 then (sub64 dsec 1, add32 nsec 1000000000)
    else (dsec, nsec)
  let t1 : Time := { t with wall := andNot64 t.wall nsecMask ||| wrapU64 p.2 }
  let t2 := t1.addSec p.1
  if t2.wall &&& hasMonotonic ≠ 0 then
    let te := add64 t2.ext d
    if (d < 0 ∧ te > t2.ext) ∨ (d > 0 ∧ te < t2.ext) then t2.stripMono
    else { t2 with ext := te }
  else t2

/-- The method `Sub`. -/
def Time.Sub (t u : Time) : Int :=
  if (t.wall &&& u.wall) &&& hasMonotonic ≠ 0 then
    let te := t.ext
    let ue := u.ext
    let d := sub64 te ue
    if d < 0 ∧ te > ue then maxDuration
    else if d > 0 ∧ te < ue then minDuration
    else d
  else
    let d := add64 (mul64 (sub64 t.sec u.sec) Second) (wrap64 (sub32 t.nsec u.nsec))
    if (u.Add d).Equal t then d
    else if t.Before u then minDuration
    else maxDuration

/-- The method `UTC`. -/
def Time.UTC (t : Time) : Time := t.setLoc LocPtr.utcLoc

/-- The method `Local`. -/
def Time.Local (t : Time) : Time := t.setLoc GoTime.Local

/-- The method `In`; the panic on a nil location is `none`. -/
def Time.In (t : Time) (loc : LocPtr) : Option Time :=
  if loc = LocPtr.nil then none else some (t.setLoc loc)

/-- The method `Location`. -/
def Time.Location (t : Time) : LocPtr :=
  if t.loc = LocPtr.nil then GoTime.UTC else t.loc

/-! ## Calendar computations -/

/-- The method `abs`: the absolute time of `t`, adjusted by the zone offset. -/
def Time.abs (Z : Zones) (t : Time) : Nat :=
  let l := t.loc
  let l := if l = LocPtr.nil ∨ l = LocPtr.localLoc then l.get else l
  let sec := t.unixSec
  let sec :=
    if l ≠ LocPtr.utcLoc then
      match Z.cacheZone l with
      | some off =>
        if Z.cacheStart l ≤ sec ∧ sec < Z.cacheEnd l then add64 sec off
        else add64 sec (l.lookup Z sec).offset
      | none => add64 sec (l.lookup Z sec).offset
    else sec
  wrapU64 (add64 sec (unixToInternal + internalToAbsolute))

/-- The function `isLeap`. -/
def isLeap (year : Int) : Bool :=
  decide (Int.tmod year 4 = 0) &&
    (decide (Int.tmod year 100 ≠ 0) || decide (Int.tmod year 400 = 0))

/-- The function `norm`. -/
def norm (hi lo base : Int) : Int × Int :=
  let p : Int × Int :=
    if lo < 0 then
      let n := add64 (div64 (sub64 (neg64 lo) 1) base) 1
      (sub64 hi n, add64 lo (mul64 n base))
    else (hi, lo)
  if p.2 ≥ base then
    let n := div64 p.2 base
    (add64 p.1 n, sub64 p.2 (mul64 n base))
  else p

/-- The table `daysBefore`. -/
def daysBefore : List Int :=
  [0,
   31,
   31 + 28,
   31 + 28 + 31,
   31 + 28 + 31 + 30,
   31 + 28 + 31 + 30 + 31,
   31 + 28 + 31 + 30 + 31 + 30,
   31 + 28 + 31 + 30 + 31 + 30 + 31,
   31 + 28 + 31 + 30 + 31 + 30 + 31 + 31,
   31 + 28 + 31 + 30 + 31 + 30 + 31 + 31 + 30,
   31 + 28 + 31 + 30 + 31 + 30 + 31 + 31 + 30 + 31,
   31 + 28 + 31 + 30 + 31 + 30 + 31 + 31 + 30 + 31 + 30,
   31 + 28 + 31 + 30 + 31 + 30 + 31 + 31 + 30 + 31 + 30 + 31]

/-- The indexing `daysBefore[i]`; an index outside the table panics in Go and is `none`. -/
def daysBeforeAt (i : Int) : Option Int :=
  if 0 ≤ i then daysBefore.get? i.toNat else none

/-- The function `daysIn`. -/
def daysIn (m : Int) (year : Int) : Option Int :=
  if m = February ∧ isLeap year = true then some 29
  else
    match daysBeforeAt m, daysBeforeAt (sub64 m 1) with
    | some a, some b => some (wrap64 (sub32 a b))
    | _, _ => none

/-- The function `daysSinceEpoch`. -/
def daysSinceEpoch (year : Int) : Nat :=
  let y := wrapU64 (sub64 year absoluteZeroYear)
  let n := y / 400
  let y := usub y (umul 400 n)
  let d := umul daysPer400Years n
  let n := y / 100
  let y := usub y (umul 100 n)
  let d := uadd d (umul daysPer100Years n)
  let n := y / 4
  let y := usub y (umul 4 n)
  let d := uadd d (umul daysPer4Years n)
  let n := y
  let d := uadd d (umul 365 n)
  d

/-- The month and day part of `absDate`, from the estimate `day / 31` on. -/
def absDateMonth (year day yday : Int) : Option (Int × Int × Int × Int) :=
  let month := div64 day 31
  match daysBeforeAt (add64 month 1) with
  | none => none
  | some end_ =>
    if day ≥ end_ then
      some (year, add64 (add64 month 1) 1, add64 (sub64 day end_) 1, yday)
    else
      match daysBeforeAt month with
      | none => none
      | some begin => some (year, add64 month 1, add64 (sub64 day begin) 1, yday)

/-- The function `absDate`, returning `(year, month, day, yday)`. -/
def absDate (abs : Nat) (full : Bool) : Option (Int × Int × Int × Int) :=
  let d := abs / secondsPerDay
  let n := d / daysPer400Years
  let y := umul 400 n
  let d := usub d (umul daysPer400Years n)
  let n := d / daysPer100Years
  let n := usub n (n >>> 2)
  let y := uadd y (umul 100 n)
  let d := usub d (umul daysPer100Years n)
  let n := d / daysPer4Years
  let y := uadd y (umul 4 n)
  let d := usub d (umul daysPer4Years n)
  let n := d / 365
  let n := usub n (n >>> 2)
  let y := uadd y n
  let d := usub d (umul 365 n)
  let year := add64 (toInt64 y) absoluteZeroYear
  let yday := toInt64 d
  if !full then some (year, 0, 0, yday)
  else
    let day := yday
    if isLeap year = true then
      if day > 31 + 29 - 1 then absDateMonth year (sub64 day 1) yday
      else if day = 31 + 29 - 1 then some (year, February, 29, yday)
      else absDateMonth year day yday
    else absDateMonth year day yday

/-- The function `absClock`. -/
def absClock (abs : Nat) : Int × Int × Int :=
  let sec := toInt64 (abs % secondsPerDay)
  let hour := div64 sec secondsPerHour
  let sec := sub64 sec (mul64 hour secondsPerHour)
  let min := div64 sec secondsPerMinute
  let sec := sub64 sec (mul64 min secondsPerMinute)
  (hour, min, sec)

/-- The method `date`. -/
def Time.date (Z : Zones) (t : Time) (full : Bool) : Option (Int × Int × Int × Int) :=
  absDate (t.abs Z) full

/-- The method `Date`, returning `(year, month, day)`. -/
def Time.Date (Z : Zones) (t : Time) : Option (Int × Int × Int) :=
  (t.date Z true).map fun r => (r.1, r.2.1, r.2.2.1)

/-- The method `Clock`, returning `(hour, min, sec)`. -/
def Time.Clock (Z : Zones) (t : Time) : Int × Int × Int :=
  absClock (t.abs Z)

/-- The function `unixTime`. -/
def unixTime (sec : Int) (nsec : Int) : Time :=
  { wall := wrapU64 nsec, ext := add64 sec unixToInternal, loc := Local }

/-- The function `Date`; the panic on a nil location (and on an index outside
`daysBefore`) is `none`. -/
def Date (Z : Zones) (year month day hour min sec nsec : Int) (loc : LocPtr) : Option Time :=
  if loc = LocPtr.nil then none
  else
    let m := sub64 month 1
    let ym := norm year m 12
    let year := ym.1
    let month := add64 ym.2 1
    let sn := norm sec nsec 1000000000
    let ms := norm min sn.1 60
    let hm := norm hour ms.1 60
    let dh := norm day hm.1 24
    let nsec := sn.2
    let sec := ms.2
    let min := hm.2
    let hour := dh.2
    let day := dh.1
    let d := daysSinceEpoch year
    match daysBeforeAt (sub64 month 1) with
    | none => none
    | some before =>
      let d := uadd d (wrapU64 before)
      let d := if isLeap year = true ∧ month ≥ March then uadd d 1 else d
      let d := uadd d (wrapU64 (sub64 day 1))
      let abs := umul d secondsPerDay
      let abs := uadd abs (wrapU64 (add64 (add64 (mul64 hour secondsPerHour)
        (mul64 min secondsPerMinute)) sec))
      let unix := add64 (toInt64 abs) (absoluteToInternal + internalToUnix)
      let lk := loc.lookup Z unix
      let unix :=
        if lk.offset ≠ 0 then
          let utc := sub64 unix lk.offset
          let offset :=
            if utc < lk.start then (loc.lookup Z (sub64 lk.start 1)).offset
            else if utc ≥ lk.stop then (loc.lookup Z lk.stop).offset
            else lk.offset
          sub64 unix offset
        else unix
      let t := unixTime unix (wrap32 nsec)
      some (t.setLoc loc)

/-! ## Well-formed times -/

/-- The representation invariant documented on the struct `Time`: the nanoseconds field
is in `[0, 999999999]` and, if the `hasMonotonic` bit is 0, the 33-bit seconds field of
`wall` is zero. -/
def Time.wellFormed (t : Time) : Prop :=
  t.wall &&& nsecMask ≤ 999999999 ∧
    (t.wall &&& hasMonotonic = 0 → shl64 t.wall 1 >>> (nsecShift + 1) = 0)

instance (t : Time) : Decidable t.wellFormed := by unfold Time.wellFormed; infer_instance

/-! ## Reference calendar functions

Closed forms used to state and prove facts about the calendar code; `Y` is the number
of years since the absolute zero year. -/

/-- Days from the absolute epoch to the start of year `Y` of the absolute era. -/
def daysZ (Y : Nat) : Nat :=
  146097 * (Y / 400) + 36524 * (Y % 400 / 100) + 1461 * (Y % 100 / 4) + 365 * (Y % 4)

/-- Year `Y` of the absolute era is a leap year (the absolute zero year is `1 mod 400`). -/
def leapZ (Y : Nat) : Bool :=
  decide (Y % 4 = 3) && (decide (Y % 100 ≠ 99) || decide (Y % 400 = 399))

/-- Number of days of a year, by leap flag. -/
def yearLen (leap : Bool) : Nat := if leap then 366 else 365

/-- The day count `d` that `Date` computes from the normalised year, month and day
(`none` when the index into `daysBefore` is out of range). -/
def dateDays (year month day : Int) : Option Nat :=
  match daysBeforeAt (sub64 month 1) with
  | none => none
  | some before =>
    let d := daysSinceEpoch year
    let d := uadd d (wrapU64 before)
    let d := if isLeap year = true ∧ month ≥ March then uadd d 1 else d
    some (uadd d (wrapU64 (sub64 day 1)))

/-- The part of `Date` that follows the day count: seconds of the day, conversion to Unix
time, zone adjustment and construction of the `Time`. -/
def dateOfDays (Z : Zones) (d : Nat) (hour min sec nsec : Int) (loc : LocPtr) : Time :=
  let abs := umul d secondsPerDay
  let abs := uadd abs (wrapU64 (add64 (add64 (mul64 hour secondsPerHour)
    (mul64 min secondsPerMinute)) sec))
  let unix := add64 (toInt64 abs) (absoluteToInternal + internalToUnix)
  let lk := loc.lookup Z unix
  let unix :=
    if lk.offset ≠ 0 then
      let utc := sub64 unix lk.offset
      let offset :=
        if utc < lk.start then (loc.lookup Z (sub64 lk.start 1)).offset
        else if utc ≥ lk.stop then (loc.lookup Z lk.stop).offset
        else lk.offset
      sub64 unix offset
    else unix
  let t := unixTime unix (wrap32 nsec)
  t.setLoc loc

/-! ## Durations -/

/-- The method `Duration.Truncate`. -/
def Duration.Truncate (d m : Int) : Int :=
  if m ≤ 0 then d else sub64 d (rem64 d m)

/-- The function `lessThanHalf`: `uint64(x)+uint64(x) < uint64(y)`. -/
def lessThanHalf (x y : Int) : Bool :=
  decide (uadd (wrapU64 x) (wrapU64 x) < wrapU64 y)

/-- The method `Duration.Round`. -/
def Duration.Round (d m : Int) : Int :=
  if m ≤ 0 then d
  else
    let r := rem64 d m
    if d < 0 then
      let r := neg64 r
      if lessThanHalf r m = true then add64 d r
      else
        let d1 := add64 (sub64 d m) r
        if d1 < d then d1 else minDuration
    else
      if lessThanHalf r m = true then sub64 d r
      else
        let d1 := sub64 (add64 d m) r
        if d1 > d then d1 else maxDuration

/-- The nearest multiple of `m` to `d` over the integers, an exact half going away from
zero: the reference against which `Duration.Round` is compared. -/
def roundHalfAway (d m : Int) : Int :=
  if 0 ≤ d then (if 2 * (d % m) < m then d - d % m else d - d % m + m)
  else (if 2 * ((-d) % m) < m then d + (-d) % m else d + (-d) % m - m)

/-! ## Construction from clock readings, presentation, encoding -/

/-- The function `Unix`. -/
def Unix (sec nsec : Int) : Time :=
  if nsec < 0 ∨ nsec ≥ 1000000000 then
    let n := div64 nsec 1000000000
    let sec := add64 sec n
    let nsec := sub64 nsec (mul64 n 1000000000)
    if nsec < 0 then unixTime (sub64 sec 1) (wrap32 (add64 nsec 1000000000))
    else unixTime sec (wrap32 nsec)
  else unixTime sec (wrap32 nsec)

/-- The method `Unix`. -/
def Time.Unix (t : Time) : Int := t.unixSec

/-- The function `Now`; the reading `(sec, nsec, mono)` of the runtime clock `now()` and
the variable `startNano` are parameters. -/
def Now (sec nsec mono startNano : Int) : Time :=
  let mono := sub64 mono startNano
  let sec := add64 sec (unixToInternal - minWall)
  if wrapU64 sec >>> 33 ≠ 0 then
    { wall := wrapU64 nsec, ext := add64 sec minWall, loc := Local }
  else
    { wall := (hasMonotonic ||| shl64 (wrapU64 sec) nsecShift) ||| wrapU64 nsec,
      ext := mono, loc := Local }

/-- The method `AddDate`; `ymd` is the result `(year, month, day)` of `t.Date()`, whose
panic is `none`, and `c` the result `(hour, min, sec)` of `t.Clock()`. -/
def Time.AddDate (Z : Zones) (t : Time) (years months days : Int) : Option Time :=
  (t.Date Z).bind fun ymd =>
    let c := t.Clock Z
    GoTime.Date Z (add64 ymd.1 years) (add64 ymd.2.1 months) (add64 ymd.2.2 days)
      c.1 c.2.1 c.2.2 t.nsec t.Location

def Sunday : Int := 0
def Monday : Int := 1
def Thursday : Int := 4
def Saturday : Int := 6

/-- The function `absWeekday`. -/
def absWeekday (abs : Nat) : Int :=
  let sec := uadd abs (umul (wrapU64 Monday) secondsPerDay) % secondsPerWeek
  div64 (toInt64 sec) secondsPerDay

/-- The method `Weekday`. -/
def Time.Weekday (Z : Zones) (t : Time) : Int := absWeekday (t.abs Z)

/-- The method `ISOWeek`, returning `(year, week)`. -/
def Time.ISOWeek (Z : Zones) (t : Time) : Option (Int × Int) :=
  let abs := t.abs Z
  let d := sub64 Thursday (absWeekday abs)
  let d := if d = 4 then -3 else d
  let abs := uadd abs (umul (wrapU64 d) secondsPerDay)
  (absDate abs false).map fun r => (r.1, add64 (div64 r.2.2.2 7) 1)

/-- The method `Year`. -/
def Time.Year (Z : Zones) (t : Time) : Option Int :=
  (t.date Z false).map fun r => r.1

/-- The method `YearDay`. -/
def Time.YearDay (Z : Zones) (t : Time) : Option Int :=
  (t.date Z false).map fun r => add64 r.2.2.2 1

/-- The method `Zone`, returning the offset (the abbreviation is left out). -/
def Time.Zone (Z : Zones) (t : Time) : Int :=
  (t.loc.lookup Z t.unixSec).offset

/-- The conversion `byte(x)` of a signed integer. -/
def byteOf (x : Int) : Nat := (x % 256).toNat

/-- Two's-complement truncation of an integer to `int16`. -/
def wrap16 (x : Int) : Int := (x + 32768) % 65536 - 32768

def timeBinaryVersion : Nat := 1

/-- The method `MarshalBinary`; the shift `>>` on signed integers is arithmetic. -/
def Time.MarshalBinary (Z : Zones) (t : Time) : Except String (List Nat) :=
  let r : Except String Int :=
    if t.Location = GoTime.UTC then Except.ok (-1)
    else
      let offset := t.Zone Z
      if rem64 offset 60 ≠ 0 then
        Except.error "Time.MarshalBinary: zone offset has fractional minute"
      else
        let offset := div64 offset 60
        if offset < -32768 ∨ offset = -1 ∨ offset > 32767 then
          Except.error "Time.MarshalBinary: unexpected zone offset"
        else Except.ok (wrap16 offset)
  match r with
  | Except.error e => Except.error e
  | Except.ok offsetMin =>
    let sec := t.sec
    let nsec := t.nsec
    Except.ok
      [timeBinaryVersion,
       byteOf (sec >>> (56 : Nat)),
       byteOf (sec >>> (48 : Nat)),
       byteOf (sec >>> (40 : Nat)),
       byteOf (sec >>> (32 : Nat)),
       byteOf (sec >>> (24 : Nat)),
       byteOf (sec >>> (16 : Nat)),
       byteOf (sec >>> (8 : Nat)),
       byteOf sec,
       byteOf (nsec >>> (24 : Nat)),
       byteOf (nsec >>> (16 : Nat)),
       byteOf (nsec >>> (8 : Nat)),
       byteOf nsec,
       byteOf (offsetMin >>> (8 : Nat)),
       byteOf offsetMin]

/-- Bitwise or on `int64`: the or of the two's-complement words. -/
def or64 (a b : Int) : Int := toInt64 (wrapU64 a ||| wrapU64 b)

/-- Left shift on `int64`. -/
def shl64i (a : Int) (k : Nat) : Int := wrap64 (a * 2 ^ k)

/-- Bitwise or on `int32`: the or of the two's-complement words. -/
def or32 (a b : Int) : Int :=
  wrap32 (((a % 4294967296).toNat ||| (b % 4294967296).toNat : Nat) : Int)

/-- Left shift on `int32`. -/
def shl32i (a : Int) (k : Nat) : Int := wrap32 (a * 2 ^ k)

/-- Bitwise or on `int16`: the or of the two's-complement words. -/
def or16 (a b : Int) : Int :=
  wrap16 (((a % 65536).toNat ||| (b % 65536).toNat : Nat) : Int)

/-- Left shift on `int16`. -/
def shl16i (a : Int) (k : Nat) : Int := wrap16 (a * 2 ^ k)

/-- The indexing `buf[i]` of a byte slice known to be long enough. -/
def byteAt (buf : List Nat) (i : Nat) : Int := ((buf.getD i 0 : Nat) : Int)

/-- The method `UnmarshalBinary`: the receiver after the call and the error, if any.  A
byte is a number below 256. -/
def Time.UnmarshalBinary (Z : Zones) (t : Time) (data : List Nat) : Time × Option String :=
  let buf := data
  if buf.length = 0 then (t, some "Time.UnmarshalBinary: no data")
  else if buf.getD 0 0 ≠ timeBinaryVersion then
    (t, some "Time.UnmarshalBinary: unsupported version")
  else if buf.length ≠ 1 + 8 + 4 + 2 then
    (t, some "Time.UnmarshalBinary: invalid length")
  else
    let buf := buf.drop 1
    let sec :=
      or64 (or64 (or64 (or64 (or64 (or64 (or64 (byteAt buf 7) (shl64i (byteAt buf 6) 8))
        (shl64i (byteAt buf 5) 16)) (shl64i (byteAt buf 4) 24))
        (shl64i (byteAt buf 3) 32)) (shl64i (byteAt buf 2) 40))
        (shl64i (byteAt buf 1) 48)) (shl64i (byteAt buf 0) 56)
    let buf := buf.drop 8
    let nsec :=
      or32 (or32 (or32 (byteAt buf 3) (shl32i (byteAt buf 2) 8)) (shl32i (byteAt buf 1) 16))
        (shl32i (byteAt buf 0) 24)
    let buf := buf.drop 4
    let offset := mul64 (or16 (byteAt buf 1) (shl16i (byteAt buf 0) 8)) 60
    let t0 : Time := { wall := wrapU64 nsec, ext := sec, loc := LocPtr.nil }
    if offset = -1 * 60 then (t0.setLoc LocPtr.utcLoc, none)
    else if offset = (GoTime.Local.lookup Z t0.unixSec).offset then
      (t0.setLoc GoTime.Local, none)
    else (t0.setLoc (FixedZone Z offset), none)

/-- The method `MarshalText`; the formatting `t.AppendFormat(b, RFC3339Nano)`, which lives
in `format.go`, is the parameter `fmt`.  A panic is `none`. -/
def Time.MarshalText (Z : Zones) (fmt : Time → String) (t : Time) :
    Option (Except String String) :=
  match t.Year Z with
  | none => none
  | some y =>
    if y < 0 ∨ y ≥ 10000 then
      some (Except.error "Time.MarshalText: year outside of range [0,9999]")
    else some (Except.ok (fmt t))

/-- The method `MarshalJSON`; the formatting is the parameter `fmt`, and the result is
wrapped in quotes. -/
def Time.MarshalJSON (Z : Zones) (fmt : Time → String) (t : Time) :
    Option (Except String String) :=
  match t.Year Z with
  | none => none
  | some y =>
    if y < 0 ∨ y ≥ 10000 then
      some (Except.error "Time.MarshalJSON: year outside of range [0,9999]")
    else some (Except.ok ("\"" ++ fmt t ++ "\""))

/-! ## Reference byte encodings -/

/-- The `n` bytes of the big-endian representation of the word `x`. -/
def beBytes : Nat → Nat → List Nat
  | 0, _ => []
  | n + 1, x => (x / 256 ^ n % 256) :: beBytes n x

/-- The value of a big-endian byte string. -/
def beValue (bs : List Nat) : Nat := bs.foldl (fun acc b => acc * 256 + b) 0

/-- Every element of the list is a byte. -/
def allBytes (bs : List Nat) : Prop := ∀ b ∈ bs, b < 256

/-- The zone offset `o` (seconds east of UTC) is one that `MarshalBinary` encodes: a whole
number of minutes in the `int16` range, other than the sentinel `-1`. -/
def encodableOffset (o : Int) : Prop :=
  o % 60 = 0 ∧ -32768 ≤ o / 60 ∧ o / 60 ≤ 32767 ∧ o / 60 ≠ -1

instance (o : Int) : Decidable (encodableOffset o) := by
  unfold encodableOffset; infer_instance

/-! ## Truncate and Round on a Time -/

/-- The first loop of `div`, `for d1>>63 != 1 { d1 <<= 1 }`, run for at most the given
number of tests of its condition; `none` when that number does not suffice. -/
def divShift : Nat → Nat → Option Nat
  | 0, _ => none
  | fuel + 1, d1 => if d1 >>> 63 ≠ 1 then divShift fuel (shl64 d1 1) else some d1

/-- The second loop of `div`, which subtracts `d<<k` for decreasing `k` from the 128-bit
number `(u1, u0)`; `d` is `uint64(d)`.  The result is `(qmod2, u0)` at the `break`, or
`none` when the given number of rounds does not suffice. -/
def divLoop : Nat → Nat → Nat → Nat → Nat → Nat → Option (Int × Nat)
  | 0, _, _, _, _, _ => none
  | fuel + 1, u1, u0, d1, d0, d =>
    let sub : Bool := decide (u1 > d1 ∨ (u1 = d1 ∧ u0 ≥ d0))
    let qmod2 : Int := if sub = true then 1 else 0
    let u0x := u0
    let u0 := if sub = true then usub u0 d0 else u0
    let u1 := if sub = true then usub (if u0 > u0x then usub u1 1 else u1) d1 else u1
    if d1 = 0 ∧ d0 = d then some (qmod2, u0)
    else divLoop fuel u1 u0 (d1 >>> 1) ((d0 >>> 1) ||| shl64 (d1 &&& 1) 63) d

/-- The first case of the switch in `div`, `2d divides 1 second`; `nsec` is an `int32`.
The conversions of an `int32` to `int` and to `Duration` keep the value; `x & 1` is the
remainder of the floor division by 2.  A zero divisor is `none`. -/
def divFraction (nsec d : Int) : Option (Int × Int) :=
  if wrap32 d = 0 then none
  else some (wrap32 (Int.tdiv nsec (wrap32 d)) % 2, wrap32 (Int.tmod nsec (wrap32 d)))

/-- The second case of the switch in `div`, `d is a multiple of 1 second`. -/
def divSeconds (sec nsec d : Int) : Option (Int × Int) :=
  let d1 := div64 d Second
  if d1 = 0 then none
  else some (div64 sec d1 % 2, add64 (mul64 (rem64 sec d1) Second) nsec)

/-- The general case of the switch in `div`: the nanoseconds as a 128-bit number
`(u1, u0)`, from which `d<<k` is subtracted for decreasing `k`.  The first loop is given
64 tests and the second 128 rounds. -/
def divGeneral (sec nsec d : Int) : Option (Int × Int) :=
  let sec := wrapU64 sec
  let tmp := umul (sec >>> 32) 1000000000
  let u1 := tmp >>> 32
  let u0 := shl64 tmp 32
  let tmp := umul (sec &&& 4294967295) 1000000000
  let u0x := u0
  let u0 := uadd u0 tmp
  let u1 := if u0 < u0x then uadd u1 1 else u1
  let u0x := u0
  let u0 := uadd u0 (wrapU64 nsec)
  let u1 := if u0 < u0x then uadd u1 1 else u1
  match divShift 64 (wrapU64 d) with
  | none => none
  | some d1 =>
    match divLoop 128 u1 u0 d1 0 (wrapU64 d) with
    | none => none
    | some (qmod2, u0) => some (qmod2, toInt64 u0)

/-- The switch of `div` on the absolute value `(sec, nsec)`: the case `2d divides 1 second`
(whose test `Second%(d+d)` divides by `d+d`), the case `d is a multiple of 1 second`, and
the general case. -/
def divSwitch (sec nsec d : Int) : Option (Int × Int) :=
  if d < Second then
    if add64 d d = 0 then none
    else if rem64 Second (add64 d d) = 0 then divFraction nsec d
    else if rem64 d Second = 0 then divSeconds sec nsec d
    else divGeneral sec nsec d
  else if rem64 d Second = 0 then divSeconds sec nsec d
  else divGeneral sec nsec d

/-- The function `div`: the quotient parity and the remainder of `t` by `d`.  A division
by zero is `none`, and so is a loop that does not end within its rounds. -/
def div (t : Time) (d : Int) : Option (Int × Int) :=
  let nsec := t.nsec
  let sec := t.sec
  let s : Bool × Int × Int :=
    if sec < 0 then
      let sec := neg64 sec
      let nsec := wrap32 (-nsec)
      if nsec < 0 then (true, sub64 sec 1, add32 nsec 1000000000)
      else (true, sec, nsec)
    else (false, sec, nsec)
  let neg := s.1
  let sec := s.2.1
  let nsec := s.2.2
  match divSwitch sec nsec d with
  | none => none
  | some (qmod2, r) =>
    if neg = true ∧ r ≠ 0 then some (if qmod2 % 2 = 0 then qmod2 + 1 else qmod2 - 1, sub64 d r)
    else some (qmod2, r)

/-- The method `Truncate` on a Time; a panic of `div` is `none`. -/
def Time.Truncate (t : Time) (d : Int) : Option Time :=
  let t := t.stripMono
  if d ≤ 0 then some t
  else
    match div t d with
    | none => none
    | some (_, r) => some (t.Add (neg64 r))

/-- The method `Round` on a Time; a panic of `div` is `none`. -/
def Time.Round (t : Time) (d : Int) : Option Time :=
  let t := t.stripMono
  if d ≤ 0 then some t
  else
    match div t d with
    | none => none
    | some (_, r) =>
      if lessThanHalf r d = true then some (t.Add (neg64 r)) else some (t.Add (sub64 d r))

/-- The month and the day of the month that `absDate` computes from the day of the year
`yday` (from 0) and the leap flag of the year: the part of `absDate` that follows the
computation of the year, without the values it passes through. -/
def monthDay (leap : Bool) (yday : Int) : Option (Int × Int) :=
  (if leap = true then
      if yday > 31 + 29 - 1 then absDateMonth 0 (sub64 yday 1) 0
      else if yday = 31 + 29 - 1 then some (0, February, 29, 0)
      else absDateMonth 0 yday 0
    else absDateMonth 0 yday 0).map fun r => (r.2.1, r.2.2.1)

/-- The number of days of month `m`, by leap flag, as `daysIn` computes it. -/
def monthLen (leap : Bool) (m : Int) : Int :=
  if m = 2 ∧ leap = true then 29
  else (daysBeforeAt m).getD 0 - (daysBeforeAt (m - 1)).getD 0

/-- The day of the year (from 0) of day `d` of month `m`, as `Date` counts it: the entry
of `daysBefore`, one more from March on in a leap year, and `d - 1`. -/
def ydayOf (leap : Bool) (m d : Int) : Int :=
  (daysBeforeAt (m - 1)).getD 0 + (if leap = true ∧ m ≥ 3 then 1 else 0) + (d - 1)

/-! ## Formatting a `Duration` -/

/-- The assignment `buf[w] = c` on a byte buffer; an index outside the buffer panics. -/
def setByte (buf : List Nat) (w : Int) (c : Nat) : Option (List Nat) :=
  if 0 ≤ w ∧ w < buf.length then some (buf.set w.toNat c) else none

/-- The statements `w--; buf[w] = c`, returning the buffer and the new `w`. -/
def putByte (buf : List Nat) (w : Int) (c : Nat) : Option (List Nat × Int) :=
  let w := sub64 w 1
  (setByte buf w c).map fun b => (b, w)

/-- The statement `copy(buf[w:], "µ")`: the two bytes `0xC2 0xB5` of the micro sign, as far
as the slice `buf[w:]` has room; a bound `w` outside `0..len(buf)` panics. -/
def copyMicro (buf : List Nat) (w : Int) : Option (List Nat) :=
  if 0 ≤ w ∧ w ≤ buf.length then some ((buf.set w.toNat 194).set (w.toNat + 1) 181)
  else none

/-- The expression `string(buf[w:])`. -/
def sliceFrom (buf : List Nat) (w : Int) : Option (List Nat) :=
  if 0 ≤ w ∧ w ≤ buf.length then some (buf.drop w.toNat) else none

/-- The loop of `fmtFrac` with `n` iterations left, returning the buffer, `w`, `v` and
`print`. -/
def fmtFracLoop : Nat → List Nat → Int → Nat → Bool → Option (List Nat × Int × Nat × Bool)
  | 0, buf, w, v, print => some (buf, w, v, print)
  | n + 1, buf, w, v, print =>
    let digit := v % 10
    let print := print || decide (digit ≠ 0)
    if print then
      (putByte buf w ((digit % 256 + 48) % 256)).bind fun bw =>
        fmtFracLoop n bw.1 bw.2 (v / 10) print
    else fmtFracLoop n buf w (v / 10) print

/-- The function `fmtFrac` called on the slice `buf[:w]`, returning the buffer, `nw` and
`nv`. -/
def fmtFrac (buf : List Nat) (w : Int) (v : Nat) (prec : Nat) : Option (List Nat × Int × Nat) :=
  if 0 ≤ w ∧ w ≤ buf.length then
    (fmtFracLoop prec buf w v false).bind fun r =>
      if r.2.2.2 = true then (putByte r.1 r.2.1 46).map fun bw => (bw.1, bw.2, r.2.2.1)
      else some (r.1, r.2.1, r.2.2.1)
  else none

/-- The loop `for v > 0` of `fmtInt`; `none` when the fuel runs out. -/
def fmtIntLoop : Nat → List Nat → Int → Nat → Option (List Nat × Int)
  | 0, _, _, _ => none
  | fuel + 1, buf, w, v =>
    if v > 0 then
      (putByte buf w ((v % 10 % 256 + 48) % 256)).bind fun bw =>
        fmtIntLoop fuel bw.1 bw.2 (v / 10)
    else some (buf, w)

/-- The function `fmtInt` called on the slice `buf[:w]`, returning the buffer and the new
`w`. -/
def fmtInt (buf : List Nat) (w : Int) (v : Nat) : Option (List Nat × Int) :=
  if 0 ≤ w ∧ w ≤ buf.length then
    if v = 0 then putByte buf w 48 else fmtIntLoop 21 buf w v
  else none

/-- The end of `Duration.String`: the sign and the conversion `string(buf[w:])`. -/
def signAndSlice (buf : List Nat) (w : Int) (neg : Bool) : Option (List Nat) :=
  if neg = true then (putByte buf w 45).bind fun bw => sliceFrom bw.1 bw.2
  else sliceFrom buf w

/-- The method `Duration.String`; the string is the list of its bytes and a panic is
`none`. -/
def Duration.String (d : Int) : Option (List Nat) :=
  let buf : List Nat := List.replicate 32 0
  let w : Int := 32
  let u := wrapU64 d
  let neg := decide (d < 0)
  let u := if neg = true then usub 0 u else u
  if u < wrapU64 Second then
    (putByte buf w 115).bind fun bw =>
      let w := sub64 bw.2 1
      if u = 0 then some [48, 115]
      else
        (if u < wrapU64 Microsecond then (setByte bw.1 w 110).map fun b => (b, w, 0)
          else if u < wrapU64 Millisecond then
            (copyMicro bw.1 (sub64 w 1)).map fun b => (b, sub64 w 1, 3)
          else (setByte bw.1 w 109).map fun b => (b, w, 6)).bind fun s =>
        (fmtFrac s.1 s.2.1 u s.2.2).bind fun f =>
        (fmtInt f.1 f.2.1 f.2.2).bind fun r => signAndSlice r.1 r.2 neg
  else
    (putByte buf w 115).bind fun bw =>
    (fmtFrac bw.1 bw.2 u 9).bind fun f =>
    (fmtInt f.1 f.2.1 (f.2.2 % 60)).bind fun r =>
      let u := f.2.2 / 60
      if u > 0 then
        (putByte r.1 r.2 109).bind fun bw =>
        (fmtInt bw.1 bw.2 (u % 60)).bind fun r =>
          let u := u / 60
          if u > 0 then
            (putByte r.1 r.2 104).bind fun bw =>
            (fmtInt bw.1 bw.2 u).bind fun r => signAndSlice r.1 r.2 neg
          else signAndSlice r.1 r.2 neg
      else signAndSlice r.1 r.2 neg

/-- The buffer `buf` holds `tail` from index `w` on. -/
def bufHolds (buf : List Nat) (w : Int) (tail : List Nat) : Prop :=
  buf.length = 32 ∧ 0 ≤ w ∧ w ≤ 32 ∧ buf.drop w.toNat = tail

instance (buf : List Nat) (w : Int) (tail : List Nat) : Decidable (bufHolds buf w tail) := by
  unfold bufHolds; infer_instance

/-- Reference rendering: the decimal numeral of `n`, as ASCII bytes. -/
def refDecimal (n : Nat) : List Nat :=
  if n = 0 then [48] else (Nat.digits 10 n).reverse.map fun c => c + 48

/-- Reference rendering: the `n` lowest decimal digits of `v`, the lowest first. -/
def lowDigits : Nat → Nat → List Nat
  | 0, _ => []
  | n + 1, v => v % 10 :: lowDigits n (v / 10)

/-- Reference rendering: the `n`-digit zero-padded numeral of `F` with the trailing zeros
removed, as ASCII bytes. -/
def refFraction (n F : Nat) : List Nat :=
  ((lowDigits n F).reverse.rdropWhile fun c => c == 0).map fun c => c + 48

/-- Reference rendering of a duration of at least one second: the sign, the hours if
positive, the minutes if the duration is at least a minute, the seconds, the fraction if
non-zero, and `s`. -/
def refLong (d : Int) : List Nat :=
  let u := d.natAbs
  let S := u / 1000000000 % 60
  let M := u / 60000000000 % 60
  let H := u / 3600000000000
  let F := u % 1000000000
  (if d < 0 then [45] else []) ++ (if H > 0 then refDecimal H ++ [104] else [])
    ++ (if u ≥ 60000000000 then refDecimal M ++ [109] else []) ++ refDecimal S
    ++ (if F ≠ 0 then 46 :: refFraction 9 F else []) ++ [115]

/-- Reference rendering of a non-zero duration below one second: the sign, the integer part
in the unit `ns`, `µs` or `ms`, the fraction if non-zero, and the unit; `p` is the number of
fraction digits of the unit. -/
def refShort (d : Int) : List Nat :=
  let u := d.natAbs
  let p := if u < 1000 then 0 else if u < 1000000 then 3 else 6
  let unit : List Nat :=
    if u < 1000 then [110, 115] else if u < 1000000 then [194, 181, 115] else [109, 115]
  (if d < 0 then [45] else []) ++ refDecimal (u / 10 ^ p)
    ++ (if u % 10 ^ p ≠ 0 then 46 :: refFraction p (u % 10 ^ p) else []) ++ unit

/-! ## Machine words: basic facts -/

theorem wrap64_of_isInt64 {x : Int} (h : isInt64 x) : wrap64 x = x := by
  unfold isInt64 at h; unfold wrap64; omega

theorem isInt64_wrap64 (x : Int) : isInt64 (wrap64 x) := by
  unfold isInt64 wrap64; omega

theorem and_hasMonotonic (w : Nat) :
    w &&& hasMonotonic = (w / 9223372036854775808 % 2) * 9223372036854775808 := by
  have h : hasMonotonic = 2 ^ 63 := by decide
  rw [h, Nat.and_two_pow, Nat.testBit_to_div_mod]
  have h2 : (2:Nat) ^ 63 = 9223372036854775808 := by norm_num
  rw [h2]
  by_cases hb : w / 9223372036854775808 % 2 = 1
  · simp [hb]
  · have : w / 9223372036854775808 % 2 = 0 := by omega
    simp [this]

theorem hasMono_iff (w : Nat) :
    w &&& hasMonotonic ≠ 0 ↔ w / 9223372036854775808 % 2 = 1 := by
  rw [and_hasMonotonic]; omega

theorem and_nsecMask (w : Nat) : w &&& nsecMask = w % 1073741824 := by
  have h : nsecMask = 2 ^ 30 - 1 := by decide
  rw [h, Nat.and_pow_two_sub_one_eq_mod]

theorem and_and_hasMonotonic (a b : Nat) :
    (a &&& b) &&& hasMonotonic ≠ 0 ↔ (a &&& hasMonotonic ≠ 0 ∧ b &&& hasMonotonic ≠ 0) := by
  have h : hasMonotonic = 2 ^ 63 := by decide
  simp only [h, Nat.and_two_pow, Nat.testBit_and]
  cases a.testBit 63 <;> cases b.testBit 63 <;> simp

theorem shl1_shr31 (w : Nat) :
    shl64 w 1 >>> (nsecShift + 1) = w % 9223372036854775808 / 1073741824 := by
  unfold shl64 nsecShift
  rw [Nat.shiftLeft_eq, Nat.shiftRight_eq_div_pow]
  norm_num
  omega

theorem andNot64_nsecMask (w : Nat) (h : w < 18446744073709551616) :
    andNot64 w nsecMask = 1073741824 * (w / 1073741824) := by
  have hc : (18446744073709551615 ^^^ nsecMask) = (2 ^ 34 - 1) <<< 30 := by decide
  have hr : 1073741824 * (w / 1073741824) = (w >>> 30) <<< 30 := by
    rw [Nat.shiftLeft_eq, Nat.shiftRight_eq_div_pow]; norm_num; omega
  unfold andNot64
  rw [hc, hr]
  apply Nat.eq_of_testBit_eq
  intro i
  simp only [Nat.testBit_and, Nat.testBit_shiftLeft, Nat.testBit_shiftRight,
    Nat.testBit_two_pow_sub_one]
  by_cases h30 : 30 ≤ i
  · have e : 30 + (i - 30) = i := by omega
    rw [e]
    by_cases h64 : i < 64
    · have : i - 30 < 34 := by omega
      simp [h30, this]
    · have hw : w.testBit i = false := by
        apply Nat.testBit_lt_two_pow
        calc w < 2 ^ 64 := by norm_num; exact h
          _ ≤ 2 ^ i := Nat.pow_le_pow_right (by norm_num) (by omega)
      simp [hw]
  · simp [h30]

theorem or_low (a b : Nat) (hb : b < 1073741824) :
    1073741824 * a ||| b = 1073741824 * a + b := by
  have := Nat.mul_add_lt_is_or (i := 30) (b := b) (by norm_num; exact hb) a
  norm_num at this
  exact this.symm

theorem or_hasMonotonic (a : Nat) (ha : a < 9223372036854775808) :
    a ||| hasMonotonic = 9223372036854775808 + a := by
  have h : hasMonotonic = 2 ^ 63 * 1 := by decide
  rw [h, Nat.or_comm, ← Nat.mul_add_lt_is_or (by norm_num; exact ha)]

theorem shl64_nsecShift (a : Nat) : shl64 a nsecShift = 1073741824 * a % 18446744073709551616 := by
  unfold shl64 nsecShift
  rw [Nat.shiftLeft_eq]; norm_num; rw [Nat.mul_comm]

/-! ## Comparison and subtraction -/

theorem Before_eq (t u : Time) :
    t.Before u = if t.hasMono ∧ u.hasMono then decide (t.ext < u.ext)
      else decide (t.sec < u.sec ∨ (t.sec = u.sec ∧ t.nsec < u.nsec)) := by
  unfold Time.Before Time.hasMono
  by_cases h : (t.wall &&& u.wall) &&& hasMonotonic ≠ 0
  · rw [if_pos h, if_pos ((and_and_hasMonotonic _ _).1 h)]
  · rw [if_neg h, if_neg (fun h' => h ((and_and_hasMonotonic _ _).2 h'))]
    simp [Bool.decide_or, Bool.decide_and]

theorem mono_of_hasMono {t : Time} (h : t.hasMono) : t.mono = t.ext := by
  unfold Time.mono; unfold Time.hasMono at h; rw [if_neg h]

theorem After_eq (t u : Time) :
    t.After u = if t.hasMono ∧ u.hasMono then decide (t.ext > u.ext)
      else decide (t.sec > u.sec ∨ (t.sec = u.sec ∧ t.nsec > u.nsec)) := by
  unfold Time.After Time.hasMono
  by_cases h : (t.wall &&& u.wall) &&& hasMonotonic ≠ 0
  · rw [if_pos h, if_pos ((and_and_hasMonotonic _ _).1 h)]
  · rw [if_neg h, if_neg (fun h' => h ((and_and_hasMonotonic _ _).2 h'))]
    simp [Bool.decide_or, Bool.decide_and]

theorem Equal_eq (t u : Time) :
    t.Equal u = if t.hasMono ∧ u.hasMono then decide (t.ext = u.ext)
      else decide (t.sec = u.sec ∧ t.nsec = u.nsec) := by
  unfold Time.Equal Time.hasMono
  by_cases h : (t.wall &&& u.wall) &&& hasMonotonic ≠ 0
  · rw [if_pos h, if_pos ((and_and_hasMonotonic _ _).1 h)]
  · rw [if_neg h, if_neg (fun h' => h ((and_and_hasMonotonic _ _).2 h'))]
    simp [Bool.decide_and]

/-- C4: `Before`, `After` and `Equal` compare the monotonic readings when both operands
carry one, and otherwise compare `(sec, nsec)` lexicographically; replacing the
Location of either operand never changes the result. -/
theorem comparison_semantics (t u : Time) :
    (t.Before u = if t.hasMono ∧ u.hasMono then decide (t.mono < u.mono)
      else decide (t.sec < u.sec ∨ (t.sec = u.sec ∧ t.nsec < u.nsec))) ∧
    (t.After u = if t.hasMono ∧ u.hasMono then decide (t.mono > u.mono)
      else decide (t.sec > u.sec ∨ (t.sec = u.sec ∧ t.nsec > u.nsec))) ∧
    (t.Equal u = if t.hasMono ∧ u.hasMono then decide (t.mono = u.mono)
      else decide (t.sec = u.sec ∧ t.nsec = u.nsec)) ∧
    (∀ l1 l2 : LocPtr,
      Time.Before { t with loc := l1 } { u with loc := l2 } = t.Before u ∧
      Time.After { t with loc := l1 } { u with loc := l2 } = t.After u ∧
      Time.Equal { t with loc := l1 } { u with loc := l2 } = t.Equal u) := by
  refine ⟨?_, ?_, ?_, ?_⟩
  · rw [Before_eq]
    by_cases h : t.hasMono ∧ u.hasMono
    · rw [if_pos h, if_pos h, mono_of_hasMono h.1, mono_of_hasMono h.2]
    · rw [if_neg h, if_neg h]
  · rw [After_eq]
    by_cases h : t.hasMono ∧ u.hasMono
    · rw [if_pos h, if_pos h, mono_of_hasMono h.1, mono_of_hasMono h.2]
    · rw [if_neg h, if_neg h]
  · rw [Equal_eq]
    by_cases h : t.hasMono ∧ u.hasMono
    · rw [if_pos h, if_pos h, mono_of_hasMono h.1, mono_of_hasMono h.2]
    · rw [if_neg h, if_neg h]
  · intro l1 l2
    exact ⟨rfl, rfl, rfl⟩

theorem Sub_mono_eq (t u : Time) (ht : t.isWord) (hu : u.isWord)
    (hmt : t.hasMono) (hmu : u.hasMono) :
    t.Sub u = max minDuration (min maxDuration (t.ext - u.ext)) := by
  have hb : (t.wall &&& u.wall) &&& hasMonotonic ≠ 0 :=
    (and_and_hasMonotonic _ _).2 ⟨hmt, hmu⟩
  obtain ⟨_, ht1, ht2⟩ := ht
  obtain ⟨_, hu1, hu2⟩ := hu
  unfold Time.Sub
  rw [if_pos hb]
  simp only [sub64, wrap64, minDuration, maxDuration]
  split_ifs <;> omega

/-- C6: when both operands carry a monotonic reading, `Sub` is the exact difference of
the two readings clamped to `[minDuration, maxDuration]`. -/
theorem Sub_monotonic_saturates (t u : Time) (ht : t.isWord) (hu : u.isWord)
    (hmt : t.hasMono) (hmu : u.hasMono) :
    t.Sub u = max minDuration (min maxDuration (t.mono - u.mono)) := by
  rw [mono_of_hasMono hmt, mono_of_hasMono hmu]
  exact Sub_mono_eq t u ht hu hmt hmu

theorem Sub_monotonic_saturates_witness :
    Time.Sub ⟨hasMonotonic, 9223372036854775807, LocPtr.nil⟩ ⟨hasMonotonic, -5, LocPtr.localLoc⟩
      = max minDuration (min maxDuration
          (Time.mono ⟨hasMonotonic, 9223372036854775807, LocPtr.nil⟩
            - Time.mono ⟨hasMonotonic, -5, LocPtr.localLoc⟩)) :=
  Sub_monotonic_saturates _ _ (by decide) (by decide) (by decide) (by decide)

/-- C7: when both operands carry a monotonic reading, `t.Before(u)` holds exactly when
`t.Sub(u) < 0`, and away from the saturation values `t.Sub(u)` is the negation of
`u.Sub(t)`, both as an `int64` negation and as an integer. -/
theorem Before_iff_Sub_neg (t u : Time) (ht : t.isWord) (hu : u.isWord)
    (hmt : t.hasMono) (hmu : u.hasMono) :
    (t.Before u = true ↔ t.Sub u < 0) ∧
    (t.Sub u ≠ minDuration ∧ t.Sub u ≠ maxDuration ∧
        u.Sub t ≠ minDuration ∧ u.Sub t ≠ maxDuration →
      t.Sub u = neg64 (u.Sub t) ∧ t.Sub u = -(u.Sub t)) := by
  rw [Sub_mono_eq t u ht hu hmt hmu, Sub_mono_eq u t hu ht hmu hmt, Before_eq,
    if_pos ⟨hmt, hmu⟩]
  obtain ⟨_, ht1, ht2⟩ := ht
  obtain ⟨_, hu1, hu2⟩ := hu
  simp only [neg64, wrap64, minDuration, maxDuration, decide_eq_true_eq]
  constructor
  · omega
  · intro h
    omega

theorem Before_iff_Sub_neg_witness :
    (Time.Before ⟨hasMonotonic, 7, LocPtr.nil⟩ ⟨hasMonotonic, 12, LocPtr.nil⟩ = true ↔
      Time.Sub ⟨hasMonotonic, 7, LocPtr.nil⟩ ⟨hasMonotonic, 12, LocPtr.nil⟩ < 0) ∧
    (Time.Sub ⟨hasMonotonic, 7, LocPtr.nil⟩ ⟨hasMonotonic, 12, LocPtr.nil⟩ ≠ minDuration ∧
      Time.Sub ⟨hasMonotonic, 7, LocPtr.nil⟩ ⟨hasMonotonic, 12, LocPtr.nil⟩ ≠ maxDuration ∧
      Time.Sub ⟨hasMonotonic, 12, LocPtr.nil⟩ ⟨hasMonotonic, 7, LocPtr.nil⟩ ≠ minDuration ∧
      Time.Sub ⟨hasMonotonic, 12, LocPtr.nil⟩ ⟨hasMonotonic, 7, LocPtr.nil⟩ ≠ maxDuration →
      Time.Sub ⟨hasMonotonic, 7, LocPtr.nil⟩ ⟨hasMonotonic, 12, LocPtr.nil⟩
          = neg64 (Time.Sub ⟨hasMonotonic, 12, LocPtr.nil⟩ ⟨hasMonotonic, 7, LocPtr.nil⟩) ∧
        Time.Sub ⟨hasMonotonic, 7, LocPtr.nil⟩ ⟨hasMonotonic, 12, LocPtr.nil⟩
          = -(Time.Sub ⟨hasMonotonic, 12, LocPtr.nil⟩ ⟨hasMonotonic, 7, LocPtr.nil⟩)) :=
  Before_iff_Sub_neg _ _ (by decide) (by decide) (by decide) (by decide)

/-! ## Truncated division -/

theorem tdiv_eq (a b : Int) (hb : 0 ≤ b) :
    a.tdiv b = if 0 ≤ a then a / b else -((-a) / b) := by
  split
  · exact Int.tdiv_eq_ediv ‹_› hb
  · have h : a = -(-a) := by omega
    rw [h, Int.neg_tdiv, Int.tdiv_eq_ediv (by omega) hb]
    simp

theorem tmod_eq (a b : Int) (hb : 0 ≤ b) :
    a.tmod b = if 0 ≤ a then a % b else -((-a) % b) := by
  rw [Int.tmod_def, tdiv_eq a b hb]
  split
  · have := Int.emod_add_ediv a b; omega
  · have := Int.emod_add_ediv (-a) b
    rw [Int.mul_neg]; omega

/-! ## Stripping the monotonic reading, changing the location -/

theorem toInt32_and_nsecMask (w : Nat) :
    toInt32 (w &&& nsecMask) = ((w % 1073741824 : Nat) : Int) := by
  rw [and_nsecMask]; unfold toInt32 wrap32; omega

theorem nsec_eq (t : Time) : t.nsec = ((t.wall % 1073741824 : Nat) : Int) := by
  unfold Time.nsec; exact toInt32_and_nsecMask _

theorem stripMono_not_hasMono (t : Time) : ¬ t.stripMono.hasMono := by
  unfold Time.stripMono Time.hasMono
  split
  · simp only [and_nsecMask, hasMono_iff]; omega
  · assumption

theorem stripMono_sec (t : Time) : t.stripMono.sec = t.sec := by
  have h := stripMono_not_hasMono t
  unfold Time.hasMono at h
  rw [Time.sec, if_neg h]
  unfold Time.stripMono
  split
  · rfl
  · rename_i h'; rw [Time.sec, if_neg h']

theorem stripMono_nsec (t : Time) : t.stripMono.nsec = t.nsec := by
  rw [nsec_eq, nsec_eq]
  unfold Time.stripMono
  split
  · simp only [and_nsecMask]; omega
  · rfl

theorem stripMono_loc (t : Time) : t.stripMono.loc = t.loc := by
  unfold Time.stripMono; split <;> rfl

theorem setLoc_sec (t : Time) (l : LocPtr) : (t.setLoc l).sec = t.sec := by
  rw [← stripMono_sec t]; rfl

theorem setLoc_nsec (t : Time) (l : LocPtr) : (t.setLoc l).nsec = t.nsec := by
  rw [← stripMono_nsec t]; rfl

theorem setLoc_not_hasMono (t : Time) (l : LocPtr) : ¬ (t.setLoc l).hasMono :=
  stripMono_not_hasMono t

theorem setLoc_loc (t : Time) (l : LocPtr) :
    (t.setLoc l).loc = if l = LocPtr.utcLoc then LocPtr.nil else l := rfl

theorem setLoc_Location (t : Time) (l : LocPtr) (hl : l ≠ LocPtr.nil) :
    (t.setLoc l).Location = l := by
  unfold Time.Location
  rw [setLoc_loc]
  by_cases h : l = LocPtr.utcLoc
  · simp [h, UTC]
  · simp [h, hl]

theorem setLoc_Equal (t : Time) (l : LocPtr) : (t.setLoc l).Equal t = true := by
  rw [Equal_eq, if_neg (fun h => setLoc_not_hasMono t l h.1), setLoc_sec, setLoc_nsec]
  simp

/-- C10: `In`, `UTC` and `Local` keep `sec()` and `nsec()`, strip the monotonic reading
and set the location (UTC being stored as the nil location); the result is `Equal` to
the receiver, and `In` panics on the nil location. -/
theorem zone_change_keeps_instant (t : Time) (loc : LocPtr) (hloc : loc ≠ LocPtr.nil) :
    (∃ r, t.In loc = some r ∧ r.sec = t.sec ∧ r.nsec = t.nsec ∧ ¬ r.hasMono ∧
      r.Location = loc ∧ (loc = UTC → r.loc = LocPtr.nil) ∧ r.Equal t = true) ∧
    (t.UTC.sec = t.sec ∧ t.UTC.nsec = t.nsec ∧ ¬ t.UTC.hasMono ∧
      t.UTC.Location = UTC ∧ t.UTC.loc = LocPtr.nil ∧ t.UTC.Equal t = true) ∧
    (t.Local.sec = t.sec ∧ t.Local.nsec = t.nsec ∧ ¬ t.Local.hasMono ∧
      t.Local.Location = Local ∧ t.Local.Equal t = true) ∧
    t.In LocPtr.nil = none := by
  refine ⟨⟨t.setLoc loc, ?_, setLoc_sec t loc, setLoc_nsec t loc, setLoc_not_hasMono t loc,
      setLoc_Location t loc hloc, ?_, setLoc_Equal t loc⟩,
    ⟨setLoc_sec t _, setLoc_nsec t _, setLoc_not_hasMono t _,
      setLoc_Location t _ (by decide), rfl, setLoc_Equal t _⟩,
    ⟨setLoc_sec t _, setLoc_nsec t _, setLoc_not_hasMono t _,
      setLoc_Location t _ (by decide), setLoc_Equal t _⟩, rfl⟩
  · unfold Time.In; rw [if_neg hloc]
  · intro h; rw [setLoc_loc, h]; rfl

theorem zone_change_keeps_instant_witness :
    (∃ r, Time.In ⟨hasMonotonic + 5, 77, LocPtr.localLoc⟩ (LocPtr.zone 3) = some r ∧
      r.sec = Time.sec ⟨hasMonotonic + 5, 77, LocPtr.localLoc⟩ ∧
      r.nsec = Time.nsec ⟨hasMonotonic + 5, 77, LocPtr.localLoc⟩ ∧ ¬ r.hasMono ∧
      r.Location = LocPtr.zone 3 ∧ (LocPtr.zone 3 = UTC → r.loc = LocPtr.nil) ∧
      r.Equal ⟨hasMonotonic + 5, 77, LocPtr.localLoc⟩ = true) :=
  (zone_change_keeps_instant ⟨hasMonotonic + 5, 77, LocPtr.localLoc⟩ (LocPtr.zone 3)
    (by decide)).1

/-! ## Addition of a duration -/

theorem Add_carry (ns d : Int) (h0 : 0 ≤ ns) (h1 : ns ≤ 999999999) (hd : isInt64 d) :
    (if add32 ns (wrap32 (rem64 d 1000000000)) ≥ 1000000000 then
        (add64 (div64 d 1000000000) 1, sub32 (add32 ns (wrap32 (rem64 d 1000000000))) 1000000000)
      else if add32 ns (wrap32 (rem64 d 1000000000)) < 0 then
        (sub64 (div64 d 1000000000) 1, add32 (add32 ns (wrap32 (rem64 d 1000000000))) 1000000000)
      else (div64 d 1000000000, add32 ns (wrap32 (rem64 d 1000000000))))
    = ((ns + d) / 1000000000, (ns + d) % 1000000000) := by
  unfold isInt64 at hd
  simp only [add32, sub32, add64, sub64, div64, rem64, tdiv_eq d 1000000000 (by norm_num),
    tmod_eq d 1000000000 (by norm_num), wrap32, wrap64]
  by_cases hd0 : 0 ≤ d
  · simp only [if_pos hd0]
    split_ifs <;> (apply Prod.ext <;> simp only <;> omega)
  · simp only [if_neg hd0]
    split_ifs <;> (apply Prod.ext <;> simp only <;> omega)

theorem wrapU64_of_nonneg {x : Int} (h0 : 0 ≤ x) (h1 : x < 18446744073709551616) :
    wrapU64 x = x.toNat := by
  unfold wrapU64; congr 1; omega

theorem Add_wall (t : Time) (d : Int) (ht : t.isWord) :
    andNot64 t.wall nsecMask ||| wrapU64 ((t.nsec + d) % 1000000000)
      = 1073741824 * (t.wall / 1073741824) + ((t.nsec + d) % 1000000000).toNat := by
  obtain ⟨hw, _⟩ := ht
  rw [andNot64_nsecMask _ hw, wrapU64_of_nonneg (by omega) (by omega), or_low _ _ (by omega)]

theorem Add_wall_only (t : Time) (d : Int) (ht : t.isWord) (hwf : t.wellFormed)
    (hm : ¬ t.hasMono) (hd : isInt64 d) :
    t.Add d = { wall := ((t.nsec + d) % 1000000000).toNat,
                ext := add64 t.ext ((t.nsec + d) / 1000000000),
                loc := t.loc } := by
  have hns : t.wall % 1073741824 ≤ 999999999 := by
    have := hwf.1; rwa [and_nsecMask] at this
  have h0 : 0 ≤ t.nsec := by rw [nsec_eq]; omega
  have h1 : t.nsec ≤ 999999999 := by rw [nsec_eq]; omega
  have hz : t.wall / 1073741824 = 0 := by
    unfold Time.hasMono at hm
    have h2 := hwf.2 (by simpa using hm)
    rw [shl1_shr31] at h2
    rw [hasMono_iff] at hm
    have := ht.1
    omega
  unfold Time.Add
  simp only [Add_carry t.nsec d h0 h1 hd, Add_wall t d ht, hz]
  have hnm : ¬ ((0 + ((t.nsec + d) % 1000000000).toNat) &&& hasMonotonic ≠ 0) := by
    rw [hasMono_iff]; omega
  unfold Time.addSec
  simp only [if_neg hnm]
  simp

theorem hasMono_mk (w : Nat) (e : Int) (l : LocPtr) :
    Time.hasMono ⟨w, e, l⟩ ↔ w / 9223372036854775808 % 2 = 1 := hasMono_iff w

theorem sec_mk_wall (w : Nat) (e : Int) (l : LocPtr) (h : w / 9223372036854775808 % 2 = 0) :
    Time.sec ⟨w, e, l⟩ = e := by
  have hn : ¬ (w &&& hasMonotonic ≠ 0) := by rw [hasMono_iff]; omega
  rw [Time.sec, if_neg hn]

theorem sec_mk_mono (w : Nat) (e : Int) (l : LocPtr) (h : w / 9223372036854775808 % 2 = 1) :
    Time.sec ⟨w, e, l⟩ = wallToInternal + ((w % 9223372036854775808 / 1073741824 : Nat) : Int) := by
  have hn : w &&& hasMonotonic ≠ 0 := by rw [hasMono_iff]; exact h
  have hw : wallToInternal = 59453308800 := by decide
  rw [Time.sec, if_pos hn]
  show add64 wallToInternal (toInt64 (shl64 w 1 >>> (nsecShift + 1))) = _
  rw [shl1_shr31, hw]
  unfold add64 toInt64 wrap64
  omega

theorem nsec_mk (w : Nat) (e : Int) (l : LocPtr) :
    Time.nsec ⟨w, e, l⟩ = ((w % 1073741824 : Nat) : Int) := nsec_eq _

theorem sec_of_not_hasMono {t : Time} (h : ¬ t.hasMono) : t.sec = t.ext := by
  unfold Time.hasMono at h; rw [Time.sec, if_neg h]

theorem Location_congr {a b : Time} (h : a.loc = b.loc) : a.Location = b.Location := by
  unfold Time.Location; rw [h]

/-- C8: on a well-formed time without a monotonic reading, `Add` advances
`sec*10^9 + nsec` by exactly `d` when the seconds do not overflow, keeps the nanoseconds
in `[0, 999999999]`, adds no monotonic reading and keeps the location. -/
theorem Add_wall_exact (t : Time) (d : Int) (ht : t.isWord) (hwf : t.wellFormed)
    (hm : ¬ t.hasMono) (hd : isInt64 d)
    (hov : isInt64 (t.sec + (t.nsec + d) / 1000000000)) :
    (t.Add d).sec * 1000000000 + (t.Add d).nsec = t.sec * 1000000000 + t.nsec + d ∧
    0 ≤ (t.Add d).nsec ∧ (t.Add d).nsec ≤ 999999999 ∧ ¬ (t.Add d).hasMono ∧
    (t.Add d).loc = t.loc ∧ (t.Add d).Location = t.Location := by
  rw [sec_of_not_hasMono hm] at hov ⊢
  rw [Add_wall_only t d ht hwf hm hd]
  have hlt : ((t.nsec + d) % 1000000000).toNat / 9223372036854775808 % 2 = 0 := by omega
  unfold isInt64 at hov
  have hs := sec_mk_wall _ (add64 t.ext ((t.nsec + d) / 1000000000)) t.loc hlt
  have hn := nsec_mk ((t.nsec + d) % 1000000000).toNat
    (add64 t.ext ((t.nsec + d) / 1000000000)) t.loc
  rw [hs, hn, hasMono_mk]
  unfold add64 wrap64
  refine ⟨by omega, by omega, by omega, by omega, rfl, Location_congr rfl⟩

theorem Add_wall_exact_witness :
    (Time.Add ⟨999999999, 9223372036854775806, LocPtr.nil⟩ 1).sec * 1000000000
        + (Time.Add ⟨999999999, 9223372036854775806, LocPtr.nil⟩ 1).nsec
      = Time.sec ⟨999999999, 9223372036854775806, LocPtr.nil⟩ * 1000000000
        + Time.nsec ⟨999999999, 9223372036854775806, LocPtr.nil⟩ + 1 ∧
    0 ≤ (Time.Add ⟨999999999, 9223372036854775806, LocPtr.nil⟩ 1).nsec ∧
    (Time.Add ⟨999999999, 9223372036854775806, LocPtr.nil⟩ 1).nsec ≤ 999999999 ∧
    ¬ (Time.Add ⟨999999999, 9223372036854775806, LocPtr.nil⟩ 1).hasMono ∧
    (Time.Add ⟨999999999, 9223372036854775806, LocPtr.nil⟩ 1).loc = LocPtr.nil ∧
    (Time.Add ⟨999999999, 9223372036854775806, LocPtr.nil⟩ 1).Location
      = Time.Location ⟨999999999, 9223372036854775806, LocPtr.nil⟩ :=
  Add_wall_exact ⟨999999999, 9223372036854775806, LocPtr.nil⟩ 1
    (by decide) (by decide) (by decide) (by decide) (by decide)

theorem repack (n s : Nat) (hn : n < 1073741824) (hs : s < 8589934592) :
    (n ||| shl64 s nsecShift) ||| hasMonotonic
      = 9223372036854775808 + 1073741824 * s + n := by
  rw [shl64_nsecShift, Nat.mod_eq_of_lt (by omega), Nat.or_comm n, or_low _ _ hn,
    or_hasMonotonic _ (by omega)]
  omega

theorem addSec_mono (w : Nat) (e : Int) (l : LocPtr) (q : Int)
    (hw : w < 18446744073709551616) (hm : 9223372036854775808 ≤ w)
    (hq1 : -4611686018427387904 ≤ q) (hq2 : q ≤ 4611686018427387904) :
    Time.addSec ⟨w, e, l⟩ q =
      if 0 ≤ ((w % 9223372036854775808 / 1073741824 : Nat) : Int) + q ∧
          ((w % 9223372036854775808 / 1073741824 : Nat) : Int) + q ≤ 8589934591 then
        ⟨9223372036854775808
          + 1073741824 * (((w % 9223372036854775808 / 1073741824 : Nat) : Int) + q).toNat
          + w % 1073741824, e, l⟩
      else
        ⟨w % 1073741824,
          wallToInternal + ((w % 9223372036854775808 / 1073741824 : Nat) : Int) + q, l⟩ := by
  have hmono : w &&& hasMonotonic ≠ 0 := by rw [hasMono_iff]; omega
  have hsec : toInt64 (w % 9223372036854775808 / 1073741824)
      = ((w % 9223372036854775808 / 1073741824 : Nat) : Int) := by
    unfold toInt64 wrap64; omega
  have hdsec : add64 ((w % 9223372036854775808 / 1073741824 : Nat) : Int) q
      = ((w % 9223372036854775808 / 1073741824 : Nat) : Int) + q := by
    unfold add64 wrap64; omega
  have h33 : (((1 <<< 33 : Nat) : Int) - 1) = 8589934591 := by decide
  unfold Time.addSec
  simp only [if_pos hmono, shl1_shr31, hsec, hdsec, h33]
  by_cases hc : 0 ≤ ((w % 9223372036854775808 / 1073741824 : Nat) : Int) + q ∧
          ((w % 9223372036854775808 / 1073741824 : Nat) : Int) + q ≤ 8589934591
  · rw [if_pos hc, if_pos hc]
    rw [wrapU64_of_nonneg hc.1 (by omega), and_nsecMask,
      repack _ _ (by omega) (by omega)]
  · rw [if_neg hc, if_neg hc]
    have hs := sec_mk_mono w e l (by omega)
    have hwi : wallToInternal = 59453308800 := by decide
    unfold Time.stripMono
    simp only [if_pos hmono, hs, and_nsecMask]
    have hadd : add64 (wallToInternal + ((w % 9223372036854775808 / 1073741824 : Nat) : Int)) q
        = wallToInternal + ((w % 9223372036854775808 / 1073741824 : Nat) : Int) + q := by
      rw [hwi]; unfold add64 wrap64; omega
    rw [hadd]

theorem stripMono_mk_mono (w : Nat) (e : Int) (l : LocPtr)
    (h : w / 9223372036854775808 % 2 = 1) :
    Time.stripMono ⟨w, e, l⟩
      = ⟨w % 1073741824,
          wallToInternal + ((w % 9223372036854775808 / 1073741824 : Nat) : Int), l⟩ := by
  have hmono : w &&& hasMonotonic ≠ 0 := by rw [hasMono_iff]; omega
  have hs := sec_mk_mono w e l h
  unfold Time.stripMono
  simp only [if_pos hmono, hs, and_nsecMask]

theorem Add_final (w : Nat) (e : Int) (l : LocPtr) (d : Int)
    (h : w / 9223372036854775808 % 2 = 1) (he : isInt64 e) (hd : isInt64 d) :
    (if (Time.mk w e l).wall &&& hasMonotonic ≠ 0 then
      if (d < 0 ∧ add64 (Time.mk w e l).ext d > (Time.mk w e l).ext) ∨
          (d > 0 ∧ add64 (Time.mk w e l).ext d < (Time.mk w e l).ext) then
        (Time.mk w e l).stripMono
      else { (Time.mk w e l) with ext := add64 (Time.mk w e l).ext d }
    else Time.mk w e l)
    = if isInt64 (e + d) then ⟨w, e + d, l⟩
      else ⟨w % 1073741824,
          wallToInternal + ((w % 9223372036854775808 / 1073741824 : Nat) : Int), l⟩ := by
  have hmono : w &&& hasMonotonic ≠ 0 := by rw [hasMono_iff]; omega
  simp only [if_pos hmono]
  unfold isInt64 at he hd
  by_cases hc : isInt64 (e + d)
  · have hadd : add64 e d = e + d := by
      unfold isInt64 at hc; unfold add64 wrap64; omega
    have hno : ¬ ((d < 0 ∧ e + d > e) ∨ (d > 0 ∧ e + d < e)) := by omega
    rw [hadd, if_neg hno, if_pos hc]
  · have hov : (d < 0 ∧ add64 e d > e) ∨ (d > 0 ∧ add64 e d < e) := by
      unfold isInt64 at hc; unfold add64 wrap64; omega
    rw [if_pos hov, if_neg hc, stripMono_mk_mono w e l h]

theorem Add_final2 (t2 : Time) (d : Int)
    (h : t2.wall / 9223372036854775808 % 2 = 1) (he : isInt64 t2.ext) (hd : isInt64 d) :
    (if t2.wall &&& hasMonotonic ≠ 0 then
      if (d < 0 ∧ add64 t2.ext d > t2.ext) ∨ (d > 0 ∧ add64 t2.ext d < t2.ext) then
        t2.stripMono
      else { t2 with ext := add64 t2.ext d }
    else t2)
    = if isInt64 (t2.ext + d) then ⟨t2.wall, t2.ext + d, t2.loc⟩
      else ⟨t2.wall % 1073741824,
          wallToInternal + ((t2.wall % 9223372036854775808 / 1073741824 : Nat) : Int),
          t2.loc⟩ :=
  Add_final t2.wall t2.ext t2.loc d h he hd

theorem packed_bits (w s n : Nat) (hw : w = 9223372036854775808 + 1073741824 * s + n)
    (hs : s < 8589934592) (hn : n < 1073741824) :
    w / 9223372036854775808 % 2 = 1 ∧ w % 1073741824 = n ∧
      w % 9223372036854775808 / 1073741824 = s := by
  omega

theorem Add_mono_eq (t : Time) (d : Int) (ht : t.isWord) (hwf : t.wellFormed)
    (hm : t.hasMono) (hd : isInt64 d) :
    t.Add d =
      if 0 ≤ ((t.wall % 9223372036854775808 / 1073741824 : Nat) : Int)
            + (t.nsec + d) / 1000000000 ∧
          ((t.wall % 9223372036854775808 / 1073741824 : Nat) : Int)
            + (t.nsec + d) / 1000000000 ≤ 8589934591 ∧
          isInt64 (t.ext + d) then
        ⟨9223372036854775808
          + 1073741824 * (((t.wall % 9223372036854775808 / 1073741824 : Nat) : Int)
              + (t.nsec + d) / 1000000000).toNat
          + ((t.nsec + d) % 1000000000).toNat, t.ext + d, t.loc⟩
      else
        ⟨((t.nsec + d) % 1000000000).toNat,
          wallToInternal + ((t.wall % 9223372036854775808 / 1073741824 : Nat) : Int)
            + (t.nsec + d) / 1000000000, t.loc⟩ := by
  have hns : t.wall % 1073741824 ≤ 999999999 := by
    have := hwf.1; rwa [and_nsecMask] at this
  have hnsec := nsec_eq t
  have h0 : 0 ≤ t.nsec := by omega
  have h1 : t.nsec ≤ 999999999 := by omega
  have hw := ht.1
  have hge : 9223372036854775808 ≤ t.wall := by
    unfold Time.hasMono at hm; rw [hasMono_iff] at hm; omega
  have hd' := hd
  unfold isInt64 at hd'
  generalize hQ : (t.nsec + d) / 1000000000 = Q
  generalize hN : ((t.nsec + d) % 1000000000).toNat = N
  have hNlt : N < 1000000000 := by omega
  have hQ1 : -4611686018427387904 ≤ Q := by omega
  have hQ2 : Q ≤ 4611686018427387904 := by omega
  have hW1a : (1073741824 * (t.wall / 1073741824) + N) % 9223372036854775808 / 1073741824
      = t.wall % 9223372036854775808 / 1073741824 := by omega
  have hW1b : (1073741824 * (t.wall / 1073741824) + N) % 1073741824 = N := by omega
  generalize hS : t.wall % 9223372036854775808 / 1073741824 = S at hW1a ⊢
  have hS33 : S < 8589934592 := by omega
  unfold Time.Add
  simp only [Add_carry t.nsec d h0 h1 hd, Add_wall t d ht, hQ, hN]
  have hadd := addSec_mono (1073741824 * (t.wall / 1073741824) + N) t.ext t.loc Q
    (by omega) (by omega) hQ1 hQ2
  rw [hW1a, hW1b] at hadd
  generalize Time.addSec ⟨1073741824 * (t.wall / 1073741824) + N, t.ext, t.loc⟩ Q = t2 at hadd ⊢
  by_cases hc : 0 ≤ (S : Int) + Q ∧ (S : Int) + Q ≤ 8589934591
  · rw [if_pos hc] at hadd
    have hw2 : t2.wall = 9223372036854775808 + 1073741824 * ((S : Int) + Q).toNat + N := by
      rw [hadd]
    have he2 : t2.ext = t.ext := by rw [hadd]
    have hl2 : t2.loc = t.loc := by rw [hadd]
    have hSQ : ((S : Int) + Q).toNat < 8589934592 := by
      have := hc.1; have := hc.2; clear hadd hw2 he2 hl2 hW1a hW1b hQ hN hS; omega
    have hSQ2 : ((((S : Int) + Q).toNat : Nat) : Int) = (S : Int) + Q :=
      Int.toNat_of_nonneg hc.1
    have hN30 : N < 1073741824 := Nat.lt_trans hNlt (by norm_num)
    obtain ⟨p1, p2, p3⟩ := packed_bits t2.wall ((S : Int) + Q).toNat N hw2 hSQ hN30
    have he2' : isInt64 t2.ext := by rw [he2]; exact ht.2
    rw [Add_final2 t2 d p1 he2' hd, he2, hl2]
    by_cases he : isInt64 (t.ext + d)
    · rw [if_pos he, if_pos ⟨hc.1, hc.2, he⟩, hw2]
    · rw [if_neg he, if_neg (fun h => he h.2.2), p2, p3, hSQ2, Int.add_assoc]
  · rw [if_neg hc] at hadd
    have hw2 : t2.wall = N := by rw [hadd]
    have hn : ¬ (t2.wall &&& hasMonotonic ≠ 0) := by
      rw [hasMono_iff, hw2]; clear hadd hw2 hW1a hW1b hQ hN hS; omega
    rw [if_neg hn, if_neg (fun h => hc ⟨h.1, h.2.1⟩)]
    exact hadd

theorem sec_of_hasMono {t : Time} (h : t.hasMono) :
    t.sec = wallToInternal + ((t.wall % 9223372036854775808 / 1073741824 : Nat) : Int) := by
  unfold Time.hasMono at h
  rw [hasMono_iff] at h
  exact sec_mk_mono t.wall t.ext t.loc h

theorem wellFormed_mk_small (n : Nat) (e : Int) (l : LocPtr) (hn : n ≤ 999999999) :
    Time.wellFormed ⟨n, e, l⟩ := by
  unfold Time.wellFormed
  rw [and_nsecMask, shl1_shr31]
  constructor
  · show n % 1073741824 ≤ 999999999
    omega
  · intro _
    show n % 9223372036854775808 / 1073741824 = 0
    omega

theorem toNat_lt_33 (x : Int) (h0 : 0 ≤ x) (h1 : x ≤ 8589934591) :
    x.toNat < 8589934592 := by omega

theorem carry_split (a d : Int) :
    a + d = 1000000000 * ((a + d) / 1000000000) + (((a + d) % 1000000000).toNat : Int) ∧
      ((a + d) % 1000000000).toNat < 1000000000 := by
  omega

theorem Add_mono_arith (W S Q N a d s n : Int) (hs : s = W + (S + Q)) (hn : n = N)
    (hN0 : 0 ≤ N) (hN1 : N < 1000000000) (h : a + d = 1000000000 * Q + N) :
    s * 1000000000 + n = (W + S) * 1000000000 + a + d ∧ 0 ≤ n ∧ n ≤ 999999999 := by
  subst hs hn
  refine ⟨?_, hN0, by omega⟩
  have e : (W + (S + Q)) * 1000000000 = (W + S) * 1000000000 + 1000000000 * Q := by ring
  rw [e]; omega

theorem packed_range (W S Q : Int) (e d : Int) :
    (isInt64 (e + d) ∧ W ≤ W + S + Q ∧ W + S + Q ≤ W + 8589934591) ↔
      (0 ≤ S + Q ∧ S + Q ≤ 8589934591 ∧ isInt64 (e + d)) := by
  constructor
  · rintro ⟨h1, h2, h3⟩; exact ⟨by omega, by omega, h1⟩
  · rintro ⟨h1, h2, h3⟩; exact ⟨h3, by omega, by omega⟩

/-- C9: on a well-formed time carrying the monotonic reading `m`, `Add` advances the wall
value `sec*10^9 + nsec` by exactly `d`; the result carries the reading `m + d` when
`m + d` fits in `int64` and the new wall seconds stay in `[minWall, maxWall]`, and
otherwise carries no monotonic reading and stores the new wall seconds unpacked in `ext`. -/
theorem Add_monotonic (t : Time) (d : Int) (ht : t.isWord) (hwf : t.wellFormed)
    (hm : t.hasMono) (hd : isInt64 d) :
    ((t.Add d).sec * 1000000000 + (t.Add d).nsec = t.sec * 1000000000 + t.nsec + d ∧
      0 ≤ (t.Add d).nsec ∧ (t.Add d).nsec ≤ 999999999) ∧
    (if isInt64 (t.mono + d) ∧ minWall ≤ t.sec + (t.nsec + d) / 1000000000 ∧
        t.sec + (t.nsec + d) / 1000000000 ≤ maxWall then
      (t.Add d).hasMono ∧ (t.Add d).mono = t.mono + d
    else
      ¬ (t.Add d).hasMono ∧ (t.Add d).ext = t.sec + (t.nsec + d) / 1000000000 ∧
        (t.Add d).wellFormed) := by
  have hminW : minWall = wallToInternal := rfl
  have hmaxW : maxWall = wallToInternal + 8589934591 := by decide
  obtain ⟨hNQ, hNlt⟩ := carry_split t.nsec d
  rw [Add_mono_eq t d ht hwf hm hd, sec_of_hasMono hm, mono_of_hasMono hm, hminW, hmaxW]
  generalize (t.nsec + d) / 1000000000 = Q at hNQ ⊢
  generalize ((t.nsec + d) % 1000000000).toNat = N at hNQ hNlt ⊢
  generalize t.wall % 9223372036854775808 / 1073741824 = S
  clear hminW hmaxW ht hwf hm
  have hN0 : (0 : Int) ≤ (N : Int) := Int.ofNat_nonneg N
  have hN1 : (N : Int) < 1000000000 := by exact_mod_cast hNlt
  have hN30 : N < 1073741824 := Nat.lt_trans hNlt (by norm_num)
  by_cases hc : 0 ≤ (S : Int) + Q ∧ (S : Int) + Q ≤ 8589934591 ∧ isInt64 (t.ext + d)
  · rw [if_pos hc, if_pos ((packed_range wallToInternal S Q t.ext d).2 hc)]
    have hSQ := toNat_lt_33 _ hc.1 hc.2.1
    have hSQ2 : ((((S : Int) + Q).toNat : Nat) : Int) = (S : Int) + Q :=
      Int.toNat_of_nonneg hc.1
    obtain ⟨p1, p2, p3⟩ := packed_bits
      (9223372036854775808 + 1073741824 * ((S : Int) + Q).toNat + N)
      ((S : Int) + Q).toNat N rfl hSQ hN30
    have hs := sec_mk_mono
      (9223372036854775808 + 1073741824 * ((S : Int) + Q).toNat + N) (t.ext + d) t.loc p1
    have hn := nsec_mk (9223372036854775808 + 1073741824 * ((S : Int) + Q).toNat + N)
      (t.ext + d) t.loc
    have hmono := (hasMono_mk (9223372036854775808 + 1073741824 * ((S : Int) + Q).toNat + N)
      (t.ext + d) t.loc).2 p1
    rw [p3, hSQ2] at hs
    rw [p2] at hn
    exact ⟨Add_mono_arith _ _ _ _ _ _ _ _ hs hn hN0 hN1 hNQ, hmono, mono_of_hasMono hmono⟩
  · rw [if_neg hc, if_neg (fun h => hc ((packed_range wallToInternal S Q t.ext d).1 h))]
    have hlt : N / 9223372036854775808 % 2 = 0 := by clear hNQ hc; omega
    have hs := sec_mk_wall N (wallToInternal + ↑S + Q) t.loc hlt
    have hn := nsec_mk N (wallToInternal + ↑S + Q) t.loc
    have hmono : ¬ Time.hasMono ⟨N, wallToInternal + ↑S + Q, t.loc⟩ := by
      rw [hasMono_mk]; clear hNQ hc; omega
    have hN' : ((N % 1073741824 : Nat) : Int) = (N : Int) := by clear hNQ hc; omega
    rw [hN'] at hn
    exact ⟨Add_mono_arith _ _ _ _ _ _ _ _ (hs.trans (Int.add_assoc _ _ _)) hn hN0 hN1 hNQ,
      hmono, rfl,
      wellFormed_mk_small _ _ _ (by clear hNQ hc; omega)⟩

/-- C5: at the extremes of the seconds range the wall-clock `Sub` does not saturate.
For `t = (sec 2^63-1, nsec 999999999)` and `u = (sec -2^63, nsec 0)` the exact difference
`(2^64-1)*10^9 + 999999999` exceeds `maxDuration`, yet `Sub` returns `-1`: the wrapped
difference `d = -1` passes the check `u.Add(d).Equal(t)` because `addSec` wraps. -/
theorem Sub_wall_wraps_at_extremes :
    Time.Sub ⟨999999999, 9223372036854775807, LocPtr.nil⟩
        ⟨0, -9223372036854775808, LocPtr.nil⟩ = -1 ∧
    Time.wellFormed ⟨999999999, 9223372036854775807, LocPtr.nil⟩ ∧
    Time.wellFormed ⟨0, -9223372036854775808, LocPtr.nil⟩ ∧
    ¬ Time.hasMono ⟨999999999, 9223372036854775807, LocPtr.nil⟩ ∧
    (Time.sec ⟨999999999, 9223372036854775807, LocPtr.nil⟩
        - Time.sec ⟨0, -9223372036854775808, LocPtr.nil⟩) * 1000000000
      + (Time.nsec ⟨999999999, 9223372036854775807, LocPtr.nil⟩
        - Time.nsec ⟨0, -9223372036854775808, LocPtr.nil⟩) > maxDuration ∧
    (Time.Add ⟨0, -9223372036854775808, LocPtr.nil⟩ (-1)).Equal
      ⟨999999999, 9223372036854775807, LocPtr.nil⟩ = true := by
  decide

theorem Add_monotonic_witness :
    ((Time.Add ⟨hasMonotonic + 999999999, 9223372036854775807, LocPtr.localLoc⟩ 1).sec
            * 1000000000
          + (Time.Add ⟨hasMonotonic + 999999999, 9223372036854775807, LocPtr.localLoc⟩ 1).nsec
        = Time.sec ⟨hasMonotonic + 999999999, 9223372036854775807, LocPtr.localLoc⟩
            * 1000000000
          + Time.nsec ⟨hasMonotonic + 999999999, 9223372036854775807, LocPtr.localLoc⟩ + 1 ∧
      0 ≤ (Time.Add ⟨hasMonotonic + 999999999, 9223372036854775807, LocPtr.localLoc⟩ 1).nsec ∧
      (Time.Add ⟨hasMonotonic + 999999999, 9223372036854775807, LocPtr.localLoc⟩ 1).nsec
        ≤ 999999999) :=
  (Add_monotonic ⟨hasMonotonic + 999999999, 9223372036854775807, LocPtr.localLoc⟩ 1
    (by decide) (by decide) (by decide) (by decide)).1

/-! ## Normalisation of a pair of fields -/

theorem norm_12 (hi lo : Int) (hhi : isInt64 hi) (h1 : -9223372036854775808 + 12 ≤ lo)
    (h2 : lo ≤ 9223372036854775807) :
    norm hi lo 12 = (wrap64 (hi + lo / 12), lo % 12) := by
  unfold isInt64 at hhi
  unfold norm
  by_cases hneg : lo < 0
  · simp only [if_pos hneg, add64, sub64, mul64, neg64, div64,
      tdiv_eq _ 12 (by norm_num), wrap64]
    split_ifs <;> (apply Prod.ext <;> simp only <;> omega)
  · simp only [if_neg hneg, add64, sub64, mul64, neg64, div64,
      tdiv_eq _ 12 (by norm_num), wrap64]
    split_ifs <;> (apply Prod.ext <;> simp only <;> omega)

theorem norm_1000000000 (hi lo : Int) (hhi : isInt64 hi) (h1 : -9223372036854775808 + 1000000000 ≤ lo)
    (h2 : lo ≤ 9223372036854775807) :
    norm hi lo 1000000000 = (wrap64 (hi + lo / 1000000000), lo % 1000000000) := by
  unfold isInt64 at hhi
  unfold norm
  by_cases hneg : lo < 0
  · simp only [if_pos hneg, add64, sub64, mul64, neg64, div64,
      tdiv_eq _ 1000000000 (by norm_num), wrap64]
    split_ifs <;> (apply Prod.ext <;> simp only <;> omega)
  · simp only [if_neg hneg, add64, sub64, mul64, neg64, div64,
      tdiv_eq _ 1000000000 (by norm_num), wrap64]
    split_ifs <;> (apply Prod.ext <;> simp only <;> omega)

theorem norm_60 (hi lo : Int) (hhi : isInt64 hi) (h1 : -9223372036854775808 + 60 ≤ lo)
    (h2 : lo ≤ 9223372036854775807) :
    norm hi lo 60 = (wrap64 (hi + lo / 60), lo % 60) := by
  unfold isInt64 at hhi
  unfold norm
  by_cases hneg : lo < 0
  · simp only [if_pos hneg, add64, sub64, mul64, neg64, div64,
      tdiv_eq _ 60 (by norm_num), wrap64]
    split_ifs <;> (apply Prod.ext <;> simp only <;> omega)
  · simp only [if_neg hneg, add64, sub64, mul64, neg64, div64,
      tdiv_eq _ 60 (by norm_num), wrap64]
    split_ifs <;> (apply Prod.ext <;> simp only <;> omega)

theorem norm_24 (hi lo : Int) (hhi : isInt64 hi) (h1 : -9223372036854775808 + 24 ≤ lo)
    (h2 : lo ≤ 9223372036854775807) :
    norm hi lo 24 = (wrap64 (hi + lo / 24), lo % 24) := by
  unfold isInt64 at hhi
  unfold norm
  by_cases hneg : lo < 0
  · simp only [if_pos hneg, add64, sub64, mul64, neg64, div64,
      tdiv_eq _ 24 (by norm_num), wrap64]
    split_ifs <;> (apply Prod.ext <;> simp only <;> omega)
  · simp only [if_neg hneg, add64, sub64, mul64, neg64, div64,
      tdiv_eq _ 24 (by norm_num), wrap64]
    split_ifs <;> (apply Prod.ext <;> simp only <;> omega)

/-! ## The calendar: days since the absolute epoch -/

theorem tmod_eq_zero_iff (a b : Int) : a.tmod b = 0 ↔ a % b = 0 := by
  constructor
  · intro h; exact Int.emod_eq_zero_of_dvd (Int.dvd_of_tmod_eq_zero h)
  · intro h; exact Int.tmod_eq_zero_of_dvd (Int.dvd_of_emod_eq_zero h)

theorem isLeap_eq (year : Int) :
    isLeap year = (decide (year % 4 = 0) &&
      (decide (year % 100 ≠ 0) || decide (year % 400 = 0))) := by
  unfold isLeap
  simp only [ne_eq, tmod_eq_zero_iff]

theorem isLeap_eq_leapZ (year : Int) (h : absoluteZeroYear ≤ year) :
    isLeap year = leapZ (year - absoluteZeroYear).toNat := by
  have hz : absoluteZeroYear = -292277022399 := rfl
  rw [hz] at h ⊢
  rw [isLeap_eq]
  unfold leapZ
  have e4 : (year % 4 = 0) ↔ ((year - -292277022399).toNat % 4 = 3) := by omega
  have e100 : (year % 100 = 0) ↔ ((year - -292277022399).toNat % 100 = 99) := by omega
  have e400 : (year % 400 = 0) ↔ ((year - -292277022399).toNat % 400 = 399) := by omega
  simp only [ne_eq, e4, e100, e400]

theorem umul_small (a b : Nat) (h : a * b < 18446744073709551616) : umul a b = a * b := by
  unfold umul; exact Nat.mod_eq_of_lt h

theorem uadd_small (a b : Nat) (h : a + b < 18446744073709551616) : uadd a b = a + b := by
  unfold uadd; exact Nat.mod_eq_of_lt h

theorem usub_small (a b : Nat) (h : b ≤ a) (ha : a < 18446744073709551616) :
    usub a b = a - b := by
  unfold usub; omega

theorem daysSinceEpoch_eq (year : Int) (h : absoluteZeroYear ≤ year)
    (h2 : year - absoluteZeroYear < 1099511627776) :
    daysSinceEpoch year = daysZ (year - absoluteZeroYear).toNat := by
  have hz : absoluteZeroYear = -292277022399 := rfl
  rw [hz] at h h2 ⊢
  have hy : wrapU64 (sub64 year (-292277022399)) = (year - -292277022399).toNat := by
    unfold wrapU64 sub64 wrap64; omega
  have hY : (year - -292277022399).toNat < 1099511627776 := by omega
  unfold daysSinceEpoch daysZ
  rw [hz, hy]
  generalize (year - -292277022399).toNat = Y at hY ⊢
  clear h2 h hy
  have e1 : umul 400 (Y / 400) = 400 * (Y / 400) := umul_small _ _ (by omega)
  have e2 : usub Y (400 * (Y / 400)) = Y % 400 := by
    rw [usub_small _ _ (by omega) (by omega)]; omega
  have e3 : umul 100 (Y % 400 / 100) = 100 * (Y % 400 / 100) := umul_small _ _ (by omega)
  have e4 : usub (Y % 400) (100 * (Y % 400 / 100)) = Y % 100 := by
    rw [usub_small _ _ (by omega) (by omega)]; omega
  have e5 : umul 4 (Y % 100 / 4) = 4 * (Y % 100 / 4) := umul_small _ _ (by omega)
  have e6 : usub (Y % 100) (4 * (Y % 100 / 4)) = Y % 4 := by
    rw [usub_small _ _ (by omega) (by omega)]; omega
  have d1 : umul daysPer400Years (Y / 400) = 146097 * (Y / 400) :=
    umul_small _ _ (by unfold daysPer400Years; omega)
  have d2 : umul daysPer100Years (Y % 400 / 100) = 36524 * (Y % 400 / 100) :=
    umul_small _ _ (by unfold daysPer100Years; omega)
  have d3 : umul daysPer4Years (Y % 100 / 4) = 1461 * (Y % 100 / 4) :=
    umul_small _ _ (by unfold daysPer4Years; omega)
  have d4 : umul 365 (Y % 4) = 365 * (Y % 4) := umul_small _ _ (by omega)
  simp only [e1, e2, e3, e4, e5, e6, d1, d2, d3, d4]
  clear e1 e2 e3 e4 e5 e6 d1 d2 d3 d4
  rw [uadd_small (146097 * (Y / 400)) (36524 * (Y % 400 / 100)) (by omega),
    uadd_small (146097 * (Y / 400) + 36524 * (Y % 400 / 100)) (1461 * (Y % 100 / 4))
      (by omega),
    uadd_small (146097 * (Y / 400) + 36524 * (Y % 400 / 100) + 1461 * (Y % 100 / 4))
      (365 * (Y % 4)) (by omega)]

theorem daysZ_succ (Y : Nat) :
    daysZ (Y + 1) = daysZ Y + yearLen (leapZ Y) := by
  unfold daysZ yearLen leapZ
  by_cases h4 : Y % 4 = 3 <;> by_cases h100 : Y % 100 = 99 <;> by_cases h400 : Y % 400 = 399 <;>
    simp [h4, h100, h400] <;> omega

/-! ## The constructor `Date` -/

theorem Date_eq (Z : Zones) (year month day hour min sec nsec : Int) (loc : LocPtr) :
    Date Z year month day hour min sec nsec loc =
      if loc = LocPtr.nil then none
      else
        (dateDays (norm year (sub64 month 1) 12).1 (add64 (norm year (sub64 month 1) 12).2 1)
          (norm day (norm hour (norm min (norm sec nsec 1000000000).1 60).1 60).1 24).1).map
          fun d => dateOfDays Z d
            (norm day (norm hour (norm min (norm sec nsec 1000000000).1 60).1 60).1 24).2
            (norm hour (norm min (norm sec nsec 1000000000).1 60).1 60).2
            (norm min (norm sec nsec 1000000000).1 60).2
            (norm sec nsec 1000000000).2 loc := by
  unfold Date dateDays dateOfDays
  by_cases h : loc = LocPtr.nil
  · rw [if_pos h, if_pos h]
  · rw [if_neg h, if_neg h]
    dsimp only
    cases hb : daysBeforeAt (sub64 (add64 (norm year (sub64 month 1) 12).2 1) 1) with
    | none => rfl
    | some b => rfl

/-- C3: a month value outside `1..12` carries into the year: `Date(y, M + 12*k, ...)` is
the same `Time` as `Date(y + k, M, ...)` (for every location), as long as the values are
`int`s and `norm` does not overflow. -/
theorem Date_month_carry (Z : Zones) (y M k d h mi s ns : Int) (loc : LocPtr)
    (hy : isInt64 y) (hyk : isInt64 (y + k))
    (hM1 : -9223372036854775808 + 12 ≤ M - 1) (hM2 : M - 1 ≤ 9223372036854775807)
    (hK1 : -9223372036854775808 + 12 ≤ M + 12 * k - 1)
    (hK2 : M + 12 * k - 1 ≤ 9223372036854775807) :
    Date Z y (M + 12 * k) d h mi s ns loc = Date Z (y + k) M d h mi s ns loc := by
  have e1 : sub64 (M + 12 * k) 1 = M + 12 * k - 1 := by unfold sub64 wrap64; omega
  have e2 : sub64 M 1 = M - 1 := by unfold sub64 wrap64; omega
  have n1 := norm_12 y (M + 12 * k - 1) hy hK1 hK2
  have n2 := norm_12 (y + k) (M - 1) hyk hM1 hM2
  have e3 : y + (M + 12 * k - 1) / 12 = y + k + (M - 1) / 12 := by omega
  have e4 : (M + 12 * k - 1) % 12 = (M - 1) % 12 := by omega
  rw [e3, e4] at n1
  rw [Date_eq, Date_eq, e1, e2, n1, n2]

theorem Date_month_carry_witness :
    Date plainZones
        2011 (1 + 12 * 1) 5 1 2 3 4 UTC
      = Date plainZones
        (2011 + 1) 1 5 1 2 3 4 UTC :=
  Date_month_carry plainZones 2011 1 1 5 1 2 3 4 UTC (by decide) (by decide) (by decide) (by decide)
    (by decide) (by decide)

/-! ## Rounding and truncation of durations -/

theorem rem64_pos (d m : Int) (hm0 : 0 < m) (hm : isInt64 m) (h0 : 0 ≤ d) :
    rem64 d m = d % m ∧ 0 ≤ d % m ∧ d % m < m ∧ d % m ≤ d ∧ m ∣ d - d % m := by
  have h1 := Int.emod_nonneg d (Int.ne_of_gt hm0)
  have h2 := Int.emod_lt_of_pos d hm0
  have h3 := Int.emod_add_ediv d m
  have h4 := Int.mul_nonneg (Int.le_of_lt hm0) (Int.ediv_nonneg h0 (Int.le_of_lt hm0))
  refine ⟨?_, h1, h2, by omega, ⟨d / m, by omega⟩⟩
  unfold rem64
  rw [tmod_eq d m (Int.le_of_lt hm0), if_pos h0]
  unfold isInt64 at hm
  unfold wrap64; omega

theorem rem64_neg (d m : Int) (hm0 : 0 < m) (hm : isInt64 m) (h0 : d < 0) :
    rem64 d m = -((-d) % m) ∧ 0 ≤ (-d) % m ∧ (-d) % m < m ∧ (-d) % m ≤ -d ∧
      m ∣ d + (-d) % m := by
  have h1 := Int.emod_nonneg (-d) (Int.ne_of_gt hm0)
  have h2 := Int.emod_lt_of_pos (-d) hm0
  have h3 := Int.emod_add_ediv (-d) m
  have h4 := Int.mul_nonneg (Int.le_of_lt hm0)
    (Int.ediv_nonneg (by omega : (0:Int) ≤ -d) (Int.le_of_lt hm0))
  refine ⟨?_, h1, h2, by omega, ⟨-((-d) / m), ?_⟩⟩
  · unfold rem64
    rw [tmod_eq d m (Int.le_of_lt hm0), if_neg (by omega)]
    unfold isInt64 at hm
    unfold wrap64; omega
  · rw [Int.mul_neg]; omega

/-- C15: `Duration.Truncate` rounds toward zero: for `m > 0` the result is `d` minus the
truncated remainder, a multiple of `m` with the sign of `d` (or zero) and
`|result| ≤ |d| < |result| + m`; for `m ≤ 0` the result is `d`. -/
theorem Duration_Truncate_toward_zero (d m : Int) (hd : isInt64 d) (hm : isInt64 m) :
    (0 < m →
      Duration.Truncate d m = d - Int.tmod d m ∧
      m ∣ Duration.Truncate d m ∧
      (0 ≤ d → 0 ≤ Duration.Truncate d m) ∧ (d ≤ 0 → Duration.Truncate d m ≤ 0) ∧
      |Duration.Truncate d m| ≤ |d| ∧ |d| < |Duration.Truncate d m| + m) ∧
    (m ≤ 0 → Duration.Truncate d m = d) := by
  constructor
  · intro hm0
    unfold Duration.Truncate
    rw [if_neg (by omega)]
    by_cases h0 : 0 ≤ d
    · obtain ⟨e, r0, r1, r2, dv⟩ := rem64_pos d m hm0 hm h0
      have et : Int.tmod d m = d % m := by
        rw [tmod_eq d m (Int.le_of_lt hm0), if_pos h0]
      rw [e, et]
      have es : sub64 d (d % m) = d - d % m := by
        unfold isInt64 at hd; unfold sub64 wrap64; omega
      rw [es]
      refine ⟨rfl, dv, fun _ => by omega, fun _ => by omega, ?_, ?_⟩
      · rw [abs_of_nonneg (by omega), abs_of_nonneg h0]; omega
      · rw [abs_of_nonneg (by omega : (0:Int) ≤ d - d % m), abs_of_nonneg h0]; omega
    · have h0' : d < 0 := by omega
      obtain ⟨e, r0, r1, r2, dv⟩ := rem64_neg d m hm0 hm h0'
      have et : Int.tmod d m = -((-d) % m) := by
        rw [tmod_eq d m (Int.le_of_lt hm0), if_neg h0]
      rw [e, et]
      have es : sub64 d (-((-d) % m)) = d + (-d) % m := by
        unfold isInt64 at hd; unfold sub64 wrap64; omega
      have e2 : d - -((-d) % m) = d + (-d) % m := by omega
      rw [es, e2]
      refine ⟨rfl, dv, fun _ => by omega, fun _ => by omega, ?_, ?_⟩
      · rw [abs_of_nonpos (by omega), abs_of_nonpos (by omega)]; omega
      · rw [abs_of_nonpos (by omega : d + (-d) % m ≤ 0), abs_of_nonpos (by omega)]; omega
  · intro hm0
    unfold Duration.Truncate
    rw [if_pos hm0]

theorem Duration_Truncate_toward_zero_witness :
    (0 < (5 : Int) →
      Duration.Truncate (-7) 5 = -7 - Int.tmod (-7) 5 ∧
      (5 : Int) ∣ Duration.Truncate (-7) 5 ∧
      ((0 : Int) ≤ -7 → 0 ≤ Duration.Truncate (-7) 5) ∧
      ((-7 : Int) ≤ 0 → Duration.Truncate (-7) 5 ≤ 0) ∧
      |Duration.Truncate (-7) 5| ≤ |(-7 : Int)| ∧
      |(-7 : Int)| < |Duration.Truncate (-7) 5| + 5) ∧
    ((5 : Int) ≤ 0 → Duration.Truncate (-7) 5 = -7) :=
  Duration_Truncate_toward_zero (-7) 5 (by decide) (by decide)

/-- C16: for a negative `d` the result of `Duration.Truncate` is greater than `d`:
`Duration(-7).Truncate(5)` is `-5`, not the multiple of 5 closest to `-7` among those not
greater than `-7` (which is `-10`). -/
theorem Duration_Truncate_negative_above :
    Duration.Truncate (-7) 5 = -5 ∧ ¬ (Duration.Truncate (-7) 5 ≤ -7) := by
  decide

theorem lessThanHalf_eq (x y : Int) (hx : 0 ≤ x) (hxy : x < y) (hy : isInt64 y) :
    lessThanHalf x y = decide (2 * x < y) := by
  unfold isInt64 at hy
  unfold lessThanHalf uadd wrapU64
  congr 1
  apply propext
  omega

/-- C14: for `m > 0`, `Duration.Round` is the multiple of `m` nearest to `d` over the
integers (an exact half going away from zero), clamped to `[minDuration, maxDuration]`;
for `m ≤ 0` it is `d`. -/
theorem Duration_Round_nearest (d m : Int) (hd : isInt64 d) (hm : isInt64 m) :
    (0 < m →
      Duration.Round d m = max minDuration (min maxDuration (roundHalfAway d m)) ∧
      m ∣ roundHalfAway d m ∧
      2 * |d - roundHalfAway d m| ≤ m ∧
      (2 * |d - roundHalfAway d m| = m → |d| < |roundHalfAway d m|)) ∧
    (m ≤ 0 → Duration.Round d m = d) := by
  constructor
  · intro hm0
    unfold Duration.Round roundHalfAway
    rw [if_neg (by omega)]
    have hd' := hd
    have hm' := hm
    unfold isInt64 at hd' hm'
    by_cases h0 : 0 ≤ d
    · obtain ⟨e, r0, r1, r2, dv⟩ := rem64_pos d m hm0 hm h0
      rw [if_neg (by omega), if_pos h0]
      simp only [e]
      rw [lessThanHalf_eq _ _ r0 r1 hm]
      generalize d % m = r at e r0 r1 r2 dv ⊢
      by_cases hh : 2 * r < m
      · simp only [hh, decide_True, if_true]
        refine ⟨?_, dv, ?_, ?_⟩
        · unfold sub64 wrap64 minDuration maxDuration; omega
        · rw [abs_of_nonneg (by omega)]; omega
        · rw [abs_of_nonneg (by omega)]; omega
      · simp only [hh, decide_False, if_false, Bool.false_eq_true]
        refine ⟨?_, ?_, ?_, ?_⟩
        · unfold sub64 add64 wrap64 minDuration maxDuration
          split_ifs <;> omega
        · exact Dvd.dvd.add dv (Int.dvd_refl m)
        · rw [abs_of_nonpos (by omega)]; omega
        · intro _
          rw [abs_of_nonneg h0, abs_of_nonneg (by omega)]; omega
    · have h0' : d < 0 := by omega
      obtain ⟨e, r0, r1, r2, dv⟩ := rem64_neg d m hm0 hm h0'
      rw [if_pos h0', if_neg h0]
      simp only [e]
      have en : neg64 (-((-d) % m)) = (-d) % m := by
        unfold neg64 wrap64; omega
      rw [en, lessThanHalf_eq _ _ r0 r1 hm]
      generalize (-d) % m = r at e r0 r1 r2 dv en ⊢
      by_cases hh : 2 * r < m
      · simp only [hh, decide_True, if_true]
        refine ⟨?_, dv, ?_, ?_⟩
        · unfold add64 wrap64 minDuration maxDuration; omega
        · rw [abs_of_nonpos (by omega)]; omega
        · rw [abs_of_nonpos (by omega)]; omega
      · simp only [hh, decide_False, if_false, Bool.false_eq_true]
        refine ⟨?_, ?_, ?_, ?_⟩
        · unfold sub64 add64 wrap64 minDuration maxDuration
          split_ifs <;> omega
        · exact Dvd.dvd.sub dv (Int.dvd_refl m)
        · rw [abs_of_nonneg (by omega)]; omega
        · intro _
          rw [abs_of_nonpos (by omega), abs_of_nonpos (by omega)]; omega
  · intro hm0
    unfold Duration.Round
    rw [if_pos hm0]

theorem Duration_Round_nearest_witness :
    (0 < (10 : Int) →
      Duration.Round 9223372036854775807 10
        = max minDuration (min maxDuration (roundHalfAway 9223372036854775807 10)) ∧
      (10 : Int) ∣ roundHalfAway 9223372036854775807 10 ∧
      2 * |9223372036854775807 - roundHalfAway 9223372036854775807 10| ≤ 10 ∧
      (2 * |9223372036854775807 - roundHalfAway 9223372036854775807 10| = 10 →
        |(9223372036854775807 : Int)| < |roundHalfAway 9223372036854775807 10|)) ∧
    ((10 : Int) ≤ 0 → Duration.Round 9223372036854775807 10 = 9223372036854775807) :=
  Duration_Round_nearest 9223372036854775807 10 (by decide) (by decide)

/-! ## The leap-year rule and the ordering of times -/

/-- C32: `isLeap` is the proleptic Gregorian rule for every integer year: true exactly
when the year is divisible by 4 and not by 100, or divisible by 400. -/
theorem isLeap_gregorian (year : Int) :
    (isLeap year = true ↔ (4 ∣ year ∧ (¬ 100 ∣ year ∨ 400 ∣ year))) ∧
    isLeap 2019 = false ∧ isLeap 1900 = false ∧ isLeap 2020 = true ∧ isLeap 2000 = true ∧
    isLeap (-4) = true ∧ isLeap (-100) = false ∧ isLeap (-400) = true := by
  refine ⟨?_, by decide, by decide, by decide, by decide, by decide, by decide, by decide⟩
  rw [isLeap_eq]
  simp only [ne_eq, Bool.and_eq_true, Bool.or_eq_true, decide_eq_true_eq]
  omega

theorem and_and_hasMonotonic_comm (a b : Nat) :
    ((a &&& b) &&& hasMonotonic ≠ 0) ↔ ((b &&& a) &&& hasMonotonic ≠ 0) := by
  rw [Nat.and_comm a b]

/-- C34: for all times exactly one of `Before`, `Equal`, `After` holds; `t.Before(u)`
holds exactly when `u.After(t)` does; `Equal` is reflexive and symmetric. -/
theorem ordering_trichotomy (t u : Time) :
    ((t.Before u = true ∧ t.Equal u = false ∧ t.After u = false) ∨
      (t.Before u = false ∧ t.Equal u = true ∧ t.After u = false) ∨
      (t.Before u = false ∧ t.Equal u = false ∧ t.After u = true)) ∧
    (t.Before u = true ↔ u.After t = true) ∧
    t.Equal t = true ∧
    (t.Equal u = true ↔ u.Equal t = true) := by
  have hc : (u.hasMono ∧ t.hasMono) ↔ (t.hasMono ∧ u.hasMono) := And.comm
  rw [Before_eq t u, Equal_eq t u, After_eq t u, After_eq u t, Equal_eq t t, Equal_eq u t]
  by_cases h : t.hasMono ∧ u.hasMono
  · have h' : u.hasMono ∧ t.hasMono := hc.2 h
    have ht : t.hasMono ∧ t.hasMono := ⟨h.1, h.1⟩
    simp only [if_pos h, if_pos h', if_pos ht, decide_eq_true_eq, decide_eq_false_iff_not]
    refine ⟨by omega, trivial, trivial, eq_comm⟩
  · have h' : ¬ (u.hasMono ∧ t.hasMono) := fun x => h (hc.1 x)
    simp only [if_neg h, if_neg h', decide_eq_true_eq, decide_eq_false_iff_not]
    refine ⟨by omega, ⟨fun x => by omega, fun x => by omega⟩, ?_,
      ⟨fun x => by omega, fun x => by omega⟩⟩
    split_ifs <;> simp

/-! ## Absolute time of a UTC time; the zero time -/

theorem abs_of_loc_nil (Z : Zones) (t : Time) (h : t.loc = LocPtr.nil) :
    t.abs Z = wrapU64 (add64 t.unixSec (unixToInternal + internalToAbsolute)) := by
  unfold Time.abs
  simp [h, LocPtr.get]

theorem dateOfDays_UTC (Z : Zones) (d : Nat) (h mi s ns : Int) :
    dateOfDays Z d h mi s ns UTC = dateOfDays plainZones d h mi s ns UTC := by
  unfold dateOfDays
  simp [LocPtr.lookup, LocPtr.get, UTC]

theorem Date_UTC (Z : Zones) (y mo d h mi s ns : Int) :
    Date Z y mo d h mi s ns UTC = Date plainZones y mo d h mi s ns UTC := by
  rw [Date_eq, Date_eq]
  simp only [dateOfDays_UTC Z]

theorem IsZero_iff (t : Time) : t.IsZero = true ↔ (t.sec = 0 ∧ t.nsec = 0) := by
  unfold Time.IsZero
  simp

/-- C27: the zero `Time` is January 1, year 1, 00:00:00.000000000 UTC; `Date` of these
fields is the zero value; `IsZero` holds exactly when `sec()` and `nsec()` are both 0,
whatever the location; and `Date(1970, 1, 1, 0, 0, 0, 0, UTC).Unix()` is 0. -/
theorem zero_time (Z : Zones) (t : Time) (l : LocPtr) :
    Time.Date Z ⟨0, 0, LocPtr.nil⟩ = some (1, January, 1) ∧
    Time.Clock Z ⟨0, 0, LocPtr.nil⟩ = (0, 0, 0) ∧
    Time.Nanosecond ⟨0, 0, LocPtr.nil⟩ = 0 ∧
    Time.IsZero ⟨0, 0, LocPtr.nil⟩ = true ∧
    Date Z 1 January 1 0 0 0 0 UTC = some ⟨0, 0, LocPtr.nil⟩ ∧
    (t.IsZero = true ↔ (t.sec = 0 ∧ t.nsec = 0)) ∧
    Time.IsZero { t with loc := l } = t.IsZero ∧
    (Date Z 1970 January 1 0 0 0 0 UTC).map Time.Unix = some 0 := by
  have ha : Time.abs Z ⟨0, 0, LocPtr.nil⟩ = 9223371966579724800 := by
    rw [abs_of_loc_nil Z _ rfl]; decide
  refine ⟨?_, ?_, by decide, by decide, ?_, IsZero_iff t, rfl, ?_⟩
  · unfold Time.Date Time.date; rw [ha]; decide
  · unfold Time.Clock; rw [ha]; decide
  · rw [Date_UTC]; decide
  · rw [Date_UTC]; decide

/-! ## `Unix` and `Now` -/

theorem Unix_eq (sec nsec : Int) (hs : isInt64 sec) (hn : isInt64 nsec) :
    Unix sec nsec = unixTime (wrap64 (sec + nsec / 1000000000)) (nsec % 1000000000) := by
  unfold isInt64 at hs hn
  unfold Unix
  simp only [div64, add64, sub64, mul64, tdiv_eq _ 1000000000 (by norm_num), wrap32, wrap64]
  by_cases h0 : 0 ≤ nsec
  · simp only [if_pos h0]
    split_ifs <;> (congr 1 <;> omega)
  · simp only [if_neg h0]
    split_ifs <;> (congr 1 <;> omega)

theorem unixTime_fields (s n : Int) (hn0 : 0 ≤ n) (hn1 : n ≤ 999999999) :
    (unixTime s n).sec = wrap64 (s + unixToInternal) ∧ (unixTime s n).nsec = n ∧
      ¬ (unixTime s n).hasMono ∧ (unixTime s n).wellFormed := by
  have hw : wrapU64 n = n.toNat := wrapU64_of_nonneg hn0 (by omega)
  have hlt : n.toNat / 9223372036854775808 % 2 = 0 := by omega
  unfold unixTime
  rw [hw]
  refine ⟨sec_mk_wall _ _ _ hlt, ?_, ?_, wellFormed_mk_small _ _ _ (by omega)⟩
  · rw [nsec_mk]; omega
  · rw [hasMono_mk]; omega

/-- C25: `Unix` accepts any nanosecond argument: the result has its nanoseconds in
`[0, 999999999]`, represents `sec*10^9 + nsec` exactly when the adjusted seconds fit in
`int64`, and carries no monotonic reading. -/
theorem Unix_normalises (sec nsec : Int) (hs : isInt64 sec) (hn : isInt64 nsec)
    (hov : isInt64 (sec + nsec / 1000000000)) :
    0 ≤ (Unix sec nsec).Nanosecond ∧ (Unix sec nsec).Nanosecond ≤ 999999999 ∧
    (Unix sec nsec).Unix * 1000000000 + (Unix sec nsec).Nanosecond
      = sec * 1000000000 + nsec ∧
    ¬ (Unix sec nsec).hasMono ∧
    (0 ≤ nsec ∧ nsec < 1000000000 → (Unix sec nsec).Unix = sec) := by
  obtain ⟨e1, e2, e3, _⟩ := unixTime_fields (wrap64 (sec + nsec / 1000000000))
    (nsec % 1000000000) (by omega) (by omega)
  rw [Unix_eq sec nsec hs hn]
  unfold Time.Unix Time.Nanosecond Time.unixSec
  rw [e1, e2]
  have hu : unixToInternal = 62135596800 := by decide
  have hi : internalToUnix = -62135596800 := by decide
  unfold isInt64 at hs hn hov
  rw [hu, hi]
  unfold add64 wrap64
  refine ⟨by omega, by omega, by omega, e3, fun h => by omega⟩

theorem Unix_normalises_witness :
    0 ≤ (Unix 5 (-1)).Nanosecond ∧ (Unix 5 (-1)).Nanosecond ≤ 999999999 ∧
    (Unix 5 (-1)).Unix * 1000000000 + (Unix 5 (-1)).Nanosecond = 5 * 1000000000 + -1 ∧
    ¬ (Unix 5 (-1)).hasMono ∧
    (0 ≤ (-1 : Int) ∧ (-1 : Int) < 1000000000 → (Unix 5 (-1)).Unix = 5) :=
  Unix_normalises 5 (-1) (by decide) (by decide) (by decide)

theorem or_pack (s n : Nat) (hs : s < 8589934592) (hn : n < 1073741824) :
    (hasMonotonic ||| shl64 s nsecShift) ||| n
      = 9223372036854775808 + 1073741824 * s + n := by
  rw [shl64_nsecShift, Nat.mod_eq_of_lt (by omega), Nat.or_comm hasMonotonic,
    or_hasMonotonic _ (by omega)]
  have e : 9223372036854775808 + 1073741824 * s = 1073741824 * (8589934592 + s) := by omega
  rw [e, or_low _ _ hn]

theorem shr33_eq_zero_iff (x : Int) (hx : isInt64 x) :
    wrapU64 x >>> 33 = 0 ↔ (0 ≤ x ∧ x ≤ 8589934591) := by
  unfold isInt64 at hx
  rw [Nat.shiftRight_eq_div_pow]
  unfold wrapU64
  norm_num
  omega

theorem Now_eq (sec nsec mono startNano : Int) (hs : isInt64 sec)
    (hn0 : 0 ≤ nsec) (hn1 : nsec ≤ 999999999) :
    Now sec nsec mono startNano =
      if minWall ≤ sec + unixToInternal ∧ sec + unixToInternal ≤ maxWall then
        ⟨9223372036854775808 + 1073741824 * (sec + 2682288000).toNat + nsec.toNat,
          sub64 mono startNano, Local⟩
      else ⟨nsec.toNat, wrap64 (sec + unixToInternal), Local⟩ := by
  have hu : unixToInternal = 62135596800 := by decide
  have hmin : minWall = 59453308800 := by decide
  have hmax : maxWall = 68043243391 := by decide
  have hn : wrapU64 nsec = nsec.toNat := wrapU64_of_nonneg hn0 (by omega)
  unfold isInt64 at hs
  unfold Now
  rw [hu, hmin, hmax, hn]
  have hc : (62135596800 : Int) - 59453308800 = 2682288000 := by norm_num
  rw [hc]
  simp only [shr33_eq_zero_iff _ (isInt64_wrap64 _), add64, ne_eq]
  by_cases hr : 59453308800 ≤ sec + 62135596800 ∧ sec + 62135596800 ≤ 68043243391
  · have e : wrap64 (sec + 2682288000) = sec + 2682288000 := by unfold wrap64; omega
    rw [e]
    have hc2 : ¬ ¬ (0 ≤ sec + 2682288000 ∧ sec + 2682288000 ≤ 8589934591) := by omega
    rw [if_neg hc2, if_pos hr, wrapU64_of_nonneg (by omega) (by omega),
      or_pack _ _ (by omega) (by omega)]
  · have hc2 : ¬ (0 ≤ wrap64 (sec + 2682288000) ∧ wrap64 (sec + 2682288000) ≤ 8589934591) := by
      unfold wrap64; omega
    rw [if_pos hc2, if_neg hr]
    have e : wrap64 (wrap64 (sec + 2682288000) + 59453308800) = wrap64 (sec + 62135596800) := by
      unfold wrap64; omega
    rw [e]

/-- C26: `Now` packs the clock reading `(sec, nsec, mono)`: the result has `Unix() = sec`
and `Nanosecond() = nsec`, and it carries a monotonic reading, `mono - startNano`, exactly
when `minWall ≤ sec + unixToInternal ≤ maxWall`; `minWall` is the `sec()` of
`Date(1885, 1, 1, 0, 0, 0, 0, UTC)` and `maxWall = minWall + 2^33 - 1` is in year 2157. -/
theorem Now_packs (sec nsec mono startNano : Int) (hs : isInt64 sec)
    (hn0 : 0 ≤ nsec) (hn1 : nsec ≤ 999999999) :
    (Now sec nsec mono startNano).Unix = sec ∧
    (Now sec nsec mono startNano).Nanosecond = nsec ∧
    ((Now sec nsec mono startNano).hasMono ↔
      (minWall ≤ sec + unixToInternal ∧ sec + unixToInternal ≤ maxWall)) ∧
    ((Now sec nsec mono startNano).hasMono →
      (Now sec nsec mono startNano).mono = sub64 mono startNano) ∧
    (Date plainZones 1885 1 1 0 0 0 0 UTC).map Time.sec = some minWall ∧
    maxWall = minWall + 2 ^ 33 - 1 ∧
    (Time.Date plainZones ⟨0, maxWall, LocPtr.nil⟩).map (fun r => r.1) = some 2157 := by
  refine ⟨?_, ?_, ?_, ?_, by decide, by decide, by decide⟩
  all_goals rw [Now_eq sec nsec mono startNano hs hn0 hn1]
  all_goals
    have hu : unixToInternal = 62135596800 := by decide
    have hi : internalToUnix = -62135596800 := by decide
    have hmin : minWall = 59453308800 := by decide
    have hmax : maxWall = 68043243391 := by decide
    have hwi : wallToInternal = 59453308800 := by decide
    unfold isInt64 at hs
    rw [hu, hmin, hmax]
    by_cases hr : 59453308800 ≤ sec + 62135596800 ∧ sec + 62135596800 ≤ 68043243391
  · rw [if_pos hr]
    obtain ⟨p1, p2, p3⟩ := packed_bits _ (sec + 2682288000).toNat nsec.toNat rfl
      (by omega) (by omega)
    unfold Time.Unix Time.unixSec
    rw [sec_mk_mono _ _ _ p1, p3, hwi, hi]
    unfold add64 wrap64; omega
  · rw [if_neg hr]
    unfold Time.Unix Time.unixSec
    rw [sec_mk_wall _ _ _ (by omega), hi]
    unfold add64 wrap64; omega
  · rw [if_pos hr]
    obtain ⟨p1, p2, p3⟩ := packed_bits _ (sec + 2682288000).toNat nsec.toNat rfl
      (by omega) (by omega)
    unfold Time.Nanosecond
    rw [nsec_mk, p2]; omega
  · rw [if_neg hr]
    unfold Time.Nanosecond
    rw [nsec_mk]; omega
  · rw [if_pos hr]
    obtain ⟨p1, p2, p3⟩ := packed_bits _ (sec + 2682288000).toNat nsec.toNat rfl
      (by omega) (by omega)
    rw [hasMono_mk]
    exact ⟨fun _ => hr, fun _ => p1⟩
  · rw [if_neg hr, hasMono_mk]
    constructor
    · intro h; omega
    · intro h; exact absurd h hr
  · rw [if_pos hr]
    intro h
    exact mono_of_hasMono h
  · rw [if_neg hr, hasMono_mk]
    intro h; omega

theorem Now_packs_witness :
    (Now 1600000000 5 77 3).Unix = 1600000000 ∧ (Now 1600000000 5 77 3).Nanosecond = 5 :=
  ⟨(Now_packs 1600000000 5 77 3 (by decide) (by decide) (by decide)).1,
   (Now_packs 1600000000 5 77 3 (by decide) (by decide) (by decide)).2.1⟩

/-! ## Weekdays -/

theorem absWeekday_eq (abs : Nat) (h : abs < 18446744073709551616 - 86400) :
    absWeekday abs = (((abs / 86400 + 1) % 7 : Nat) : Int) := by
  have hm : umul (wrapU64 Monday) secondsPerDay = 86400 := by decide
  have hd : ((secondsPerDay : Nat) : Int) = 86400 := by decide
  have hw : secondsPerWeek = 604800 := by decide
  unfold absWeekday
  rw [hm, hd, hw, uadd_small _ _ (by omega)]
  have e2 : (abs + 86400) % 604800 / 86400 = (abs / 86400 + 1) % 7 := by
    have h1 := Nat.mod_mul_right_div_self (abs + 86400) 86400 7
    rw [Nat.add_div_right _ (by norm_num : 0 < 86400)] at h1
    exact h1
  have hlt : (abs + 86400) % 604800 < 604800 := Nat.mod_lt _ (by norm_num)
  generalize (abs + 86400) % 604800 = s at hlt e2
  have e : div64 (toInt64 s) 86400 = ((s / 86400 : Nat) : Int) := by
    clear e2 h
    simp only [div64, toInt64, tdiv_eq _ 86400 (by norm_num), wrap64]
    omega
  rw [e, e2]

/-- C29, as stated, fails in the last two days of the `uint64` range: for
`abs = 2^64 - 111616 < 2^64 - 86400` both `absWeekday(abs)` and `absWeekday(abs + 86400)`
are Sunday, because the addition of one day inside `absWeekday` wraps. -/
theorem absWeekday_wraps_near_top :
    (18446744073709440000 : Nat) < 18446744073709551616 - 86400 ∧
    absWeekday 18446744073709440000 = 0 ∧
    absWeekday (18446744073709440000 + 86400) = 0 ∧
    ¬ (absWeekday (18446744073709440000 + 86400)
        = (absWeekday 18446744073709440000 + 1) % 7) := by
  decide

/-- C29 (amended): for every absolute time `abs < 2^64 - 2*86400`, `absWeekday(abs)` is in
`0..6`, advances by one (mod 7) when a day is added, and depends only on `abs / 86400`;
January 1 of the absolute zero year, January 1, 2001 and the zero `Time` are Mondays. -/
theorem absWeekday_anchored (abs : Nat) (h : abs < 18446744073709551616 - 172800) :
    (Sunday ≤ absWeekday abs ∧ absWeekday abs ≤ Saturday) ∧
    absWeekday (abs + 86400) = (absWeekday abs + 1) % 7 ∧
    (∀ abs2 : Nat, abs2 < 18446744073709551616 - 172800 → abs2 / 86400 = abs / 86400 →
      absWeekday abs2 = absWeekday abs) ∧
    absWeekday 0 = Monday ∧
    (Date plainZones 2001 1 1 0 0 0 0 UTC).map (fun t => t.Weekday plainZones)
      = some Monday ∧
    Time.Weekday plainZones ⟨0, 0, LocPtr.nil⟩ = Monday := by
  have hs : Sunday = 0 := rfl
  have hsa : Saturday = 6 := rfl
  refine ⟨?_, ?_, ?_, by decide, by decide, by decide⟩
  · rw [absWeekday_eq abs (by omega), hs, hsa]; omega
  · rw [absWeekday_eq abs (by omega), absWeekday_eq (abs + 86400) (by omega)]; omega
  · intro abs2 h2 he
    rw [absWeekday_eq abs (by omega), absWeekday_eq abs2 (by omega), he]

theorem absWeekday_anchored_witness :
    (Sunday ≤ absWeekday 86399 ∧ absWeekday 86399 ≤ Saturday) ∧
    absWeekday (86399 + 86400) = (absWeekday 86399 + 1) % 7 :=
  ⟨(absWeekday_anchored 86399 (by decide)).1, (absWeekday_anchored 86399 (by decide)).2.1⟩

/-! ## The binary encoding -/

theorem byteOf_shr (x : Int) (k p : Nat) (hp : 2 ^ k = p) :
    byteOf (x >>> k) = ((x / (p : Int)) % 256).toNat := by
  unfold byteOf; rw [Int.shiftRight_eq_div_pow, hp]

theorem w64_byte7 (x : Int) :
    ((x / ((72057594037927936 : Nat) : Int)) % 256).toNat
      = (x % 18446744073709551616).toNat / 72057594037927936 % 256 := by omega

theorem w64_byte6 (x : Int) :
    ((x / ((281474976710656 : Nat) : Int)) % 256).toNat
      = (x % 18446744073709551616).toNat / 281474976710656 % 256 := by omega

theorem w64_byte5 (x : Int) :
    ((x / ((1099511627776 : Nat) : Int)) % 256).toNat
      = (x % 18446744073709551616).toNat / 1099511627776 % 256 := by omega

theorem w64_byte4 (x : Int) :
    ((x / ((4294967296 : Nat) : Int)) % 256).toNat
      = (x % 18446744073709551616).toNat / 4294967296 % 256 := by omega

theorem w64_byte3 (x : Int) :
    ((x / ((16777216 : Nat) : Int)) % 256).toNat
      = (x % 18446744073709551616).toNat / 16777216 % 256 := by omega

theorem w64_byte2 (x : Int) :
    ((x / ((65536 : Nat) : Int)) % 256).toNat
      = (x % 18446744073709551616).toNat / 65536 % 256 := by omega

theorem w64_byte1 (x : Int) :
    ((x / ((256 : Nat) : Int)) % 256).toNat
      = (x % 18446744073709551616).toNat / 256 % 256 := by omega

theorem w64_byte0 (x : Int) : (x % 256).toNat = (x % 18446744073709551616).toNat % 256 := by omega

theorem w32_byte3 (x : Int) :
    ((x / ((16777216 : Nat) : Int)) % 256).toNat
      = (x % 4294967296).toNat / 16777216 % 256 := by omega

theorem w32_byte2 (x : Int) :
    ((x / ((65536 : Nat) : Int)) % 256).toNat
      = (x % 4294967296).toNat / 65536 % 256 := by omega

theorem w32_byte1 (x : Int) :
    ((x / ((256 : Nat) : Int)) % 256).toNat
      = (x % 4294967296).toNat / 256 % 256 := by omega

theorem w32_byte0 (x : Int) : (x % 256).toNat = (x % 4294967296).toNat % 256 := by omega

theorem w16_byte1 (x : Int) :
    ((x / ((256 : Nat) : Int)) % 256).toNat
      = (x % 65536).toNat / 256 % 256 := by omega

theorem w16_byte0 (x : Int) : (x % 256).toNat = (x % 65536).toNat % 256 := by omega

theorem sec_bytes (x : Int) :
    [byteOf (x >>> (56 : Nat)), byteOf (x >>> (48 : Nat)), byteOf (x >>> (40 : Nat)),
      byteOf (x >>> (32 : Nat)), byteOf (x >>> (24 : Nat)), byteOf (x >>> (16 : Nat)),
      byteOf (x >>> (8 : Nat)), byteOf x]
      = beBytes 8 (wrapU64 x) := by
  have p7 : 256 ^ 7 = 72057594037927936 := by norm_num
  have p6 : 256 ^ 6 = 281474976710656 := by norm_num
  have p5 : 256 ^ 5 = 1099511627776 := by norm_num
  have p4 : 256 ^ 4 = 4294967296 := by norm_num
  have p3 : 256 ^ 3 = 16777216 := by norm_num
  have p2 : 256 ^ 2 = 65536 := by norm_num
  have p1 : 256 ^ 1 = 256 := by norm_num
  have p0 : 256 ^ 0 = 1 := by norm_num
  rw [byteOf_shr x 56 72057594037927936 (by norm_num), byteOf_shr x 48 281474976710656 (by norm_num), byteOf_shr x 40 1099511627776 (by norm_num), byteOf_shr x 32 4294967296 (by norm_num), byteOf_shr x 24 16777216 (by norm_num), byteOf_shr x 16 65536 (by norm_num), byteOf_shr x 8 256 (by norm_num)]
  simp only [beBytes, p7, p6, p5, p4, p3, p2, p1, p0, byteOf, wrapU64, Nat.div_one]
  rw [w64_byte7 x, w64_byte6 x, w64_byte5 x, w64_byte4 x, w64_byte3 x, w64_byte2 x, w64_byte1 x, w64_byte0 x]

theorem nsec_bytes (x : Int) :
    [byteOf (x >>> (24 : Nat)), byteOf (x >>> (16 : Nat)), byteOf (x >>> (8 : Nat)), byteOf x]
      = beBytes 4 (x % 4294967296).toNat := by
  have p3 : 256 ^ 3 = 16777216 := by norm_num
  have p2 : 256 ^ 2 = 65536 := by norm_num
  have p1 : 256 ^ 1 = 256 := by norm_num
  have p0 : 256 ^ 0 = 1 := by norm_num
  rw [byteOf_shr x 24 16777216 (by norm_num), byteOf_shr x 16 65536 (by norm_num), byteOf_shr x 8 256 (by norm_num)]
  simp only [beBytes, p3, p2, p1, p0, byteOf, Nat.div_one]
  rw [w32_byte3 x, w32_byte2 x, w32_byte1 x, w32_byte0 x]

theorem off_bytes (x : Int) :
    [byteOf (x >>> (8 : Nat)), byteOf x]
      = beBytes 2 (x % 65536).toNat := by
  have p1 : 256 ^ 1 = 256 := by norm_num
  have p0 : 256 ^ 0 = 1 := by norm_num
  rw [byteOf_shr x 8 256 (by norm_num)]
  simp only [beBytes, p1, p0, byteOf, Nat.div_one]
  rw [w16_byte1 x, w16_byte0 x]

theorem beBytes_length (n x : Nat) : (beBytes n x).length = n := by
  induction n with
  | zero => rfl
  | succ k ih => simp [beBytes, ih]

theorem MarshalBinary_UTC (Z : Zones) (t : Time) (h : t.Location = UTC) :
    t.MarshalBinary Z = Except.ok (timeBinaryVersion ::
      (beBytes 8 (wrapU64 t.sec) ++ beBytes 4 (t.nsec % 4294967296).toNat ++ [255, 255])) := by
  have hs := sec_bytes t.sec
  have hn := nsec_bytes t.nsec
  have ho : [byteOf ((-1 : Int) >>> (8 : Nat)), byteOf (-1)] = [255, 255] := by decide
  unfold Time.MarshalBinary
  simp only [if_pos h]
  rw [← hs, ← hn, ← ho]
  rfl

theorem MarshalBinary_zone (Z : Zones) (t : Time) (h : t.Location ≠ UTC)
    (hi : isInt64 (t.Zone Z)) (he : encodableOffset (t.Zone Z)) :
    t.MarshalBinary Z = Except.ok (timeBinaryVersion ::
      (beBytes 8 (wrapU64 t.sec) ++ beBytes 4 (t.nsec % 4294967296).toNat ++
        beBytes 2 ((t.Zone Z / 60) % 65536).toNat)) := by
  have hs := sec_bytes t.sec
  have hn := nsec_bytes t.nsec
  unfold isInt64 at hi
  obtain ⟨h1, h2, h3, h4⟩ := he
  have hrem : rem64 (t.Zone Z) 60 = 0 := by
    unfold rem64; rw [(tmod_eq_zero_iff (t.Zone Z) 60).2 h1]; rfl
  have hdiv : div64 (t.Zone Z) 60 = t.Zone Z / 60 := by
    unfold div64; rw [tdiv_eq (t.Zone Z) 60 (by norm_num)]
    unfold wrap64
    split_ifs <;> omega
  have hw : wrap16 (t.Zone Z / 60) = t.Zone Z / 60 := by unfold wrap16; omega
  have hok : ¬ (t.Zone Z / 60 < -32768 ∨ t.Zone Z / 60 = -1 ∨ t.Zone Z / 60 > 32767) := by
    omega
  have ho := off_bytes (t.Zone Z / 60)
  unfold Time.MarshalBinary
  simp only [if_neg h, hrem, hdiv, hw, ne_eq, not_true_eq_false, if_false, if_neg hok]
  rw [← hs, ← hn, ← ho]
  rfl

/-- C19: `MarshalBinary` of a time in the UTC location succeeds with 15 bytes: the version
byte 1, `sec()` as a big-endian 64-bit two's-complement word, `nsec()` as a big-endian
32-bit word, and `0xFF 0xFF`; in another location with an encodable offset the last two
bytes are the offset in minutes as a big-endian 16-bit two's-complement word. -/
theorem MarshalBinary_layout (Z : Zones) (t : Time) :
    (t.Location = UTC →
      t.MarshalBinary Z = Except.ok (1 ::
        (beBytes 8 (wrapU64 t.sec) ++ beBytes 4 (t.nsec % 4294967296).toNat ++ [255, 255])) ∧
      (1 :: (beBytes 8 (wrapU64 t.sec) ++ beBytes 4 (t.nsec % 4294967296).toNat
        ++ [255, 255])).length = 15) ∧
    (t.Location ≠ UTC → isInt64 (t.Zone Z) → encodableOffset (t.Zone Z) →
      t.MarshalBinary Z = Except.ok (1 ::
        (beBytes 8 (wrapU64 t.sec) ++ beBytes 4 (t.nsec % 4294967296).toNat ++
          beBytes 2 ((t.Zone Z / 60) % 65536).toNat))) := by
  refine ⟨fun h => ⟨MarshalBinary_UTC Z t h, ?_⟩, fun h hi he => MarshalBinary_zone Z t h hi he⟩
  simp [beBytes_length]

theorem MarshalBinary_layout_witness :
    Time.MarshalBinary plainZones ⟨hasMonotonic + 7, 99, LocPtr.nil⟩
      = Except.ok (1 ::
        (beBytes 8 (wrapU64 (Time.sec ⟨hasMonotonic + 7, 99, LocPtr.nil⟩))
          ++ beBytes 4 (Time.nsec ⟨hasMonotonic + 7, 99, LocPtr.nil⟩ % 4294967296).toNat
          ++ [255, 255])) :=
  ((MarshalBinary_layout plainZones ⟨hasMonotonic + 7, 99, LocPtr.nil⟩).1 (by decide)).1

/-- C22, as stated, fails at the offset of -32768 minutes: in a zone `1966080` seconds
west of UTC `MarshalBinary` succeeds, although `o/60 = -32768` lies outside
`[-32767, 32767]`. -/
theorem MarshalBinary_accepts_min_offset :
    Time.Location ⟨0, 0, LocPtr.zone 1⟩ ≠ UTC ∧
    Time.Zone (offsetZones (-1966080)) ⟨0, 0, LocPtr.zone 1⟩ = -1966080 ∧
    (-1966080 : Int) / 60 < -32767 ∧
    (Time.MarshalBinary (offsetZones (-1966080)) ⟨0, 0, LocPtr.zone 1⟩).isOk = true := by
  decide

/-- C22 (amended): in a non-UTC location whose offset is `o` seconds, `MarshalBinary`
returns an error exactly when `o` is not a whole number of minutes, or `o/60` is the
sentinel `-1`, or `o/60` lies outside `[-32768, 32767]`. -/
theorem MarshalBinary_rejects (Z : Zones) (t : Time) (h : t.Location ≠ UTC)
    (hi : isInt64 (t.Zone Z)) :
    (t.MarshalBinary Z).isOk = false ↔
      (t.Zone Z % 60 ≠ 0 ∨ t.Zone Z / 60 = -1 ∨ t.Zone Z / 60 < -32768 ∨
        t.Zone Z / 60 > 32767) := by
  by_cases he : encodableOffset (t.Zone Z)
  · rw [MarshalBinary_zone Z t h hi he]
    unfold encodableOffset at he
    simp only [Except.isOk, Except.toBool]
    constructor
    · intro x; exact absurd x (by decide)
    · intro x; omega
  · have hne : t.Zone Z % 60 ≠ 0 ∨ t.Zone Z / 60 = -1 ∨ t.Zone Z / 60 < -32768 ∨
        t.Zone Z / 60 > 32767 := by
      unfold encodableOffset at he; omega
    refine ⟨fun _ => hne, fun _ => ?_⟩
    unfold isInt64 at hi
    unfold Time.MarshalBinary
    simp only [if_neg h]
    by_cases hr : t.Zone Z % 60 = 0
    · have hrem : rem64 (t.Zone Z) 60 = 0 := by
        unfold rem64; rw [(tmod_eq_zero_iff (t.Zone Z) 60).2 hr]; rfl
      have hdiv : div64 (t.Zone Z) 60 = t.Zone Z / 60 := by
        unfold div64; rw [tdiv_eq (t.Zone Z) 60 (by norm_num)]
        unfold wrap64
        split_ifs <;> omega
      have hbad : t.Zone Z / 60 < -32768 ∨ t.Zone Z / 60 = -1 ∨ t.Zone Z / 60 > 32767 := by
        omega
      simp only [hrem, hdiv, ne_eq, not_true_eq_false, if_false, if_pos hbad]
      rfl
    · have hrem : rem64 (t.Zone Z) 60 ≠ 0 := by
        intro h0
        apply hr
        apply (tmod_eq_zero_iff (t.Zone Z) 60).1
        have hb : Int.tmod (t.Zone Z) 60 = rem64 (t.Zone Z) 60 := by
          unfold rem64; rw [tmod_eq (t.Zone Z) 60 (by norm_num)]
          unfold wrap64
          split_ifs <;> omega
        rw [hb, h0]
      simp only [ne_eq, hrem, not_false_eq_true, if_true]
      rfl

theorem MarshalBinary_rejects_witness :
    (Time.MarshalBinary (offsetZones 90) ⟨0, 0, LocPtr.zone 1⟩).isOk = false ↔
      (Time.Zone (offsetZones 90) ⟨0, 0, LocPtr.zone 1⟩ % 60 ≠ 0 ∨
        Time.Zone (offsetZones 90) ⟨0, 0, LocPtr.zone 1⟩ / 60 = -1 ∨
        Time.Zone (offsetZones 90) ⟨0, 0, LocPtr.zone 1⟩ / 60 < -32768 ∨
        Time.Zone (offsetZones 90) ⟨0, 0, LocPtr.zone 1⟩ / 60 > 32767) :=
  MarshalBinary_rejects (offsetZones 90) ⟨0, 0, LocPtr.zone 1⟩ (by decide) (by decide)

/-! ## Decoding -/

/-- The seconds word read from the eight bytes at positions 1 to 8. -/
theorem UnmarshalBinary_ok (Z : Zones) (t : Time) (data : List Nat)
    (h1 : data.length = 15) (h2 : data.getD 0 0 = 1) :
    ∃ l : LocPtr, t.UnmarshalBinary Z data =
      (Time.setLoc
        { wall := wrapU64
            (or32 (or32 (or32 (byteAt (data.drop 9) 3) (shl32i (byteAt (data.drop 9) 2) 8))
              (shl32i (byteAt (data.drop 9) 1) 16)) (shl32i (byteAt (data.drop 9) 0) 24)),
          ext :=
            or64 (or64 (or64 (or64 (or64 (or64 (or64 (byteAt (data.drop 1) 7)
              (shl64i (byteAt (data.drop 1) 6) 8))
              (shl64i (byteAt (data.drop 1) 5) 16)) (shl64i (byteAt (data.drop 1) 4) 24))
              (shl64i (byteAt (data.drop 1) 3) 32)) (shl64i (byteAt (data.drop 1) 2) 40))
              (shl64i (byteAt (data.drop 1) 1) 48)) (shl64i (byteAt (data.drop 1) 0) 56),
          loc := LocPtr.nil } l, none) := by
  have hv : timeBinaryVersion = 1 := rfl
  have h15 : 1 + 8 + 4 + 2 = 15 := rfl
  have h0 : ¬ data.length = 0 := by omega
  unfold Time.UnmarshalBinary
  rw [hv, h15]
  rw [if_neg h0, if_neg (not_not.mpr h2), if_neg (not_not.mpr h1)]
  simp only [List.drop_drop, Nat.reduceAdd]
  split_ifs
  · exact ⟨_, rfl⟩
  · exact ⟨_, rfl⟩
  · exact ⟨_, rfl⟩

/-- C23: `UnmarshalBinary` returns an error exactly when the data is empty, its first
byte is not 1, or its length is not 15; on an error the receiver is unchanged. -/
theorem UnmarshalBinary_errors (Z : Zones) (t : Time) (data : List Nat) :
    ((t.UnmarshalBinary Z data).2 ≠ none ↔
      (data.length = 0 ∨ data.getD 0 0 ≠ 1 ∨ data.length ≠ 15)) ∧
    ((t.UnmarshalBinary Z data).2 ≠ none → (t.UnmarshalBinary Z data).1 = t) := by
  by_cases h1 : data.length = 15
  · by_cases h2 : data.getD 0 0 = 1
    · obtain ⟨l, hl⟩ := UnmarshalBinary_ok Z t data h1 h2
      rw [hl]
      simp only [ne_eq, not_true_eq_false, false_iff, false_implies, and_true]
      omega
    · have h0 : ¬ data.length = 0 := by omega
      have hv : timeBinaryVersion = 1 := rfl
      unfold Time.UnmarshalBinary
      rw [hv, if_neg h0, if_pos h2]
      exact ⟨⟨fun _ => Or.inr (Or.inl h2), fun _ => by simp⟩, fun _ => rfl⟩
  · have hv : timeBinaryVersion = 1 := rfl
    have h15 : 1 + 8 + 4 + 2 = 15 := rfl
    unfold Time.UnmarshalBinary
    rw [hv, h15]
    by_cases h0 : data.length = 0
    · rw [if_pos h0]
      exact ⟨⟨fun _ => Or.inl h0, fun _ => by simp⟩, fun _ => rfl⟩
    · by_cases h2 : data.getD 0 0 = 1
      · rw [if_neg h0, if_neg (not_not.mpr h2), if_pos h1]
        exact ⟨⟨fun _ => Or.inr (Or.inr h1), fun _ => by simp⟩, fun _ => rfl⟩
      · rw [if_neg h0, if_pos h2]
        exact ⟨⟨fun _ => Or.inr (Or.inl h2), fun _ => by simp⟩, fun _ => rfl⟩

theorem or_shift (x b k : Nat) (hx : x < 2 ^ k) : x ||| (b * 2 ^ k) = x + b * 2 ^ k := by
  have h := Nat.mul_add_lt_is_or hx b
  rw [Nat.lor_comm, Nat.mul_comm, ← h, Nat.add_comm]

theorem wrapU64_toInt64 (n : Nat) (h : n < 18446744073709551616) : wrapU64 (toInt64 n) = n := by
  unfold wrapU64 toInt64 wrap64
  omega

theorem wrapU64_or64 (a b : Int) : wrapU64 (or64 a b) = wrapU64 a ||| wrapU64 b := by
  unfold or64
  apply wrapU64_toInt64
  have h1 : wrapU64 a < 2 ^ 64 := by unfold wrapU64; omega
  have h2 : wrapU64 b < 2 ^ 64 := by unfold wrapU64; omega
  exact Nat.or_lt_two_pow h1 h2

theorem wrapU64_shl64i (b k : Nat) (hb : b < 256) (hk : k ≤ 56) :
    wrapU64 (shl64i (b : Int) k) = b * 2 ^ k := by
  have h1 : (2 : Nat) ^ k ≤ 2 ^ 56 := Nat.pow_le_pow_right (by norm_num) hk
  have h2 : b * 2 ^ k ≤ 255 * 2 ^ 56 := Nat.mul_le_mul (by omega) h1
  have h3 : ((b : Int) * 2 ^ k) = ((b * 2 ^ k : Nat) : Int) := by push_cast; rfl
  unfold shl64i
  rw [h3]
  generalize b * 2 ^ k = m at h2
  unfold wrapU64 wrap64
  norm_num at h2
  omega

theorem or64_step (a : Int) (x b k : Nat) (ha : wrapU64 a = x) (hx : x < 2 ^ k)
    (hb : b < 256) (hk : k ≤ 56) :
    wrapU64 (or64 a (shl64i (b : Int) k)) = x + b * 2 ^ k := by
  rw [wrapU64_or64, ha, wrapU64_shl64i b k hb hk, or_shift x b k hx]

theorem toInt64_wrapU64 (a : Int) : toInt64 (wrapU64 a) = wrap64 a := by
  unfold toInt64 wrapU64 wrap64
  omega

theorem wrap64_or64 (a b : Int) : wrap64 (or64 a b) = or64 a b := by
  unfold or64 toInt64 wrap64
  omega

/-- The eight `or`-ed shifted bytes of the decoder are the big-endian value of the bytes,
read as an `int64`. -/
theorem decode64 (b0 b1 b2 b3 b4 b5 b6 b7 : Nat) (h0 : b0 < 256) (h1 : b1 < 256)
    (h2 : b2 < 256) (h3 : b3 < 256) (h4 : b4 < 256) (h5 : b5 < 256) (h6 : b6 < 256)
    (h7 : b7 < 256) :
    or64 (or64 (or64 (or64 (or64 (or64 (or64 (b7 : Int) (shl64i (b6 : Int) 8))
      (shl64i (b5 : Int) 16)) (shl64i (b4 : Int) 24)) (shl64i (b3 : Int) 32))
      (shl64i (b2 : Int) 40)) (shl64i (b1 : Int) 48)) (shl64i (b0 : Int) 56)
      = toInt64 (beValue [b0, b1, b2, b3, b4, b5, b6, b7]) := by
  have e7 : wrapU64 (b7 : Int) = b7 := by unfold wrapU64; omega
  have e6 := or64_step _ _ b6 8 e7 (by norm_num; omega) h6 (by norm_num)
  have e5 := or64_step _ _ b5 16 e6 (by norm_num; omega) h5 (by norm_num)
  have e4 := or64_step _ _ b4 24 e5 (by norm_num; omega) h4 (by norm_num)
  have e3 := or64_step _ _ b3 32 e4 (by norm_num; omega) h3 (by norm_num)
  have e2 := or64_step _ _ b2 40 e3 (by norm_num; omega) h2 (by norm_num)
  have e1 := or64_step _ _ b1 48 e2 (by norm_num; omega) h1 (by norm_num)
  have e0 := or64_step _ _ b0 56 e1 (by norm_num; omega) h0 (by norm_num)
  have hv : beValue [b0, b1, b2, b3, b4, b5, b6, b7] =
      b7 + b6 * 2 ^ 8 + b5 * 2 ^ 16 + b4 * 2 ^ 24 + b3 * 2 ^ 32 + b2 * 2 ^ 40 + b1 * 2 ^ 48
        + b0 * 2 ^ 56 := by
    simp only [beValue, List.foldl]
    ring
  rw [hv, ← e0, toInt64_wrapU64, wrap64_or64]

theorem length15 (data : List Nat) (h : data.length = 15) :
    ∃ v b0 b1 b2 b3 b4 b5 b6 b7 n0 n1 n2 n3 o0 o1 : Nat,
      data = [v, b0, b1, b2, b3, b4, b5, b6, b7, n0, n1, n2, n3, o0, o1] := by
  rcases data with _ | ⟨v, _ | ⟨b0, _ | ⟨b1, _ | ⟨b2, _ | ⟨b3, _ | ⟨b4, _ | ⟨b5, _ | ⟨b6, _ | ⟨b7, _ | ⟨n0, _ | ⟨n1, _ | ⟨n2, _ | ⟨n3, _ | ⟨o0, _ | ⟨o1, _ | ⟨x, rest⟩⟩⟩⟩⟩⟩⟩⟩⟩⟩⟩⟩⟩⟩⟩⟩ <;> simp at h
  exact ⟨v, b0, b1, b2, b3, b4, b5, b6, b7, n0, n1, n2, n3, o0, o1, rfl⟩

theorem u32_wrap32 (m : Nat) (h : m < 4294967296) :
    (wrap32 (m : Int) % 4294967296).toNat = m := by
  unfold wrap32; omega

theorem u32_or32 (a b : Int) :
    (or32 a b % 4294967296).toNat = (a % 4294967296).toNat ||| (b % 4294967296).toNat := by
  unfold or32
  apply u32_wrap32
  have h1 : (a % 4294967296).toNat < 2 ^ 32 := by omega
  have h2 : (b % 4294967296).toNat < 2 ^ 32 := by omega
  exact Nat.or_lt_two_pow h1 h2

theorem u32_shl32i (b k : Nat) (hb : b < 256) (hk : k ≤ 24) :
    (shl32i (b : Int) k % 4294967296).toNat = b * 2 ^ k := by
  have h1 : (2 : Nat) ^ k ≤ 2 ^ 24 := Nat.pow_le_pow_right (by norm_num) hk
  have h2 : b * 2 ^ k ≤ 255 * 2 ^ 24 := Nat.mul_le_mul (by omega) h1
  have h3 : ((b : Int) * 2 ^ k) = ((b * 2 ^ k : Nat) : Int) := by push_cast; rfl
  unfold shl32i
  rw [h3]
  generalize b * 2 ^ k = m at h2
  unfold wrap32
  norm_num at h2
  omega

theorem or32_step (a : Int) (x b k : Nat) (ha : (a % 4294967296).toNat = x) (hx : x < 2 ^ k)
    (hb : b < 256) (hk : k ≤ 24) :
    (or32 a (shl32i (b : Int) k) % 4294967296).toNat = x + b * 2 ^ k := by
  rw [u32_or32, ha, u32_shl32i b k hb hk, or_shift x b k hx]

theorem or32_eq (a b : Int) : or32 a b = toInt32 ((or32 a b % 4294967296).toNat) := by
  unfold or32 toInt32 wrap32
  omega

/-- The four shifted bytes of the decoder are the big-endian value of the bytes, read as
an int32. -/
theorem decode32 (n0 n1 n2 n3 : Nat) (h0 : n0 < 256) (h1 : n1 < 256) (h2 : n2 < 256)
    (h3 : n3 < 256) :
    or32 (or32 (or32 (n3 : Int) (shl32i (n2 : Int) 8)) (shl32i (n1 : Int) 16))
      (shl32i (n0 : Int) 24) = toInt32 (beValue [n0, n1, n2, n3]) := by
  have e3 : ((n3 : Int) % 4294967296).toNat = n3 := by omega
  have e2 := or32_step _ _ n2 8 e3 (by norm_num; omega) h2 (by norm_num)
  have e1 := or32_step _ _ n1 16 e2 (by norm_num; omega) h1 (by norm_num)
  have e0 := or32_step _ _ n0 24 e1 (by norm_num; omega) h0 (by norm_num)
  have hv : beValue [n0, n1, n2, n3] = n3 + n2 * 2 ^ 8 + n1 * 2 ^ 16 + n0 * 2 ^ 24 := by
    simp only [beValue, List.foldl]
    ring
  rw [hv, ← e0]
  exact or32_eq _ _

/-- On a 15-byte input of version 1 the decoder builds its result from the big-endian
values of bytes 1 to 8 and of bytes 9 to 12, and then sets a location. -/
theorem UnmarshalBinary_decoded (Z : Zones) (t : Time) (data : List Nat)
    (hl : data.length = 15) (hv : data.getD 0 0 = 1) (hb : allBytes data) :
    ∃ l : LocPtr, t.UnmarshalBinary Z data =
      (Time.setLoc
        { wall := wrapU64 (toInt32 (beValue ((data.drop 9).take 4))),
          ext := toInt64 (beValue ((data.drop 1).take 8)),
          loc := LocPtr.nil } l, none) := by
  obtain ⟨l, h⟩ := UnmarshalBinary_ok Z t data hl hv
  refine ⟨l, ?_⟩
  rw [h]
  obtain ⟨v, b0, b1, b2, b3, b4, b5, b6, b7, n0, n1, n2, n3, o0, o1, rfl⟩ := length15 data hl
  unfold allBytes at hb
  have d64 := decode64 b0 b1 b2 b3 b4 b5 b6 b7 (hb b0 (by simp)) (hb b1 (by simp))
    (hb b2 (by simp)) (hb b3 (by simp)) (hb b4 (by simp)) (hb b5 (by simp))
    (hb b6 (by simp)) (hb b7 (by simp))
  have d32 := decode32 n0 n1 n2 n3 (hb n0 (by simp)) (hb n1 (by simp)) (hb n2 (by simp))
    (hb n3 (by simp))
  have e1 : (List.drop 1 [v, b0, b1, b2, b3, b4, b5, b6, b7, n0, n1, n2, n3, o0, o1]).take 8
      = [b0, b1, b2, b3, b4, b5, b6, b7] := rfl
  have e2 : (List.drop 9 [v, b0, b1, b2, b3, b4, b5, b6, b7, n0, n1, n2, n3, o0, o1]).take 4
      = [n0, n1, n2, n3] := rfl
  rw [e1, e2, ← d64, ← d32]
  rfl

/-- C21, as stated, fails: on the 15 bytes `01 00×8 80 00 00 00 FF FF` the nanosecond
bytes read as a signed 32-bit integer are `-2^31` and the seconds bytes are 0, but the
decoded Time has `nsec() = 0` and `sec() = wallToInternal + 8589934590`. -/
theorem UnmarshalBinary_top_bit_nanoseconds :
    toInt32 (beValue (([1, 0, 0, 0, 0, 0, 0, 0, 0, 128, 0, 0, 0, 255, 255].drop 9).take 4))
        = -2147483648 ∧
      toInt64 (beValue (([1, 0, 0, 0, 0, 0, 0, 0, 0, 128, 0, 0, 0, 255, 255].drop 1).take 8))
        = 0 ∧
      ((Time.UnmarshalBinary plainZones ⟨0, 0, LocPtr.nil⟩
        [1, 0, 0, 0, 0, 0, 0, 0, 0, 128, 0, 0, 0, 255, 255]).1.nsec = 0 ∧
       (Time.UnmarshalBinary plainZones ⟨0, 0, LocPtr.nil⟩
        [1, 0, 0, 0, 0, 0, 0, 0, 0, 128, 0, 0, 0, 255, 255]).1.sec = 68043243390) := by
  decide

/-- The fields of the decoded Time when the nanosecond bytes read below `2^30`. -/
theorem decoded_fields (Z : Zones) (t : Time) (data : List Nat)
    (hl : data.length = 15) (hv : data.getD 0 0 = 1) (hb : allBytes data)
    (hn : beValue ((data.drop 9).take 4) < 1073741824) :
    (t.UnmarshalBinary Z data).2 = none ∧
      (t.UnmarshalBinary Z data).1.sec = toInt64 (beValue ((data.drop 1).take 8)) ∧
      (t.UnmarshalBinary Z data).1.nsec = toInt32 (beValue ((data.drop 9).take 4)) ∧
      ¬ (t.UnmarshalBinary Z data).1.hasMono := by
  obtain ⟨l, h⟩ := UnmarshalBinary_decoded Z t data hl hv hb
  rw [h]
  refine ⟨rfl, ?_, ?_, setLoc_not_hasMono _ l⟩
  · show (Time.setLoc _ l).sec = _
    rw [setLoc_sec]
    apply sec_mk_wall
    generalize beValue ((data.drop 9).take 4) = N at hn
    unfold wrapU64 toInt32 wrap32
    omega
  · show (Time.setLoc _ l).nsec = _
    rw [setLoc_nsec]
    have hm := nsec_mk (wrapU64 (toInt32 (beValue ((data.drop 9).take 4))))
      (toInt64 (beValue ((data.drop 1).take 8))) LocPtr.nil
    rw [hm]
    generalize beValue ((data.drop 9).take 4) = N at hn
    unfold wrapU64 toInt32 wrap32
    omega

theorem beValue4_lt (data : List Nat) (hl : data.length = 15) (hb : allBytes data) :
    beValue ((data.drop 9).take 4) < 4294967296 := by
  obtain ⟨v, b0, b1, b2, b3, b4, b5, b6, b7, n0, n1, n2, n3, o0, o1, rfl⟩ := length15 data hl
  unfold allBytes at hb
  have h0 := hb n0 (by simp)
  have h1 := hb n1 (by simp)
  have h2 := hb n2 (by simp)
  have h3 := hb n3 (by simp)
  have e2 : (List.drop 9 [v, b0, b1, b2, b3, b4, b5, b6, b7, n0, n1, n2, n3, o0, o1]).take 4
      = [n0, n1, n2, n3] := rfl
  rw [e2]
  simp only [beValue, List.foldl]
  omega

/-- The wall word that the decoder stores for the nanosecond bytes of value `N`: the
sign-extended `int32`. -/
theorem decoded_wall (N : Nat) (h : N < 4294967296) :
    wrapU64 (toInt32 N) = if N < 2147483648 then N else 18446744069414584320 + N := by
  unfold wrapU64 toInt32 wrap32
  split_ifs <;> omega

/-- C21 (amended): for every 15-byte input whose first byte is 1, `UnmarshalBinary`
succeeds and the resulting Time carries no monotonic reading.  With `N` the bytes 9..12
read as a big-endian unsigned integer, `nsec()` is `N mod 2^30`, which is the bytes read as
a big-endian signed 32-bit integer exactly when `N < 2^30`; `sec()` is the bytes 1..8 read
as a big-endian signed 64-bit integer when `N < 2^31`, and is
`wallToInternal + 2^33 - 4 + N / 2^30` when `N >= 2^31`. -/
theorem UnmarshalBinary_fields (Z : Zones) (t : Time) (data : List Nat)
    (hl : data.length = 15) (hv : data.getD 0 0 = 1) (hb : allBytes data) :
    (t.UnmarshalBinary Z data).2 = none ∧
      ¬ (t.UnmarshalBinary Z data).1.hasMono ∧
      (t.UnmarshalBinary Z data).1.nsec
        = ((beValue ((data.drop 9).take 4) % 1073741824 : Nat) : Int) ∧
      ((t.UnmarshalBinary Z data).1.nsec = toInt32 (beValue ((data.drop 9).take 4)) ↔
        beValue ((data.drop 9).take 4) < 1073741824) ∧
      (beValue ((data.drop 9).take 4) < 2147483648 →
        (t.UnmarshalBinary Z data).1.sec = toInt64 (beValue ((data.drop 1).take 8))) ∧
      (2147483648 ≤ beValue ((data.drop 9).take 4) →
        (t.UnmarshalBinary Z data).1.sec = wallToInternal + 8589934588
          + ((beValue ((data.drop 9).take 4) / 1073741824 : Nat) : Int)) := by
  obtain ⟨l, h⟩ := UnmarshalBinary_decoded Z t data hl hv hb
  have hN := beValue4_lt data hl hb
  rw [h]
  have hw := decoded_wall _ hN
  generalize beValue ((data.drop 9).take 4) = N at hN hw ⊢
  generalize toInt64 (beValue ((data.drop 1).take 8)) = S
  have hns : (Time.setLoc ⟨wrapU64 (toInt32 N), S, LocPtr.nil⟩ l).nsec
      = ((N % 1073741824 : Nat) : Int) := by
    rw [setLoc_nsec]
    have hm := nsec_mk (wrapU64 (toInt32 N)) S LocPtr.nil
    rw [hm, hw]
    split_ifs <;> omega
  refine ⟨rfl, setLoc_not_hasMono _ l, hns, ?_, ?_, ?_⟩
  · show (Time.setLoc ⟨wrapU64 (toInt32 N), S, LocPtr.nil⟩ l).nsec = toInt32 N ↔ _
    rw [hns]
    unfold toInt32 wrap32
    omega
  · intro hlt
    show (Time.setLoc ⟨wrapU64 (toInt32 N), S, LocPtr.nil⟩ l).sec = S
    rw [setLoc_sec]
    apply sec_mk_wall
    rw [hw, if_pos hlt]
    omega
  · intro hge
    show (Time.setLoc ⟨wrapU64 (toInt32 N), S, LocPtr.nil⟩ l).sec = _
    rw [setLoc_sec]
    have hbit : wrapU64 (toInt32 N) / 9223372036854775808 % 2 = 1 := by
      rw [hw, if_neg (by omega)]
      omega
    rw [sec_mk_mono _ _ _ hbit, hw, if_neg (by omega)]
    have e : (18446744069414584320 + N) % 9223372036854775808 / 1073741824
        = 8589934588 + N / 1073741824 := by omega
    rw [e]
    push_cast
    ring

theorem UnmarshalBinary_fields_witness :
    ((Time.UnmarshalBinary plainZones ⟨0, 0, LocPtr.nil⟩
        [1, 0, 0, 0, 14, 187, 75, 55, 229, 7, 91, 205, 21, 255, 255]).2 = none ∧
      ¬ (Time.UnmarshalBinary plainZones ⟨0, 0, LocPtr.nil⟩
        [1, 0, 0, 0, 14, 187, 75, 55, 229, 7, 91, 205, 21, 255, 255]).1.hasMono ∧
      (Time.UnmarshalBinary plainZones ⟨0, 0, LocPtr.nil⟩
        [1, 0, 0, 0, 14, 187, 75, 55, 229, 7, 91, 205, 21, 255, 255]).1.nsec
        = ((beValue (([1, 0, 0, 0, 14, 187, 75, 55, 229, 7, 91, 205, 21, 255, 255].drop 9).take 4)
            % 1073741824 : Nat) : Int) ∧
      (Time.UnmarshalBinary plainZones ⟨0, 0, LocPtr.nil⟩
        [1, 0, 0, 0, 14, 187, 75, 55, 229, 7, 91, 205, 21, 255, 255]).1.sec
        = toInt64 (beValue
          (([1, 0, 0, 0, 14, 187, 75, 55, 229, 7, 91, 205, 21, 255, 255].drop 1).take 8))) ∧
    (Time.UnmarshalBinary plainZones ⟨0, 0, LocPtr.nil⟩
        [1, 0, 0, 0, 0, 0, 0, 0, 9, 192, 0, 0, 1, 255, 255]).1.sec
      = wallToInternal + 8589934588
        + ((beValue (([1, 0, 0, 0, 0, 0, 0, 0, 9, 192, 0, 0, 1, 255, 255].drop 9).take 4)
            / 1073741824 : Nat) : Int) :=
  ⟨⟨(UnmarshalBinary_fields plainZones ⟨0, 0, LocPtr.nil⟩
      [1, 0, 0, 0, 14, 187, 75, 55, 229, 7, 91, 205, 21, 255, 255]
      (by decide) (by decide) (by unfold allBytes; decide)).1,
    (UnmarshalBinary_fields plainZones ⟨0, 0, LocPtr.nil⟩
      [1, 0, 0, 0, 14, 187, 75, 55, 229, 7, 91, 205, 21, 255, 255]
      (by decide) (by decide) (by unfold allBytes; decide)).2.1,
    (UnmarshalBinary_fields plainZones ⟨0, 0, LocPtr.nil⟩
      [1, 0, 0, 0, 14, 187, 75, 55, 229, 7, 91, 205, 21, 255, 255]
      (by decide) (by decide) (by unfold allBytes; decide)).2.2.1,
    (UnmarshalBinary_fields plainZones ⟨0, 0, LocPtr.nil⟩
      [1, 0, 0, 0, 14, 187, 75, 55, 229, 7, 91, 205, 21, 255, 255]
      (by decide) (by decide) (by unfold allBytes; decide)).2.2.2.2.1 (by decide)⟩,
   (UnmarshalBinary_fields plainZones ⟨0, 0, LocPtr.nil⟩
      [1, 0, 0, 0, 0, 0, 0, 0, 9, 192, 0, 0, 1, 255, 255]
      (by decide) (by decide) (by unfold allBytes; decide)).2.2.2.2.2 (by decide)⟩

theorem beValue_beBytes8 (x : Nat) (h : x < 18446744073709551616) :
    beValue (beBytes 8 x) = x := by
  simp only [beBytes, beValue, List.foldl]
  norm_num
  omega

theorem beValue_beBytes4 (x : Nat) (h : x < 4294967296) : beValue (beBytes 4 x) = x := by
  simp only [beBytes, beValue, List.foldl]
  norm_num
  omega

theorem allBytes_beBytes (n x : Nat) : allBytes (beBytes n x) := by
  induction n with
  | zero => intro b hb; simp [beBytes] at hb
  | succ k ih =>
    intro b hb
    simp only [beBytes, List.mem_cons] at hb
    rcases hb with rfl | hb
    · exact Nat.mod_lt _ (by norm_num)
    · exact ih b hb

theorem isInt64_sec (t : Time) (h : t.isWord) : isInt64 t.sec := by
  unfold Time.sec
  split
  · exact isInt64_wrap64 _
  · exact h.2

/-- The decoder sets the nil (UTC) location when the decoded offset is the sentinel. -/
theorem UnmarshalBinary_sentinel (Z : Zones) (t : Time) (data : List Nat)
    (hl : data.length = 15) (hv : data.getD 0 0 = 1)
    (ho : mul64 (or16 (byteAt (data.drop 13) 1) (shl16i (byteAt (data.drop 13) 0) 8)) 60
      = -1 * 60) :
    (t.UnmarshalBinary Z data).1.loc = LocPtr.nil := by
  have hv1 : timeBinaryVersion = 1 := rfl
  have h15 : 1 + 8 + 4 + 2 = 15 := rfl
  have h0 : ¬ data.length = 0 := by omega
  unfold Time.UnmarshalBinary
  rw [hv1, h15, if_neg h0, if_neg (not_not.mpr hv), if_neg (not_not.mpr hl)]
  simp only [List.drop_drop, Nat.reduceAdd]
  rw [if_pos ho]
  exact setLoc_loc _ _

/-- The decoder sets the nil (UTC) location when the last two bytes are `0xFF 0xFF`. -/
theorem UnmarshalBinary_utc (Z : Zones) (t : Time) (data : List Nat)
    (hl : data.length = 15) (hv : data.getD 0 0 = 1)
    (h13 : data.getD 13 0 = 255) (h14 : data.getD 14 0 = 255) :
    (t.UnmarshalBinary Z data).1.loc = LocPtr.nil := by
  apply UnmarshalBinary_sentinel Z t data hl hv
  obtain ⟨v, b0, b1, b2, b3, b4, b5, b6, b7, n0, n1, n2, n3, o0, o1, rfl⟩ := length15 data hl
  have e13 : o0 = 255 := h13
  have e14 : o1 = 255 := h14
  subst e13 e14
  have a : List.drop 13 [v, b0, b1, b2, b3, b4, b5, b6, b7, n0, n1, n2, n3, 255, 255]
      = [255, 255] := rfl
  rw [a]
  decide

/-- C20: for every Time `t` in the UTC location (with or without a monotonic reading),
`UnmarshalBinary` applied to the bytes returned by `t.MarshalBinary()` succeeds and yields
a Time with the same `sec()` and `nsec()` as `t`, the nil (UTC) location and no monotonic
reading. -/
theorem binary_round_trip (Z : Zones) (t r : Time) (hw : t.isWord) (hu : t.Location = UTC) :
    ∃ bytes : List Nat, t.MarshalBinary Z = Except.ok bytes ∧
      (r.UnmarshalBinary Z bytes).2 = none ∧
      (r.UnmarshalBinary Z bytes).1.sec = t.sec ∧
      (r.UnmarshalBinary Z bytes).1.nsec = t.nsec ∧
      (r.UnmarshalBinary Z bytes).1.loc = LocPtr.nil ∧
      ¬ (r.UnmarshalBinary Z bytes).1.hasMono := by
  refine ⟨_, MarshalBinary_UTC Z t hu, ?_⟩
  have hv1 : timeBinaryVersion = 1 := rfl
  rw [hv1]
  have hs : wrapU64 t.sec < 18446744073709551616 := by unfold wrapU64; omega
  have hn0 := nsec_eq t
  have hnn : (t.nsec % 4294967296).toNat = t.wall % 1073741824 := by omega
  have hn : (t.nsec % 4294967296).toNat < 4294967296 := by omega
  have l8 := beBytes_length 8 (wrapU64 t.sec)
  have l4 := beBytes_length 4 (t.nsec % 4294967296).toNat
  have d1 : ((1 :: (beBytes 8 (wrapU64 t.sec) ++ beBytes 4 (t.nsec % 4294967296).toNat
      ++ [255, 255])).drop 1).take 8 = beBytes 8 (wrapU64 t.sec) := by
    simp [List.take_append_of_le_length, l8]
  have d9 : ((1 :: (beBytes 8 (wrapU64 t.sec) ++ beBytes 4 (t.nsec % 4294967296).toNat
      ++ [255, 255])).drop 9).take 4 = beBytes 4 (t.nsec % 4294967296).toNat := by
    simp only [beBytes]
    rfl
  have hl : (1 :: (beBytes 8 (wrapU64 t.sec) ++ beBytes 4 (t.nsec % 4294967296).toNat
      ++ [255, 255])).length = 15 := by simp [l8, l4]
  have hb : allBytes (1 :: (beBytes 8 (wrapU64 t.sec) ++
      beBytes 4 (t.nsec % 4294967296).toNat ++ [255, 255])) := by
    intro b hb
    simp only [List.mem_cons, List.mem_append, List.mem_singleton] at hb
    rcases hb with rfl | (hb | hb) | rfl | rfl | hb
    · norm_num
    · exact allBytes_beBytes _ _ b hb
    · exact allBytes_beBytes _ _ b hb
    · norm_num
    · norm_num
    · simp at hb
  have hv : (1 :: (beBytes 8 (wrapU64 t.sec) ++ beBytes 4 (t.nsec % 4294967296).toNat
      ++ [255, 255])).getD 0 0 = 1 := rfl
  have h13 : (1 :: (beBytes 8 (wrapU64 t.sec) ++ beBytes 4 (t.nsec % 4294967296).toNat
      ++ [255, 255])).getD 13 0 = 255 := by
    simp only [beBytes]
    rfl
  have h14 : (1 :: (beBytes 8 (wrapU64 t.sec) ++ beBytes 4 (t.nsec % 4294967296).toNat
      ++ [255, 255])).getD 14 0 = 255 := by
    simp only [beBytes]
    rfl
  have hlt : beValue (((1 :: (beBytes 8 (wrapU64 t.sec) ++
      beBytes 4 (t.nsec % 4294967296).toNat ++ [255, 255])).drop 9).take 4) < 1073741824 := by
    rw [d9, beValue_beBytes4 _ hn, hnn]
    omega
  obtain ⟨f1, f2, f3, f4⟩ := decoded_fields Z r _ hl hv hb hlt
  refine ⟨f1, ?_, ?_, UnmarshalBinary_utc Z r _ hl hv h13 h14, f4⟩
  · rw [f2, d1, beValue_beBytes8 _ hs, toInt64_wrapU64]
    exact wrap64_of_isInt64 (isInt64_sec t hw)
  · rw [f3, d9, beValue_beBytes4 _ hn, hnn, hn0]
    unfold toInt32 wrap32
    omega

theorem binary_round_trip_witness :
    ∃ bytes : List Nat,
      Time.MarshalBinary plainZones ⟨hasMonotonic + 7, 99, LocPtr.nil⟩ = Except.ok bytes ∧
      (Time.UnmarshalBinary plainZones ⟨5, 5, LocPtr.localLoc⟩ bytes).2 = none ∧
      (Time.UnmarshalBinary plainZones ⟨5, 5, LocPtr.localLoc⟩ bytes).1.sec =
        Time.sec ⟨hasMonotonic + 7, 99, LocPtr.nil⟩ ∧
      (Time.UnmarshalBinary plainZones ⟨5, 5, LocPtr.localLoc⟩ bytes).1.nsec =
        Time.nsec ⟨hasMonotonic + 7, 99, LocPtr.nil⟩ ∧
      (Time.UnmarshalBinary plainZones ⟨5, 5, LocPtr.localLoc⟩ bytes).1.loc = LocPtr.nil ∧
      ¬ (Time.UnmarshalBinary plainZones ⟨5, 5, LocPtr.localLoc⟩ bytes).1.hasMono :=
  binary_round_trip plainZones ⟨hasMonotonic + 7, 99, LocPtr.nil⟩ ⟨5, 5, LocPtr.localLoc⟩
    (by decide) (by decide)

/-! ## The division of a Time by a Duration -/

theorem divShift_spec (fuel : Nat) : ∀ d1 : Nat, 0 < d1 → d1 < 18446744073709551616 →
    18446744073709551616 ≤ d1 * 2 ^ fuel →
    ∃ k, k < fuel ∧ divShift fuel d1 = some (d1 * 2 ^ k) ∧
      9223372036854775808 ≤ d1 * 2 ^ k ∧ d1 * 2 ^ k < 18446744073709551616 := by
  induction fuel with
  | zero =>
    intro d1 _ h2 h3
    simp at h3
    omega
  | succ f ih =>
    intro d1 h1 h2 h3
    by_cases hc : d1 >>> 63 ≠ 1
    · have hlt : d1 < 9223372036854775808 := by
        rw [Nat.shiftRight_eq_div_pow] at hc
        norm_num at hc
        omega
      have hs : shl64 d1 1 = 2 * d1 := by
        unfold shl64
        rw [Nat.shiftLeft_eq]
        omega
      have h3' : 18446744073709551616 ≤ 2 * d1 * 2 ^ f := by
        rw [pow_succ] at h3
        have : d1 * (2 ^ f * 2) = 2 * d1 * 2 ^ f := by ring
        omega
      obtain ⟨k, hk, he, hr1, hr2⟩ := ih (2 * d1) (by omega) (by omega) h3'
      refine ⟨k + 1, by omega, ?_, ?_, ?_⟩
      · rw [divShift, if_pos hc, hs, he]
        congr 1
        rw [pow_succ]; ring
      · have : d1 * 2 ^ (k + 1) = 2 * d1 * 2 ^ k := by rw [pow_succ]; ring
        omega
      · have : d1 * 2 ^ (k + 1) = 2 * d1 * 2 ^ k := by rw [pow_succ]; ring
        omega
    · have hge : 9223372036854775808 ≤ d1 := by
        rw [Nat.shiftRight_eq_div_pow] at hc
        norm_num at hc
        omega
      refine ⟨0, by omega, ?_, ?_, ?_⟩
      · rw [divShift, if_neg hc]; simp
      · simpa using hge
      · simpa using h2

/-- One conditional 128-bit subtraction of the second loop of `div`. -/
theorem sub128 (u1 u0 d1 d0 : Nat) (hu1 : u1 < 18446744073709551616)
    (hu0 : u0 < 18446744073709551616) (hd1 : d1 < 18446744073709551616)
    (hd0 : d0 < 18446744073709551616)
    (h2 : u1 * 18446744073709551616 + u0 < 2 * (d1 * 18446744073709551616 + d0)) :
    (if decide (u1 > d1 ∨ (u1 = d1 ∧ u0 ≥ d0)) = true then
        usub (if usub u0 d0 > u0 then usub u1 1 else u1) d1 else u1) * 18446744073709551616
      + (if decide (u1 > d1 ∨ (u1 = d1 ∧ u0 ≥ d0)) = true then usub u0 d0 else u0)
      = (if d1 * 18446744073709551616 + d0 ≤ u1 * 18446744073709551616 + u0 then
          u1 * 18446744073709551616 + u0 - (d1 * 18446744073709551616 + d0)
        else u1 * 18446744073709551616 + u0) ∧
    (if decide (u1 > d1 ∨ (u1 = d1 ∧ u0 ≥ d0)) = true then
        usub (if usub u0 d0 > u0 then usub u1 1 else u1) d1 else u1) < 18446744073709551616 ∧
    (if decide (u1 > d1 ∨ (u1 = d1 ∧ u0 ≥ d0)) = true then usub u0 d0 else u0)
      < 18446744073709551616 := by
  by_cases hc : u1 > d1 ∨ (u1 = d1 ∧ u0 ≥ d0)
  · have hge : d1 * 18446744073709551616 + d0 ≤ u1 * 18446744073709551616 + u0 := by omega
    simp only [hc, decide_True, if_true, if_pos hge]
    by_cases hb : u0 < d0
    · have e0 : usub u0 d0 = u0 + 18446744073709551616 - d0 := by unfold usub; omega
      have hgt : usub u0 d0 > u0 := by omega
      have e1 : usub u1 1 = u1 - 1 := by unfold usub; omega
      have e2 : usub (u1 - 1) d1 = u1 - 1 - d1 := by unfold usub; omega
      rw [if_pos hgt, e1, e2, e0]
      omega
    · have e0 : usub u0 d0 = u0 - d0 := by unfold usub; omega
      have hgt : ¬ usub u0 d0 > u0 := by omega
      have e2 : usub u1 d1 = u1 - d1 := by unfold usub; omega
      rw [if_neg hgt, e2, e0]
      omega
  · have hlt : ¬ d1 * 18446744073709551616 + d0 ≤ u1 * 18446744073709551616 + u0 := by omega
    simp only [hc, decide_False, if_neg hlt]
    simp
    omega

theorem divLoop_succ (f u1 u0 d1 d0 d : Nat) :
    divLoop (f + 1) u1 u0 d1 d0 d =
      if d1 = 0 ∧ d0 = d then
        some ((if decide (u1 > d1 ∨ (u1 = d1 ∧ u0 ≥ d0)) = true then 1 else 0),
          (if decide (u1 > d1 ∨ (u1 = d1 ∧ u0 ≥ d0)) = true then usub u0 d0 else u0))
      else
        divLoop f
          (if decide (u1 > d1 ∨ (u1 = d1 ∧ u0 ≥ d0)) = true then
            usub (if usub u0 d0 > u0 then usub u1 1 else u1) d1 else u1)
          (if decide (u1 > d1 ∨ (u1 = d1 ∧ u0 ≥ d0)) = true then usub u0 d0 else u0)
          (d1 >>> 1) ((d0 >>> 1) ||| shl64 (d1 &&& 1) 63) d := by
  rw [divLoop]
  by_cases hc : u1 > d1 ∨ (u1 = d1 ∧ u0 ≥ d0)
  · simp only [hc, decide_True, if_true]
  · simp only [hc, decide_False]
    rfl

theorem halve128 (d1 d0 E : Nat) (hd0 : d0 < 18446744073709551616)
    (hd1 : d1 < 18446744073709551616) (hD : d1 * 18446744073709551616 + d0 = 2 * E) :
    (d1 >>> 1) * 18446744073709551616 + ((d0 >>> 1) ||| shl64 (d1 &&& 1) 63) = E ∧
      d1 >>> 1 < 18446744073709551616 ∧
      ((d0 >>> 1) ||| shl64 (d1 &&& 1) 63) < 18446744073709551616 := by
  have h1 : d1 >>> 1 = d1 / 2 := by rw [Nat.shiftRight_eq_div_pow]
  have h0 : d0 >>> 1 = d0 / 2 := by rw [Nat.shiftRight_eq_div_pow]
  have ha : d1 &&& 1 = d1 % 2 := Nat.and_one_is_mod d1
  have hs : shl64 (d1 % 2) 63 = (d1 % 2) * 2 ^ 63 := by
    unfold shl64
    rw [Nat.shiftLeft_eq]
    have : d1 % 2 < 2 := Nat.mod_lt _ (by norm_num)
    have h63 : (2 : Nat) ^ 63 = 9223372036854775808 := by norm_num
    rw [h63]
    omega
  have hor := or_shift (d0 / 2) (d1 % 2) 63 (by norm_num; omega)
  rw [h1, h0, ha, hs, hor]
  norm_num
  omega

/-- The second loop of `div` leaves the remainder of the 128-bit number by `d`: when the
divisor word pair is `d * 2^j` and exceeds half the dividend, `j + 1` rounds suffice. -/
theorem divLoop_spec (d : Nat) (hd : 0 < d) (hd64 : d < 18446744073709551616) (j : Nat) :
    ∀ (f u1 u0 d1 d0 : Nat), j ≤ f → u1 < 18446744073709551616 → u0 < 18446744073709551616 →
      d1 < 18446744073709551616 → d0 < 18446744073709551616 →
      d1 * 18446744073709551616 + d0 = d * 2 ^ j →
      u1 * 18446744073709551616 + u0 < 2 * (d1 * 18446744073709551616 + d0) →
      ∃ q : Int, divLoop (f + 1) u1 u0 d1 d0 d =
        some (q, (u1 * 18446744073709551616 + u0) % d) := by
  induction j with
  | zero =>
    intro f u1 u0 d1 d0 _ hu1 hu0 hd1 hd0 hD hU
    simp only [pow_zero, Nat.mul_one] at hD
    have hx : d1 = 0 ∧ d0 = d := by omega
    obtain ⟨s1, s2, s3⟩ := sub128 u1 u0 d1 d0 hu1 hu0 hd1 hd0 hU
    rw [divLoop_succ, if_pos hx]
    refine ⟨(if decide (u1 > d1 ∨ (u1 = d1 ∧ u0 ≥ d0)) = true then 1 else 0), ?_⟩
    congr 2
    generalize (if decide (u1 > d1 ∨ (u1 = d1 ∧ u0 ≥ d0)) = true then
        usub (if usub u0 d0 > u0 then usub u1 1 else u1) d1 else u1) = a at s1 s2
    generalize (if decide (u1 > d1 ∨ (u1 = d1 ∧ u0 ≥ d0)) = true then usub u0 d0 else u0)
      = b at s1 s3
    generalize hUU : u1 * 18446744073709551616 + u0 = U at s1 hU
    rw [hD] at s1 hU
    clear hx hD hUU
    by_cases hc : d ≤ U
    · rw [if_pos hc] at s1
      have hb : b = U - d := by omega
      rw [hb]
      have h1 : (U - d) % d = U % d := by
        have := Nat.sub_mul_mod (x := U) (k := 1) (n := d) (by omega)
        simpa using this
      rw [← h1]
      exact (Nat.mod_eq_of_lt (by omega)).symm
    · rw [if_neg hc] at s1
      have hb : b = U := by omega
      rw [hb]
      exact (Nat.mod_eq_of_lt (by omega)).symm
  | succ j ih =>
    intro f u1 u0 d1 d0 hf hu1 hu0 hd1 hd0 hD hU
    obtain ⟨f, rfl⟩ : ∃ g, f = g + 1 := ⟨f - 1, by omega⟩
    have hE : d * 2 ^ (j + 1) = 2 * (d * 2 ^ j) := by rw [pow_succ]; ring
    have hEd : d ≤ d * 2 ^ j := Nat.le_mul_of_pos_right _ (by positivity)
    rw [hE] at hD
    have hx : ¬ (d1 = 0 ∧ d0 = d) := by omega
    obtain ⟨s1, s2, s3⟩ := sub128 u1 u0 d1 d0 hu1 hu0 hd1 hd0 hU
    obtain ⟨v1, v2, v3⟩ := halve128 d1 d0 (d * 2 ^ j) hd0 hd1 hD
    rw [divLoop_succ, if_neg hx]
    generalize (if decide (u1 > d1 ∨ (u1 = d1 ∧ u0 ≥ d0)) = true then
        usub (if usub u0 d0 > u0 then usub u1 1 else u1) d1 else u1) = a at s1 s2 ⊢
    generalize (if decide (u1 > d1 ∨ (u1 = d1 ∧ u0 ≥ d0)) = true then usub u0 d0 else u0)
      = b at s1 s3 ⊢
    generalize (d1 >>> 1) = e1 at v1 v2 ⊢
    generalize ((d0 >>> 1) ||| shl64 (d1 &&& 1) 63) = e0 at v1 v3 ⊢
    have hU' : a * 18446744073709551616 + b < 2 * (e1 * 18446744073709551616 + e0) := by
      rw [v1, s1]
      split_ifs <;> omega
    obtain ⟨q, hq⟩ := ih f a b e1 e0 (by omega) s2 s3 v2 v3 v1 hU'
    refine ⟨q, ?_⟩
    rw [hq, s1]
    congr 2
    generalize u1 * 18446744073709551616 + u0 = U at s1 hU ⊢
    rw [hD]
    split_ifs with hc
    · have e : 2 * (d * 2 ^ j) = d * (2 * 2 ^ j) := by ring
      rw [e]
      exact Nat.sub_mul_mod (by rw [← e]; exact hc)
    · rfl

/-- The 128-bit number that the general case of `div` builds is `sec * 10^9 + nsec`. -/
theorem div_u128 (S n : Nat) (hS : S < 18446744073709551616) (hn : n < 1000000000) :
    (if uadd (uadd (shl64 (umul (S >>> 32) 1000000000) 32)
            (umul (S &&& 4294967295) 1000000000)) n
          < uadd (shl64 (umul (S >>> 32) 1000000000) 32) (umul (S &&& 4294967295) 1000000000)
        then uadd (if uadd (shl64 (umul (S >>> 32) 1000000000) 32)
              (umul (S &&& 4294967295) 1000000000) < shl64 (umul (S >>> 32) 1000000000) 32
            then uadd (umul (S >>> 32) 1000000000 >>> 32) 1
            else umul (S >>> 32) 1000000000 >>> 32) 1
        else (if uadd (shl64 (umul (S >>> 32) 1000000000) 32)
              (umul (S &&& 4294967295) 1000000000) < shl64 (umul (S >>> 32) 1000000000) 32
            then uadd (umul (S >>> 32) 1000000000 >>> 32) 1
            else umul (S >>> 32) 1000000000 >>> 32)) * 18446744073709551616
      + uadd (uadd (shl64 (umul (S >>> 32) 1000000000) 32)
            (umul (S &&& 4294967295) 1000000000)) n
      = S * 1000000000 + n ∧
    (if uadd (uadd (shl64 (umul (S >>> 32) 1000000000) 32)
            (umul (S &&& 4294967295) 1000000000)) n
          < uadd (shl64 (umul (S >>> 32) 1000000000) 32) (umul (S &&& 4294967295) 1000000000)
        then uadd (if uadd (shl64 (umul (S >>> 32) 1000000000) 32)
              (umul (S &&& 4294967295) 1000000000) < shl64 (umul (S >>> 32) 1000000000) 32
            then uadd (umul (S >>> 32) 1000000000 >>> 32) 1
            else umul (S >>> 32) 1000000000 >>> 32) 1
        else (if uadd (shl64 (umul (S >>> 32) 1000000000) 32)
              (umul (S &&& 4294967295) 1000000000) < shl64 (umul (S >>> 32) 1000000000) 32
            then uadd (umul (S >>> 32) 1000000000 >>> 32) 1
            else umul (S >>> 32) 1000000000 >>> 32)) < 18446744073709551616 ∧
    uadd (uadd (shl64 (umul (S >>> 32) 1000000000) 32)
            (umul (S &&& 4294967295) 1000000000)) n < 18446744073709551616 := by
  have h1 : S >>> 32 = S / 4294967296 := by rw [Nat.shiftRight_eq_div_pow]
  have h2 : S &&& 4294967295 = S % 4294967296 := by
    have h : (4294967295 : Nat) = 2 ^ 32 - 1 := by norm_num
    rw [h, Nat.and_pow_two_sub_one_eq_mod]
  have h3 : umul (S / 4294967296) 1000000000 = S / 4294967296 * 1000000000 :=
    umul_small _ _ (by omega)
  have h4 : umul (S % 4294967296) 1000000000 = S % 4294967296 * 1000000000 :=
    umul_small _ _ (by omega)
  rw [h1, h2, h3, h4]
  generalize hA : S / 4294967296 * 1000000000 = A
  generalize hB : S % 4294967296 * 1000000000 = B
  have hAlt : A < 4294967296 * 1000000000 := by omega
  have hBlt : B < 4294967296 * 1000000000 := by omega
  have hS2 : S * 1000000000 = A * 4294967296 + B := by omega
  rw [hS2]
  clear hA hB hS2 h1 h2 h3 h4 hS
  have h5 : A >>> 32 = A / 4294967296 := by rw [Nat.shiftRight_eq_div_pow]
  have h6 : shl64 A 32 = A % 4294967296 * 4294967296 := by
    unfold shl64
    rw [Nat.shiftLeft_eq]
    norm_num
    omega
  rw [h5, h6]
  generalize hH : A / 4294967296 = H
  generalize hL : A % 4294967296 * 4294967296 = L
  have hHlt : H < 1000000000 := by omega
  have hLlt : L < 18446744073709551616 := by omega
  have hA2 : A * 4294967296 = H * 18446744073709551616 + L := by omega
  rw [hA2]
  clear hA2 hH hL h5 h6 hAlt
  unfold uadd
  split_ifs <;> omega

theorem divGeneral_spec (sec nsec d : Int) (hs0 : 0 ≤ sec) (hs1 : sec < 9223372036854775808)
    (hn0 : 0 ≤ nsec) (hn1 : nsec < 1000000000) (hd0 : 0 < d)
    (hd1 : d < 9223372036854775808) :
    ∃ q : Int, divGeneral sec nsec d = some (q, (sec * 1000000000 + nsec) % d) := by
  have hS : wrapU64 sec = sec.toNat := wrapU64_of_nonneg hs0 (by omega)
  have hN : wrapU64 nsec = nsec.toNat := wrapU64_of_nonneg hn0 (by omega)
  have hD : wrapU64 d = d.toNat := wrapU64_of_nonneg (by omega) (by omega)
  obtain ⟨a1, a2, a3⟩ := div_u128 sec.toNat nsec.toNat (by omega) (by omega)
  obtain ⟨k, hk, b1, b2, b3⟩ := divShift_spec 64 d.toNat (by omega) (by omega)
    (by
      have : 1 * 2 ^ 64 ≤ d.toNat * 2 ^ 64 := Nat.mul_le_mul_right _ (by omega)
      norm_num at this ⊢
      exact this)
  unfold divGeneral
  simp only [hS, hN, hD, b1]
  generalize (if uadd (uadd (shl64 (umul (sec.toNat >>> 32) 1000000000) 32)
            (umul (sec.toNat &&& 4294967295) 1000000000)) nsec.toNat
          < uadd (shl64 (umul (sec.toNat >>> 32) 1000000000) 32)
              (umul (sec.toNat &&& 4294967295) 1000000000)
        then uadd (if uadd (shl64 (umul (sec.toNat >>> 32) 1000000000) 32)
              (umul (sec.toNat &&& 4294967295) 1000000000)
                < shl64 (umul (sec.toNat >>> 32) 1000000000) 32
            then uadd (umul (sec.toNat >>> 32) 1000000000 >>> 32) 1
            else umul (sec.toNat >>> 32) 1000000000 >>> 32) 1
        else (if uadd (shl64 (umul (sec.toNat >>> 32) 1000000000) 32)
              (umul (sec.toNat &&& 4294967295) 1000000000)
                < shl64 (umul (sec.toNat >>> 32) 1000000000) 32
            then uadd (umul (sec.toNat >>> 32) 1000000000 >>> 32) 1
            else umul (sec.toNat >>> 32) 1000000000 >>> 32)) = u1 at a1 a2 ⊢
  generalize uadd (uadd (shl64 (umul (sec.toNat >>> 32) 1000000000) 32)
            (umul (sec.toNat &&& 4294967295) 1000000000)) nsec.toNat = u0 at a1 a3 ⊢
  have hDD : (d.toNat * 2 ^ k) * 18446744073709551616 + 0 = d.toNat * 2 ^ (k + 64) := by
    rw [pow_add]; norm_num; ring
  have hU : u1 * 18446744073709551616 + u0
      < 2 * ((d.toNat * 2 ^ k) * 18446744073709551616 + 0) := by
    rw [a1]
    have h1 : 9223372036854775808 * 18446744073709551616
        ≤ (d.toNat * 2 ^ k) * 18446744073709551616 := Nat.mul_le_mul_right _ b2
    have h2 : sec.toNat * 1000000000 < 9223372036854775808 * 1000000000 := by omega
    omega
  obtain ⟨q, hq⟩ := divLoop_spec d.toNat (by omega) (by omega) (k + 64) 127 u1 u0
    (d.toNat * 2 ^ k) 0 (by omega) a2 a3 b3 (by norm_num) hDD hU
  have hlt : (sec.toNat * 1000000000 + nsec.toNat) % d.toNat < d.toNat :=
    Nat.mod_lt _ (by omega)
  have hcast : (((sec.toNat * 1000000000 + nsec.toNat) % d.toNat : Nat) : Int)
      = (sec * 1000000000 + nsec) % d := by
    push_cast
    rw [Int.toNat_of_nonneg hs0, Int.toNat_of_nonneg hn0, Int.toNat_of_nonneg (by omega)]
  have hr : toInt64 ((sec.toNat * 1000000000 + nsec.toNat) % d.toNat)
      = (sec * 1000000000 + nsec) % d := by
    rw [← hcast]
    generalize (sec.toNat * 1000000000 + nsec.toNat) % d.toNat = r at hlt
    unfold toInt64 wrap64
    omega
  refine ⟨q, ?_⟩
  rw [hq]
  simp only
  rw [a1, hr]

theorem emod_unique (N d k r : Int) (h : N = r + d * k) (h0 : 0 ≤ r) (h1 : r < d) :
    N % d = r := by
  rw [h, Int.add_mul_emod_self_left]
  exact Int.emod_eq_of_lt h0 h1

theorem divSeconds_spec (sec nsec d : Int) (hs0 : 0 ≤ sec)
    (hn0 : 0 ≤ nsec) (hn1 : nsec < 1000000000) (hd0 : 0 < d)
    (hd1 : d < 9223372036854775808) (hm : rem64 d Second = 0) :
    ∃ q : Int, divSeconds sec nsec d = some (q, (sec * 1000000000 + nsec) % d) := by
  have hS : Second = 1000000000 := by decide
  rw [hS] at hm
  obtain ⟨r1, _, _, _, _⟩ := rem64_pos d 1000000000 (by norm_num) (by unfold isInt64; omega)
    (by omega)
  rw [r1] at hm
  have hd1e : div64 d 1000000000 = d / 1000000000 := by
    unfold div64
    rw [tdiv_eq d 1000000000 (by norm_num), if_pos (by omega)]
    unfold wrap64; omega
  have hdq : d = 1000000000 * (d / 1000000000) := by omega
  generalize hd1v : d / 1000000000 = d1 at hd1e hdq
  have hd1pos : 0 < d1 := by omega
  obtain ⟨r2, r3, r4, r5, _⟩ := rem64_pos sec d1 hd1pos (by unfold isInt64; omega) hs0
  have hdiv := Int.emod_add_ediv sec d1
  unfold divSeconds
  simp only [hS, hd1e, if_neg (Int.ne_of_gt hd1pos), r2]
  refine ⟨div64 sec d1 % 2, ?_⟩
  have hmul : mul64 (sec % d1) 1000000000 = sec % d1 * 1000000000 := by
    unfold mul64 wrap64; omega
  have hadd : add64 (sec % d1 * 1000000000) nsec = sec % d1 * 1000000000 + nsec := by
    unfold add64 wrap64; omega
  rw [hmul, hadd]
  have hu := emod_unique (sec * 1000000000 + nsec) d (sec / d1)
    (sec % d1 * 1000000000 + nsec)
    (by
      have e : d * (sec / d1) = 1000000000 * (d1 * (sec / d1)) := by rw [hdq]; ring
      rw [e]; omega)
    (by omega) (by omega)
  rw [hu]

theorem divFraction_spec (sec nsec d : Int) (hn0 : 0 ≤ nsec)
    (hd0 : 0 < d) (hd1 : d < 1000000000) (hm : rem64 Second (add64 d d) = 0) :
    ∃ q : Int, divFraction nsec d = some (q, (sec * 1000000000 + nsec) % d) := by
  have hS : Second = 1000000000 := by decide
  have h2 : add64 d d = 2 * d := by unfold add64 wrap64; omega
  rw [hS, h2] at hm
  obtain ⟨r1, _, _, _, ⟨c, hc⟩⟩ := rem64_pos 1000000000 (2 * d) (by omega)
    (by unfold isInt64; omega) (by norm_num)
  rw [r1] at hm
  rw [hm] at hc
  have hw : wrap32 d = d := by unfold wrap32; omega
  have h1 := Int.emod_nonneg nsec (Int.ne_of_gt hd0)
  have h3 := Int.emod_lt_of_pos nsec hd0
  have hmod : wrap32 (Int.tmod nsec d) = nsec % d := by
    rw [tmod_eq nsec d (by omega), if_pos hn0]
    unfold wrap32; omega
  unfold divFraction
  rw [hw, if_neg (Int.ne_of_gt hd0), hmod]
  refine ⟨wrap32 (Int.tdiv nsec d) % 2, ?_⟩
  have e : sec * 1000000000 + nsec = nsec + d * (2 * c * sec) := by
    have : (1000000000 : Int) = d * (2 * c) := by
      have : (1000000000 : Int) - 0 = 2 * d * c := hc
      rw [Int.sub_zero] at this
      rw [this]; ring
    calc sec * 1000000000 + nsec = sec * (d * (2 * c)) + nsec := by rw [← this]
      _ = nsec + d * (2 * c * sec) := by ring
  rw [e, Int.add_mul_emod_self_left]

/-- The switch of `div` on a non-negative time `sec * 10^9 + nsec`. -/
theorem div_switch (sec nsec d : Int) (hs0 : 0 ≤ sec) (hs1 : sec < 9223372036854775808)
    (hn0 : 0 ≤ nsec) (hn1 : nsec < 1000000000) (hd0 : 0 < d)
    (hd1 : d < 9223372036854775808) :
    ∃ q : Int, divSwitch sec nsec d = some (q, (sec * 1000000000 + nsec) % d) := by
  have hS : Second = 1000000000 := by decide
  unfold divSwitch
  by_cases h1 : d < Second
  · have h2 : add64 d d ≠ 0 := by
      rw [hS] at h1
      unfold add64 wrap64; omega
    rw [if_pos h1, if_neg h2]
    by_cases h3 : rem64 Second (add64 d d) = 0
    · rw [if_pos h3]
      exact divFraction_spec sec nsec d hn0 hd0 (by rw [← hS]; exact h1) h3
    · rw [if_neg h3]
      by_cases h4 : rem64 d Second = 0
      · rw [if_pos h4]
        exact divSeconds_spec sec nsec d hs0 hn0 hn1 hd0 hd1 h4
      · rw [if_neg h4]
        exact divGeneral_spec sec nsec d hs0 hs1 hn0 hn1 hd0 hd1
  · rw [if_neg h1]
    by_cases h4 : rem64 d Second = 0
    · rw [if_pos h4]
      exact divSeconds_spec sec nsec d hs0 hn0 hn1 hd0 hd1 h4
    · rw [if_neg h4]
      exact divGeneral_spec sec nsec d hs0 hs1 hn0 hn1 hd0 hd1

theorem neg_emod (A d : Int) (hd : 0 < d) :
    (-A) % d = if A % d ≠ 0 then d - A % d else 0 := by
  have h1 := Int.emod_nonneg A (Int.ne_of_gt hd)
  have h2 := Int.emod_lt_of_pos A hd
  have h3 := Int.emod_add_ediv A d
  split_ifs with h
  · apply emod_unique (-A) d (-(A / d) - 1) (d - A % d) _ (by omega) (by omega)
    have e : d * (-(A / d) - 1) = -(d * (A / d)) - d := by ring
    rw [e]; omega
  · have h0 : A % d = 0 := by simpa using h
    apply emod_unique (-A) d (-(A / d)) 0 _ (by omega) hd
    have e : d * (-(A / d)) = -(d * (A / d)) := by ring
    rw [e]; omega

theorem div_fix (q A d N : Int) (hd : 0 < d) (hd1 : d < 9223372036854775808)
    (hN : N = -A) :
    ∃ q1 : Int,
      (if True ∧ A % d ≠ 0 then
          some (if q % 2 = 0 then q + 1 else q - 1, sub64 d (A % d))
        else some (q, A % d)) = some (q1, N % d) := by
  have h1 := Int.emod_nonneg A (Int.ne_of_gt hd)
  have h2 := Int.emod_lt_of_pos A hd
  rw [hN, neg_emod A d hd]
  by_cases h : A % d ≠ 0
  · rw [if_pos ⟨trivial, h⟩, if_pos h]
    have e : sub64 d (A % d) = d - A % d := by unfold sub64 wrap64; omega
    rw [e]
    exact ⟨if q % 2 = 0 then q + 1 else q - 1, rfl⟩
  · rw [if_neg (fun x => h x.2), if_neg h]
    have h0 : A % d = 0 := by simpa using h
    rw [h0]
    exact ⟨q, rfl⟩

/-- The function `div` returns the floor remainder of the nanoseconds since the zero time
by `d`, for every time with nanoseconds below `10^9` and every `d > 0`. -/
theorem div_spec (t : Time) (d : Int) (hs : isInt64 t.sec) (hs2 : -9223372036854775808 < t.sec)
    (hn : t.nsec < 1000000000) (hd0 : 0 < d) (hd1 : isInt64 d) :
    ∃ q : Int, div t d = some (q, (t.sec * 1000000000 + t.nsec) % d) := by
  have hn0 : 0 ≤ t.nsec := by rw [nsec_eq]; omega
  unfold isInt64 at hs hd1
  unfold div
  by_cases hneg : t.sec < 0
  · have hns : neg64 t.sec = -t.sec := by unfold neg64 wrap64; omega
    have hnn : wrap32 (-t.nsec) = -t.nsec := by unfold wrap32; omega
    by_cases hz : -t.nsec < 0
    · have e1 : sub64 (-t.sec) 1 = -t.sec - 1 := by unfold sub64 wrap64; omega
      have e2 : add32 (-t.nsec) 1000000000 = -t.nsec + 1000000000 := by
        unfold add32 wrap32; omega
      simp only [if_pos hneg, hns, hnn, if_pos hz, e1, e2]
      obtain ⟨q, hq⟩ := div_switch (-t.sec - 1) (-t.nsec + 1000000000) d (by omega) (by omega)
        (by omega) (by omega) hd0 (by omega)
      rw [hq]
      simp only
      exact div_fix q _ d _ hd0 (by omega) (by ring)
    · simp only [if_pos hneg, hns, hnn, if_neg hz]
      obtain ⟨q, hq⟩ := div_switch (-t.sec) (-t.nsec) d (by omega) (by omega)
        (by omega) (by omega) hd0 (by omega)
      rw [hq]
      simp only
      exact div_fix q _ d _ hd0 (by omega) (by ring)
  · simp only [if_neg hneg]
    obtain ⟨q, hq⟩ := div_switch t.sec t.nsec d (by omega) (by omega) hn0 hn hd0 (by omega)
    rw [hq]
    simp only [Bool.false_eq_true, false_and, if_false]
    exact ⟨q, rfl⟩

/-! ## Truncate and Round on a Time -/

theorem stripMono_isWord (t : Time) (h : t.isWord) : t.stripMono.isWord := by
  unfold Time.stripMono
  split
  · refine ⟨?_, isInt64_sec t h⟩
    show t.wall &&& nsecMask < 18446744073709551616
    rw [and_nsecMask]; omega
  · exact h

theorem stripMono_wellFormed (t : Time) (h : t.wellFormed) : t.stripMono.wellFormed := by
  unfold Time.stripMono
  split
  · have h1 := h.1
    rw [and_nsecMask] at h1
    have e : t.wall &&& nsecMask = t.wall % 1073741824 := and_nsecMask _
    rw [e]
    exact wellFormed_mk_small _ _ _ (by omega)
  · exact h

theorem stripMono_idem (t : Time) : t.stripMono.stripMono = t.stripMono := by
  have h := stripMono_not_hasMono t
  unfold Time.hasMono at h
  generalize t.stripMono = u at h ⊢
  unfold Time.stripMono
  rw [if_neg h]

theorem wellFormed_nsec (t : Time) (h : t.wellFormed) : 0 ≤ t.nsec ∧ t.nsec < 1000000000 := by
  have h1 := h.1
  rw [and_nsecMask] at h1
  rw [nsec_eq]
  omega

/-- The fields of a time whose wall word is a nanosecond count. -/
theorem mk_small_fields (n e : Int) (l : LocPtr) (h0 : 0 ≤ n) (h1 : n < 1000000000) :
    Time.sec ⟨n.toNat, e, l⟩ = e ∧ Time.nsec ⟨n.toNat, e, l⟩ = n ∧
      ¬ Time.hasMono ⟨n.toNat, e, l⟩ := by
  refine ⟨sec_mk_wall _ _ _ (by omega), ?_, ?_⟩
  · rw [nsec_mk]; omega
  · rw [hasMono_mk]; omega

/-- Adding to a time stripped of its monotonic reading. -/
theorem stripMono_Add (t : Time) (x : Int) (hw : t.isWord) (hwf : t.wellFormed)
    (hx : isInt64 x) :
    t.stripMono.Add x = ⟨((t.nsec + x) % 1000000000).toNat,
      add64 t.sec ((t.nsec + x) / 1000000000), t.loc⟩ := by
  have h := Add_wall_only t.stripMono x (stripMono_isWord t hw) (stripMono_wellFormed t hwf)
    (stripMono_not_hasMono t) hx
  rw [stripMono_nsec, stripMono_loc, ← sec_of_not_hasMono (stripMono_not_hasMono t),
    stripMono_sec] at h
  exact h

theorem Truncate_eq (t : Time) (d : Int) (hw : t.isWord) (hwf : t.wellFormed)
    (hs : -9223372036854775808 < t.sec) (hd0 : 0 < d) (hd : isInt64 d) :
    t.Truncate d = some ⟨((t.nsec - (t.sec * 1000000000 + t.nsec) % d) % 1000000000).toNat,
      add64 t.sec ((t.nsec - (t.sec * 1000000000 + t.nsec) % d) / 1000000000), t.loc⟩ := by
  obtain ⟨hn0, hn1⟩ := wellFormed_nsec t hwf
  have hr0 := Int.emod_nonneg (t.sec * 1000000000 + t.nsec) (Int.ne_of_gt hd0)
  have hr1 := Int.emod_lt_of_pos (t.sec * 1000000000 + t.nsec) hd0
  obtain ⟨q, hq⟩ := div_spec t.stripMono d (by rw [stripMono_sec]; exact isInt64_sec t hw)
    (by rw [stripMono_sec]; exact hs) (by rw [stripMono_nsec]; exact hn1) hd0 hd
  rw [stripMono_sec, stripMono_nsec] at hq
  unfold Time.Truncate
  simp only [if_neg (not_le.mpr hd0), hq]
  generalize (t.sec * 1000000000 + t.nsec) % d = r at hr0 hr1
  have hneg : neg64 r = -r := by
    unfold isInt64 at hd
    unfold neg64 wrap64; omega
  rw [hneg, stripMono_Add t (-r) hw hwf (by unfold isInt64 at hd ⊢; omega)]
  rfl

theorem Round_eq (t : Time) (d : Int) (hw : t.isWord) (hwf : t.wellFormed)
    (hs : -9223372036854775808 < t.sec) (hd0 : 0 < d) (hd : isInt64 d) :
    t.Round d = some (if 2 * ((t.sec * 1000000000 + t.nsec) % d) < d then
      ⟨((t.nsec - (t.sec * 1000000000 + t.nsec) % d) % 1000000000).toNat,
        add64 t.sec ((t.nsec - (t.sec * 1000000000 + t.nsec) % d) / 1000000000), t.loc⟩
      else
      ⟨((t.nsec + (d - (t.sec * 1000000000 + t.nsec) % d)) % 1000000000).toNat,
        add64 t.sec ((t.nsec + (d - (t.sec * 1000000000 + t.nsec) % d)) / 1000000000),
        t.loc⟩) := by
  obtain ⟨hn0, hn1⟩ := wellFormed_nsec t hwf
  have hr0 := Int.emod_nonneg (t.sec * 1000000000 + t.nsec) (Int.ne_of_gt hd0)
  have hr1 := Int.emod_lt_of_pos (t.sec * 1000000000 + t.nsec) hd0
  obtain ⟨q, hq⟩ := div_spec t.stripMono d (by rw [stripMono_sec]; exact isInt64_sec t hw)
    (by rw [stripMono_sec]; exact hs) (by rw [stripMono_nsec]; exact hn1) hd0 hd
  rw [stripMono_sec, stripMono_nsec] at hq
  unfold Time.Round
  simp only [if_neg (not_le.mpr hd0), hq]
  generalize (t.sec * 1000000000 + t.nsec) % d = r at hr0 hr1
  have hneg : neg64 r = -r := by
    unfold isInt64 at hd
    unfold neg64 wrap64; omega
  have hsub : sub64 d r = d - r := by
    unfold isInt64 at hd
    unfold sub64 wrap64; omega
  rw [lessThanHalf_eq r d hr0 hr1 hd, hneg, hsub,
    stripMono_Add t (-r) hw hwf (by unfold isInt64 at hd ⊢; omega),
    stripMono_Add t (d - r) hw hwf (by unfold isInt64 at hd ⊢; omega)]
  by_cases hc : 2 * r < d
  · simp only [hc, decide_True, if_true]
    rfl
  · simp only [hc, decide_False]
    rfl

theorem trunc_arith (s ns r m : Int) (h : r + m = s * 1000000000 + ns) :
    (s + (ns - r) / 1000000000) * 1000000000 + (ns - r) % 1000000000 = m := by
  omega

theorem Truncate_fixed (n e d : Int) (l : LocPtr) (hn0 : 0 ≤ n) (hn1 : n < 1000000000)
    (he : isInt64 e) (he2 : -9223372036854775808 < e) (hd0 : 0 < d) (hd : isInt64 d)
    (hz : (e * 1000000000 + n) % d = 0) :
    Time.Truncate ⟨n.toNat, e, l⟩ d = some ⟨n.toNat, e, l⟩ := by
  obtain ⟨f1, f2, f3⟩ := mk_small_fields n e l hn0 hn1
  have hT := Truncate_eq ⟨n.toNat, e, l⟩ d
    ⟨by show n.toNat < 18446744073709551616; omega, he⟩
    (wellFormed_mk_small _ _ _ (by omega)) (by rw [f1]; exact he2) hd0 hd
  rw [f1, f2, hz] at hT
  have e1 : (n - 0) % 1000000000 = n := by omega
  have e2 : add64 e ((n - 0) / 1000000000) = e := by
    unfold isInt64 at he
    unfold add64 wrap64; omega
  rw [e1, e2] at hT
  exact hT

theorem stripMono_eq (t : Time) (hw : t.isWord) (hwf : t.wellFormed) :
    t.stripMono = ⟨t.nsec.toNat, t.sec, t.loc⟩ := by
  have hn := nsec_eq t
  have hnat : t.nsec.toNat = t.wall % 1073741824 := by omega
  rw [hnat]
  by_cases hm : t.hasMono
  · unfold Time.hasMono at hm
    unfold Time.stripMono
    rw [if_pos hm, and_nsecMask]
  · have hs := sec_of_not_hasMono hm
    unfold Time.hasMono at hm
    have h2 := hwf.2 (by simpa using hm)
    rw [shl1_shr31] at h2
    rw [hasMono_iff] at hm
    have h1 := hw.1
    have hwall : t.wall % 1073741824 = t.wall := by omega
    unfold Time.stripMono
    rw [if_neg (by rw [hasMono_iff]; exact hm), hwall, hs]

/-- C11: for every well-formed Time `t` with `|sec| < 2^62` and every Duration `d > 0`,
`t.Truncate(d)` returns a Time `u` with `N(u) = d * floor(N(t) / d)`, where
`N(x) = x.sec()*10^9 + x.nsec()` is the signed nanosecond count since the zero time (the
integer division is the floor division, as `d > 0`); `u` has its nanoseconds in
`[0, 999999999]`, carries no monotonic reading and keeps the location of `t`. -/
theorem Time_Truncate_floor (t : Time) (d : Int) (hw : t.isWord) (hwf : t.wellFormed)
    (hs1 : -4611686018427387904 < t.sec) (hs2 : t.sec < 4611686018427387904)
    (hd0 : 0 < d) (hd : isInt64 d) :
    ∃ u : Time, t.Truncate d = some u ∧
      u.sec * 1000000000 + u.nsec = d * ((t.sec * 1000000000 + t.nsec) / d) ∧
      0 ≤ u.nsec ∧ u.nsec ≤ 999999999 ∧ ¬ u.hasMono ∧ u.loc = t.loc := by
  obtain ⟨hn0, hn1⟩ := wellFormed_nsec t hwf
  have hr0 := Int.emod_nonneg (t.sec * 1000000000 + t.nsec) (Int.ne_of_gt hd0)
  have hr1 := Int.emod_lt_of_pos (t.sec * 1000000000 + t.nsec) hd0
  have hr2 := Int.emod_add_ediv (t.sec * 1000000000 + t.nsec) d
  refine ⟨_, Truncate_eq t d hw hwf (by omega) hd0 hd, ?_⟩
  generalize (t.sec * 1000000000 + t.nsec) % d = r at hr0 hr1 hr2
  generalize d * ((t.sec * 1000000000 + t.nsec) / d) = m at hr2
  obtain ⟨f1, f2, f3⟩ := mk_small_fields ((t.nsec - r) % 1000000000)
    (add64 t.sec ((t.nsec - r) / 1000000000)) t.loc (by omega) (by omega)
  rw [f1, f2]
  refine ⟨?_, by omega, by omega, f3, rfl⟩
  unfold isInt64 at hd
  unfold add64 wrap64
  omega

theorem Time_Truncate_floor_witness :
    ∃ u : Time, Time.Truncate ⟨hasMonotonic + 5, 77, LocPtr.localLoc⟩ 7000000001 = some u ∧
      u.sec * 1000000000 + u.nsec = 7000000001 *
        ((Time.sec ⟨hasMonotonic + 5, 77, LocPtr.localLoc⟩ * 1000000000
          + Time.nsec ⟨hasMonotonic + 5, 77, LocPtr.localLoc⟩) / 7000000001) ∧
      0 ≤ u.nsec ∧ u.nsec ≤ 999999999 ∧ ¬ u.hasMono ∧
      u.loc = (⟨hasMonotonic + 5, 77, LocPtr.localLoc⟩ : Time).loc :=
  Time_Truncate_floor ⟨hasMonotonic + 5, 77, LocPtr.localLoc⟩ 7000000001 (by decide)
    (by decide) (by decide) (by decide) (by decide) (by decide)

/-- C12: for every well-formed Time `t` with `|sec| < 2^62` and every Duration `d > 0`,
with `N` the signed nanosecond count since the zero time and `r = N(t) mod d` (floor
modulus), `t.Round(d)` returns a Time with `N = N(t) - r` if `2r < d` and
`N = N(t) - r + d` if `2r >= d` (an exact half goes to the later time), with its
nanoseconds in `[0, 999999999]` and no monotonic reading. -/
theorem Time_Round_half_up (t : Time) (d : Int) (hw : t.isWord) (hwf : t.wellFormed)
    (hs1 : -4611686018427387904 < t.sec) (hs2 : t.sec < 4611686018427387904)
    (hd0 : 0 < d) (hd : isInt64 d) :
    ∃ u : Time, t.Round d = some u ∧
      u.sec * 1000000000 + u.nsec =
        (if 2 * ((t.sec * 1000000000 + t.nsec) % d) < d then
          t.sec * 1000000000 + t.nsec - (t.sec * 1000000000 + t.nsec) % d
        else t.sec * 1000000000 + t.nsec - (t.sec * 1000000000 + t.nsec) % d + d) ∧
      0 ≤ u.nsec ∧ u.nsec ≤ 999999999 ∧ ¬ u.hasMono ∧ u.loc = t.loc := by
  obtain ⟨hn0, hn1⟩ := wellFormed_nsec t hwf
  have hr0 := Int.emod_nonneg (t.sec * 1000000000 + t.nsec) (Int.ne_of_gt hd0)
  have hr1 := Int.emod_lt_of_pos (t.sec * 1000000000 + t.nsec) hd0
  refine ⟨_, Round_eq t d hw hwf (by omega) hd0 hd, ?_⟩
  generalize (t.sec * 1000000000 + t.nsec) % d = r at hr0 hr1
  unfold isInt64 at hd
  by_cases hc : 2 * r < d
  · rw [if_pos hc, if_pos hc]
    obtain ⟨f1, f2, f3⟩ := mk_small_fields ((t.nsec - r) % 1000000000)
      (add64 t.sec ((t.nsec - r) / 1000000000)) t.loc (by omega) (by omega)
    rw [f1, f2]
    refine ⟨?_, by omega, by omega, f3, rfl⟩
    unfold add64 wrap64
    omega
  · rw [if_neg hc, if_neg hc]
    obtain ⟨f1, f2, f3⟩ := mk_small_fields ((t.nsec + (d - r)) % 1000000000)
      (add64 t.sec ((t.nsec + (d - r)) / 1000000000)) t.loc (by omega) (by omega)
    rw [f1, f2]
    refine ⟨?_, by omega, by omega, f3, rfl⟩
    unfold add64 wrap64
    omega

theorem Time_Round_half_up_witness :
    ∃ u : Time, Time.Round ⟨500000000, -3, LocPtr.nil⟩ 1000000000 = some u ∧
      u.sec * 1000000000 + u.nsec =
        (if 2 * ((Time.sec ⟨500000000, -3, LocPtr.nil⟩ * 1000000000
            + Time.nsec ⟨500000000, -3, LocPtr.nil⟩) % 1000000000) < 1000000000 then
          Time.sec ⟨500000000, -3, LocPtr.nil⟩ * 1000000000
            + Time.nsec ⟨500000000, -3, LocPtr.nil⟩
            - (Time.sec ⟨500000000, -3, LocPtr.nil⟩ * 1000000000
              + Time.nsec ⟨500000000, -3, LocPtr.nil⟩) % 1000000000
        else Time.sec ⟨500000000, -3, LocPtr.nil⟩ * 1000000000
            + Time.nsec ⟨500000000, -3, LocPtr.nil⟩
            - (Time.sec ⟨500000000, -3, LocPtr.nil⟩ * 1000000000
              + Time.nsec ⟨500000000, -3, LocPtr.nil⟩) % 1000000000 + 1000000000) ∧
      0 ≤ u.nsec ∧ u.nsec ≤ 999999999 ∧ ¬ u.hasMono ∧
      u.loc = (⟨500000000, -3, LocPtr.nil⟩ : Time).loc :=
  Time_Round_half_up ⟨500000000, -3, LocPtr.nil⟩ 1000000000 (by decide)
    (by decide) (by decide) (by decide) (by decide) (by decide)

/-- C13: for every well-formed Time `t` with `|sec| < 2^62` and every Duration `d`,
`t.Truncate(d)` returns a Time `u` and `u.Truncate(d)` is the same Time value `u`; and if
the nanosecond count of `t` since the zero time is an exact multiple of `d > 0`, then
`t.Round(d)` has the `sec()` and `nsec()` of `t` and no monotonic reading (it is `t`
stripped of its monotonic reading). -/
theorem Time_rounding_idempotent (t : Time) (d : Int) (hw : t.isWord) (hwf : t.wellFormed)
    (hs1 : -4611686018427387904 < t.sec) (hs2 : t.sec < 4611686018427387904)
    (hd : isInt64 d) :
    (∃ u : Time, t.Truncate d = some u ∧ u.Truncate d = some u) ∧
    (0 < d → (t.sec * 1000000000 + t.nsec) % d = 0 →
      ∃ u : Time, t.Round d = some u ∧ u = t.stripMono ∧ u.sec = t.sec ∧ u.nsec = t.nsec ∧
        ¬ u.hasMono) := by
  obtain ⟨hn0, hn1⟩ := wellFormed_nsec t hwf
  have hd' := hd
  unfold isInt64 at hd'
  constructor
  · by_cases hd0 : 0 < d
    · have hr0 := Int.emod_nonneg (t.sec * 1000000000 + t.nsec) (Int.ne_of_gt hd0)
      have hr1 := Int.emod_lt_of_pos (t.sec * 1000000000 + t.nsec) hd0
      have hr2 := Int.emod_add_ediv (t.sec * 1000000000 + t.nsec) d
      refine ⟨_, Truncate_eq t d hw hwf (by omega) hd0 hd, ?_⟩
      have hN := trunc_arith t.sec t.nsec _ _ hr2
      generalize (t.sec * 1000000000 + t.nsec) % d = r at hr0 hr1 hN
      have hadd : add64 t.sec ((t.nsec - r) / 1000000000)
          = t.sec + (t.nsec - r) / 1000000000 := by
        unfold add64 wrap64; omega
      rw [hadd]
      have hz : ((t.sec + (t.nsec - r) / 1000000000) * 1000000000
          + (t.nsec - r) % 1000000000) % d = 0 := by
        rw [hN]; exact Int.mul_emod_right _ _
      exact Truncate_fixed _ _ d t.loc (by omega) (by omega) (by unfold isInt64; omega)
        (by omega) hd0 hd hz
    · have hle : d ≤ 0 := by omega
      refine ⟨t.stripMono, ?_, ?_⟩
      · unfold Time.Truncate
        simp only [if_pos hle]
      · unfold Time.Truncate
        simp only [if_pos hle, stripMono_idem]
  · intro hd0 hz
    refine ⟨_, Round_eq t d hw hwf (by omega) hd0 hd, ?_⟩
    rw [hz, if_pos (by omega)]
    have e1 : (t.nsec - 0) % 1000000000 = t.nsec := by omega
    have e2 : add64 t.sec ((t.nsec - 0) / 1000000000) = t.sec := by
      unfold add64 wrap64; omega
    rw [e1, e2]
    obtain ⟨f1, f2, f3⟩ := mk_small_fields t.nsec t.sec t.loc hn0 hn1
    exact ⟨(stripMono_eq t hw hwf).symm, f1, f2, f3⟩

theorem Time_rounding_idempotent_witness :
    (∃ u : Time, Time.Truncate ⟨hasMonotonic + 7516192768, 77, LocPtr.localLoc⟩ 1000000000
        = some u ∧ u.Truncate 1000000000 = some u) ∧
    (∃ u : Time, Time.Round ⟨hasMonotonic + 7516192768, 77, LocPtr.localLoc⟩ 1000000000
        = some u ∧
      u = Time.stripMono ⟨hasMonotonic + 7516192768, 77, LocPtr.localLoc⟩ ∧
      u.sec = Time.sec ⟨hasMonotonic + 7516192768, 77, LocPtr.localLoc⟩ ∧
      u.nsec = Time.nsec ⟨hasMonotonic + 7516192768, 77, LocPtr.localLoc⟩ ∧ ¬ u.hasMono) :=
  ⟨(Time_rounding_idempotent ⟨hasMonotonic + 7516192768, 77, LocPtr.localLoc⟩ 1000000000
      (by decide) (by decide) (by decide) (by decide) (by decide)).1,
    (Time_rounding_idempotent ⟨hasMonotonic + 7516192768, 77, LocPtr.localLoc⟩ 1000000000
      (by decide) (by decide) (by decide) (by decide) (by decide)).2 (by decide) (by decide)⟩

/-! ## The representation invariant -/

theorem wellFormed_iff (t : Time) :
    t.wellFormed ↔ (t.wall % 1073741824 ≤ 999999999 ∧
      (t.wall / 9223372036854775808 % 2 = 0 →
        t.wall % 9223372036854775808 / 1073741824 = 0)) := by
  unfold Time.wellFormed
  rw [and_nsecMask, shl1_shr31, and_hasMonotonic]
  constructor
  · rintro ⟨h1, h2⟩
    exact ⟨h1, fun h => h2 (by rw [h])⟩
  · rintro ⟨h1, h2⟩
    exact ⟨h1, fun h => h2 (by omega)⟩

theorem wellFormed_congr {a b : Time} (h : a.wall = b.wall) (ha : a.wellFormed) :
    b.wellFormed := by
  rw [wellFormed_iff] at ha ⊢
  rw [← h]; exact ha

theorem wellFormed_mk_packed (s n : Nat) (e : Int) (l : LocPtr) (hs : s < 8589934592)
    (hn : n ≤ 999999999) :
    Time.wellFormed ⟨9223372036854775808 + 1073741824 * s + n, e, l⟩ := by
  rw [wellFormed_iff]
  show (9223372036854775808 + 1073741824 * s + n) % 1073741824 ≤ 999999999 ∧
    ((9223372036854775808 + 1073741824 * s + n) / 9223372036854775808 % 2 = 0 →
      (9223372036854775808 + 1073741824 * s + n) % 9223372036854775808 / 1073741824 = 0)
  omega

theorem setLoc_wellFormed (t : Time) (l : LocPtr) (h : t.wellFormed) :
    (t.setLoc l).wellFormed :=
  wellFormed_congr (a := t.stripMono) rfl (stripMono_wellFormed t h)

/-- A well-formed time without a monotonic reading has only its nanoseconds in `wall`. -/
theorem wall_small (t : Time) (hw : t.isWord) (hwf : t.wellFormed) (hm : ¬ t.hasMono) :
    t.wall ≤ 999999999 := by
  rw [wellFormed_iff] at hwf
  unfold Time.hasMono at hm
  rw [hasMono_iff] at hm
  have := hw.1
  omega

theorem addSec_wellFormed (t : Time) (d : Int) (hwf : t.wellFormed) :
    (t.addSec d).wellFormed := by
  have hwf' := (wellFormed_iff t).1 hwf
  unfold Time.addSec
  by_cases hm : t.wall &&& hasMonotonic ≠ 0
  · rw [if_pos hm]
    simp only
    split_ifs with hc
    · have h33 : (((1 <<< 33 : Nat) : Int) - 1) = 8589934591 := by decide
      rw [h33] at hc
      generalize add64 (toInt64 (shl64 t.wall 1 >>> (nsecShift + 1))) d = ds at hc
      have hds : wrapU64 ds = ds.toNat := wrapU64_of_nonneg hc.1 (by omega)
      have hw : ((t.wall &&& nsecMask) ||| shl64 (wrapU64 ds) nsecShift) ||| hasMonotonic
          = 9223372036854775808 + 1073741824 * ds.toNat + t.wall % 1073741824 := by
        rw [hds, and_nsecMask, repack _ _ (by omega) (by omega)]
      have := wellFormed_mk_packed ds.toNat (t.wall % 1073741824) t.ext t.loc (by omega)
        hwf'.1
      exact wellFormed_congr (by rw [hw]) this
    · exact wellFormed_congr (a := t.stripMono) rfl (stripMono_wellFormed t hwf)
  · rw [if_neg hm]
    exact wellFormed_congr (a := t) rfl hwf

theorem setMono_spec (t : Time) (m : Int) (hw : t.isWord) (hwf : t.wellFormed) :
    (t.setMono m).wellFormed ∧ (t.setMono m).sec = t.sec ∧ (t.setMono m).nsec = t.nsec := by
  unfold Time.setMono
  by_cases hm : t.wall &&& hasMonotonic = 0
  · rw [if_pos hm]
    simp only
    have hnm : ¬ t.hasMono := by unfold Time.hasMono; simpa using hm
    have hsmall := wall_small t hw hwf hnm
    have hsec := sec_of_not_hasMono hnm
    have hns := nsec_eq t
    have hmin : minWall = 59453308800 := by decide
    have hmax : maxWall = 68043243391 := by decide
    have hwi : wallToInternal = 59453308800 := by decide
    split_ifs with hc
    · exact ⟨hwf, rfl, rfl⟩
    · rw [hmin, hmax] at hc
      have hs : wrapU64 (sub64 t.ext minWall) = (t.ext - 59453308800).toNat := by
        rw [hmin]
        unfold wrapU64 sub64 wrap64; omega
      have hwall : t.wall ||| (hasMonotonic ||| shl64 (wrapU64 (sub64 t.ext minWall)) nsecShift)
          = 9223372036854775808 + 1073741824 * (t.ext - 59453308800).toNat + t.wall := by
        rw [hs, Nat.lor_comm, or_pack _ _ (by omega) (by omega)]
      rw [hwall]
      obtain ⟨p1, p2, p3⟩ := packed_bits _ (t.ext - 59453308800).toNat t.wall rfl
        (by omega) (by omega)
      refine ⟨wellFormed_mk_packed _ _ _ _ (by omega) hsmall, ?_, ?_⟩
      · rw [sec_mk_mono _ _ _ p1, p3, hsec, hwi]
        omega
      · have hmod : t.wall % 1073741824 = t.wall := by omega
        have hk := nsec_mk (9223372036854775808 + 1073741824 * (t.ext - 59453308800).toNat
          + t.wall) m t.loc
        rw [hk, p2, hns, hmod]
  · rw [if_neg hm]
    have hb : t.wall / 9223372036854775808 % 2 = 1 := (hasMono_iff t.wall).1 hm
    refine ⟨wellFormed_congr (a := t) rfl hwf, ?_, ?_⟩
    · rw [sec_mk_mono t.wall m t.loc hb, sec_mk_mono t.wall t.ext t.loc hb]
    · rw [nsec_mk t.wall m t.loc, nsec_eq t]

theorem Add_wellFormed (t : Time) (d : Int) (hw : t.isWord) (hwf : t.wellFormed)
    (hd : isInt64 d) : (t.Add d).wellFormed := by
  obtain ⟨hn0, hn1⟩ := wellFormed_nsec t hwf
  by_cases hm : t.hasMono
  · rw [Add_mono_eq t d hw hwf hm hd]
    split_ifs with hc
    · exact wellFormed_mk_packed _ _ _ _ (toNat_lt_33 _ hc.1 hc.2.1) (by omega)
    · exact wellFormed_mk_small _ _ _ (by omega)
  · rw [Add_wall_only t d hw hwf hm hd]
    exact wellFormed_mk_small _ _ _ (by omega)

theorem Now_wellFormed (sec nsec mono startNano : Int) (hs : isInt64 sec)
    (hn0 : 0 ≤ nsec) (hn1 : nsec ≤ 999999999) : (Now sec nsec mono startNano).wellFormed := by
  rw [Now_eq sec nsec mono startNano hs hn0 hn1]
  have hu : unixToInternal = 62135596800 := by decide
  have hmin : minWall = 59453308800 := by decide
  have hmax : maxWall = 68043243391 := by decide
  rw [hu, hmin, hmax]
  split_ifs with hc
  · exact wellFormed_mk_packed _ _ _ _ (by omega) (by omega)
  · exact wellFormed_mk_small _ _ _ (by omega)

theorem Unix_wellFormed (sec nsec : Int) (hs : isInt64 sec) (hn : isInt64 nsec) :
    (Unix sec nsec).wellFormed := by
  rw [Unix_eq sec nsec hs hn]
  exact (unixTime_fields _ _ (by omega) (by omega)).2.2.2

theorem norm_12_range (hi lo : Int) (hlo : isInt64 lo) :
    0 ≤ (norm hi lo 12).2 ∧ (norm hi lo 12).2 < 12 := by
  unfold isInt64 at hlo
  unfold norm
  by_cases h : lo < 0
  · have a1 : sub64 (neg64 lo) 1 = -lo - 1 := by unfold sub64 neg64 wrap64; omega
    have a2 : div64 (-lo - 1) 12 = (-lo - 1) / 12 := by
      unfold div64
      rw [tdiv_eq _ 12 (by norm_num), if_pos (by omega)]
      unfold wrap64; omega
    have a3 : add64 ((-lo - 1) / 12) 1 = (-lo - 1) / 12 + 1 := by unfold add64 wrap64; omega
    have a4 : add64 lo (mul64 ((-lo - 1) / 12 + 1) 12) = lo + ((-lo - 1) / 12 + 1) * 12 := by
      unfold add64 mul64 wrap64; omega
    simp only [if_pos h, a1, a2, a3, a4]
    have hn : ¬ (lo + ((-lo - 1) / 12 + 1) * 12 ≥ 12) := by omega
    rw [if_neg hn]
    constructor <;> simp only <;> omega
  · simp only [if_neg h]
    by_cases h2 : lo ≥ 12
    · have a2 : div64 lo 12 = lo / 12 := by
        unfold div64
        rw [tdiv_eq _ 12 (by norm_num), if_pos (by omega)]
        unfold wrap64; omega
      have a4 : sub64 lo (mul64 (lo / 12) 12) = lo - (lo / 12) * 12 := by
        unfold sub64 mul64 wrap64; omega
      simp only [if_pos h2, a2, a4]
      omega
    · simp only [if_neg h2]
      omega

theorem norm_1000000000_range (hi lo : Int) (hlo : isInt64 lo) :
    0 ≤ (norm hi lo 1000000000).2 ∧ (norm hi lo 1000000000).2 < 1000000000 := by
  unfold isInt64 at hlo
  unfold norm
  by_cases h : lo < 0
  · have a1 : sub64 (neg64 lo) 1 = -lo - 1 := by unfold sub64 neg64 wrap64; omega
    have a2 : div64 (-lo - 1) 1000000000 = (-lo - 1) / 1000000000 := by
      unfold div64
      rw [tdiv_eq _ 1000000000 (by norm_num), if_pos (by omega)]
      unfold wrap64; omega
    have a3 : add64 ((-lo - 1) / 1000000000) 1 = (-lo - 1) / 1000000000 + 1 := by
      unfold add64 wrap64; omega
    have a4 : add64 lo (mul64 ((-lo - 1) / 1000000000 + 1) 1000000000)
        = lo + ((-lo - 1) / 1000000000 + 1) * 1000000000 := by
      unfold add64 mul64 wrap64; omega
    simp only [if_pos h, a1, a2, a3, a4]
    have hn : ¬ (lo + ((-lo - 1) / 1000000000 + 1) * 1000000000 ≥ 1000000000) := by omega
    rw [if_neg hn]
    constructor <;> simp only <;> omega
  · simp only [if_neg h]
    by_cases h2 : lo ≥ 1000000000
    · have a2 : div64 lo 1000000000 = lo / 1000000000 := by
        unfold div64
        rw [tdiv_eq _ 1000000000 (by norm_num), if_pos (by omega)]
        unfold wrap64; omega
      have a4 : sub64 lo (mul64 (lo / 1000000000) 1000000000)
          = lo - (lo / 1000000000) * 1000000000 := by
        unfold sub64 mul64 wrap64; omega
      simp only [if_pos h2, a2, a4]
      omega
    · simp only [if_neg h2]
      omega

theorem daysBeforeAt_isSome (i : Int) (h0 : 0 ≤ i) (h1 : i ≤ 12) :
    ∃ b : Int, daysBeforeAt i = some b ∧ 0 ≤ b ∧ b ≤ 365 := by
  have h : i = 0 ∨ i = 1 ∨ i = 2 ∨ i = 3 ∨ i = 4 ∨ i = 5 ∨ i = 6 ∨ i = 7 ∨ i = 8 ∨ i = 9 ∨
      i = 10 ∨ i = 11 ∨ i = 12 := by omega
  rcases h with h | h | h | h | h | h | h | h | h | h | h | h | h <;> subst h <;>
    exact ⟨_, rfl, by decide, by decide⟩

theorem dateOfDays_wellFormed (Z : Zones) (d : Nat) (hour min sec nsec : Int) (loc : LocPtr)
    (h0 : 0 ≤ nsec) (h1 : nsec < 1000000000) :
    (dateOfDays Z d hour min sec nsec loc).wellFormed := by
  have hw : wrap32 nsec = nsec := by unfold wrap32; omega
  unfold dateOfDays
  simp only [hw]
  exact setLoc_wellFormed _ _ (unixTime_fields _ _ h0 (by omega)).2.2.2

/-- The function `Date` returns a well-formed Time for every argument list with a non-nil
location. -/
theorem Date_wellFormed (Z : Zones) (year month day hour min sec nsec : Int) (loc : LocPtr)
    (hns : isInt64 nsec) (hl : loc ≠ LocPtr.nil) :
    ∃ r : Time, Date Z year month day hour min sec nsec loc = some r ∧ r.wellFormed := by
  obtain ⟨m0, m1⟩ := norm_12_range year (sub64 month 1) (isInt64_wrap64 _)
  obtain ⟨n0, n1⟩ := norm_1000000000_range sec nsec hns
  rw [Date_eq, if_neg hl]
  have hidx : sub64 (add64 (norm year (sub64 month 1) 12).2 1) 1
      = (norm year (sub64 month 1) 12).2 := by
    generalize (norm year (sub64 month 1) 12).2 = a at m0 m1
    unfold sub64 add64 wrap64; omega
  obtain ⟨b, hb, _, _⟩ := daysBeforeAt_isSome _ m0 (by omega)
  unfold dateDays
  rw [hidx, hb]
  exact ⟨_, rfl, dateOfDays_wellFormed Z _ _ _ _ _ loc n0 n1⟩

theorem divLoop_total (d : Nat) (hd : 0 < d) (hd64 : d < 18446744073709551616) (j : Nat) :
    ∀ (f u1 u0 d1 d0 : Nat), j ≤ f →
      d1 < 18446744073709551616 → d0 < 18446744073709551616 →
      d1 * 18446744073709551616 + d0 = d * 2 ^ j →
      ∃ r : Int × Nat, divLoop (f + 1) u1 u0 d1 d0 d = some r := by
  induction j with
  | zero =>
    intro f u1 u0 d1 d0 _ hd1 hd0 hD
    simp only [pow_zero, Nat.mul_one] at hD
    have hx : d1 = 0 ∧ d0 = d := by omega
    rw [divLoop_succ, if_pos hx]
    exact ⟨_, rfl⟩
  | succ j ih =>
    intro f u1 u0 d1 d0 hf hd1 hd0 hD
    obtain ⟨f, rfl⟩ : ∃ g, f = g + 1 := ⟨f - 1, by omega⟩
    have hE : d * 2 ^ (j + 1) = 2 * (d * 2 ^ j) := by rw [pow_succ]; ring
    have hEd : d ≤ d * 2 ^ j := Nat.le_mul_of_pos_right _ (by positivity)
    rw [hE] at hD
    have hx : ¬ (d1 = 0 ∧ d0 = d) := by omega
    obtain ⟨v1, v2, v3⟩ := halve128 d1 d0 (d * 2 ^ j) hd0 hd1 hD
    rw [divLoop_succ, if_neg hx]
    exact ih f _ _ _ _ (by omega) v2 v3 v1

theorem divGeneral_total (sec nsec d : Int) (hd0 : 0 < d) (hd1 : isInt64 d) :
    ∃ r : Int × Int, divGeneral sec nsec d = some r := by
  unfold isInt64 at hd1
  have hD : wrapU64 d = d.toNat := wrapU64_of_nonneg (by omega) (by omega)
  obtain ⟨k, hk, b1, b2, b3⟩ := divShift_spec 64 d.toNat (by omega) (by omega)
    (by
      have : 1 * 2 ^ 64 ≤ d.toNat * 2 ^ 64 := Nat.mul_le_mul_right _ (by omega)
      norm_num at this ⊢
      exact this)
  have hDD : (d.toNat * 2 ^ k) * 18446744073709551616 + 0 = d.toNat * 2 ^ (k + 64) := by
    rw [pow_add]; norm_num; ring
  unfold divGeneral
  simp only [hD, b1]
  generalize (if uadd (uadd (shl64 (umul (wrapU64 sec >>> 32) 1000000000) 32)
            (umul (wrapU64 sec &&& 4294967295) 1000000000)) (wrapU64 nsec)
          < uadd (shl64 (umul (wrapU64 sec >>> 32) 1000000000) 32)
              (umul (wrapU64 sec &&& 4294967295) 1000000000)
        then uadd (if uadd (shl64 (umul (wrapU64 sec >>> 32) 1000000000) 32)
              (umul (wrapU64 sec &&& 4294967295) 1000000000)
                < shl64 (umul (wrapU64 sec >>> 32) 1000000000) 32
            then uadd (umul (wrapU64 sec >>> 32) 1000000000 >>> 32) 1
            else umul (wrapU64 sec >>> 32) 1000000000 >>> 32) 1
        else (if uadd (shl64 (umul (wrapU64 sec >>> 32) 1000000000) 32)
              (umul (wrapU64 sec &&& 4294967295) 1000000000)
                < shl64 (umul (wrapU64 sec >>> 32) 1000000000) 32
            then uadd (umul (wrapU64 sec >>> 32) 1000000000 >>> 32) 1
            else umul (wrapU64 sec >>> 32) 1000000000 >>> 32)) = u1
  generalize uadd (uadd (shl64 (umul (wrapU64 sec >>> 32) 1000000000) 32)
            (umul (wrapU64 sec &&& 4294967295) 1000000000)) (wrapU64 nsec) = u0
  obtain ⟨r, hr⟩ := divLoop_total d.toNat (by omega) (by omega) (k + 64) 127 u1 u0
    (d.toNat * 2 ^ k) 0 (by omega) b3 (by norm_num) hDD
  rw [hr]
  exact ⟨_, rfl⟩

theorem divSwitch_total (sec nsec d : Int) (hd0 : 0 < d) (hd1 : isInt64 d) :
    ∃ r : Int × Int, divSwitch sec nsec d = some r := by
  have hS : Second = 1000000000 := by decide
  have hsec : rem64 d Second = 0 → ∃ r : Int × Int, divSeconds sec nsec d = some r := by
    intro h4
    rw [hS] at h4
    obtain ⟨r1, _, _, _, _⟩ := rem64_pos d 1000000000 (by norm_num) (by decide) (by omega)
    rw [r1] at h4
    have hd1e : div64 d 1000000000 ≠ 0 := by
      unfold isInt64 at hd1
      unfold div64
      rw [tdiv_eq d 1000000000 (by norm_num), if_pos (by omega)]
      unfold wrap64; omega
    unfold divSeconds
    rw [hS]
    simp only [if_neg hd1e]
    exact ⟨_, rfl⟩
  unfold divSwitch
  by_cases h1 : d < Second
  · have h2 : add64 d d ≠ 0 := by
      rw [hS] at h1
      unfold add64 wrap64; omega
    rw [if_pos h1, if_neg h2]
    by_cases h3 : rem64 Second (add64 d d) = 0
    · rw [if_pos h3]
      have hw : wrap32 d ≠ 0 := by
        rw [hS] at h1
        unfold wrap32; omega
      unfold divFraction
      rw [if_neg hw]
      exact ⟨_, rfl⟩
    · rw [if_neg h3]
      by_cases h4 : rem64 d Second = 0
      · rw [if_pos h4]
        exact hsec h4
      · rw [if_neg h4]
        exact divGeneral_total sec nsec d hd0 hd1
  · rw [if_neg h1]
    by_cases h4 : rem64 d Second = 0
    · rw [if_pos h4]
      exact hsec h4
    · rw [if_neg h4]
      exact divGeneral_total sec nsec d hd0 hd1

/-- The function `div` returns for every Time and every `d > 0`: no division by zero
occurs and both loops end. -/
theorem div_total (t : Time) (d : Int) (hd0 : 0 < d) (hd1 : isInt64 d) :
    ∃ r : Int × Int, div t d = some r := by
  unfold div
  simp only
  generalize (if t.sec < 0 then
      if wrap32 (-t.nsec) < 0 then (true, sub64 (neg64 t.sec) 1, add32 (wrap32 (-t.nsec)) 1000000000)
      else (true, neg64 t.sec, wrap32 (-t.nsec))
    else (false, t.sec, t.nsec) : Bool × Int × Int) = s
  obtain ⟨r, hr⟩ := divSwitch_total s.2.1 s.2.2 d hd0 hd1
  rw [hr]
  simp only
  split_ifs
  · exact ⟨(r.1 + 1, sub64 d r.2), rfl⟩
  · exact ⟨(r.1 - 1, sub64 d r.2), rfl⟩
  · exact ⟨(r.1, r.2), rfl⟩

theorem Truncate_wellFormed (t : Time) (d : Int) (hw : t.isWord) (hwf : t.wellFormed)
    (hd : isInt64 d) : ∃ r : Time, t.Truncate d = some r ∧ r.wellFormed := by
  unfold Time.Truncate
  by_cases h : d ≤ 0
  · simp only [if_pos h]
    exact ⟨_, rfl, stripMono_wellFormed t hwf⟩
  · obtain ⟨r, hr⟩ := div_total t.stripMono d (by omega) hd
    simp only [if_neg h, hr]
    exact ⟨_, rfl, Add_wellFormed _ _ (stripMono_isWord t hw) (stripMono_wellFormed t hwf)
      (isInt64_wrap64 _)⟩

theorem Round_wellFormed (t : Time) (d : Int) (hw : t.isWord) (hwf : t.wellFormed)
    (hd : isInt64 d) : ∃ r : Time, t.Round d = some r ∧ r.wellFormed := by
  unfold Time.Round
  by_cases h : d ≤ 0
  · simp only [if_pos h]
    exact ⟨_, rfl, stripMono_wellFormed t hwf⟩
  · obtain ⟨r, hr⟩ := div_total t.stripMono d (by omega) hd
    simp only [if_neg h, hr]
    split_ifs
    · exact ⟨_, rfl, Add_wellFormed _ _ (stripMono_isWord t hw) (stripMono_wellFormed t hwf)
        (isInt64_wrap64 _)⟩
    · exact ⟨_, rfl, Add_wellFormed _ _ (stripMono_isWord t hw) (stripMono_wellFormed t hwf)
        (isInt64_wrap64 _)⟩

/-! ## The calendar: from the day count to the date -/

theorem absDateMonth_map (year day yday : Int) :
    absDateMonth year day yday =
      (absDateMonth 0 day 0).map fun r => (year, r.2.1, r.2.2.1, yday) := by
  unfold absDateMonth
  simp only
  cases daysBeforeAt (add64 (div64 day 31) 1) with
  | none => rfl
  | some e =>
    simp only
    by_cases h : day ≥ e
    · simp only [if_pos h, Option.map_some']
    · simp only [if_neg h]
      cases daysBeforeAt (div64 day 31) with
      | none => rfl
      | some b => rfl

theorem absDate_tail (year yday : Int) :
    (if isLeap year = true then
        if yday > 31 + 29 - 1 then absDateMonth year (sub64 yday 1) yday
        else if yday = 31 + 29 - 1 then some (year, February, 29, yday)
        else absDateMonth year yday yday
      else absDateMonth year yday yday)
    = (monthDay (isLeap year) yday).map fun md => (year, md.1, md.2, yday) := by
  unfold monthDay
  rw [absDateMonth_map year (sub64 yday 1) yday, absDateMonth_map year yday yday]
  by_cases hl : isLeap year = true
  · simp only [hl, if_true]
    split_ifs
    · simp only [Option.map_map]; rfl
    · rfl
    · simp only [Option.map_map]; rfl
  · simp only [hl]
    simp only [Option.map_map]
    rfl

theorem peel_arith (D n1 d1 n2 d2 n3 d3 n4 d4 : Nat) (h1 : n1 = D / 146097)
    (h1' : d1 = D % 146097) (h2 : n2 = d1 / 36524 - d1 / 36524 / 4)
    (h2' : d2 = d1 - 36524 * n2) (h3 : n3 = d2 / 1461) (h3' : d3 = d2 % 1461)
    (h4 : n4 = d3 / 365 - d3 / 365 / 4) (h4' : d4 = d3 - 365 * n4) :
    D = daysZ (400 * n1 + 100 * n2 + 4 * n3 + n4) + d4 ∧
      d4 < yearLen (leapZ (400 * n1 + 100 * n2 + 4 * n3 + n4)) ∧
      n2 ≤ 3 ∧ n3 ≤ 24 ∧ n4 ≤ 3 ∧ d4 ≤ 365 := by
  have hD1 : D = 146097 * n1 + d1 := by omega
  have hd1lt : d1 < 146097 := by omega
  clear h1 h1'
  have hn2le : n2 ≤ 3 := by omega
  have hD2 : d1 = 36524 * n2 + d2 := by omega
  have hd2le : d2 ≤ 36524 := by omega
  have hd2x : n2 < 3 → d2 < 36524 := by omega
  clear h2 h2'
  have hD3 : d2 = 1461 * n3 + d3 := by omega
  have hn3le : n3 ≤ 24 := by omega
  have hd3lt : d3 < 1461 := by omega
  have hd3x : n3 = 24 → n2 < 3 → d3 < 1460 := by omega
  clear h3 h3'
  have hn4le : n4 ≤ 3 := by omega
  have hD4 : d3 = 365 * n4 + d4 := by omega
  have hd4le : d4 ≤ 365 := by omega
  have hd4x : d4 = 365 → (n4 = 3 ∧ d3 = 1460) := by omega
  clear h4 h4'
  have r5 : (400 * n1 + 100 * n2 + 4 * n3 + n4) % 400 = 100 * n2 + 4 * n3 + n4 := by omega
  have r4 : (400 * n1 + 100 * n2 + 4 * n3 + n4) % 100 = 4 * n3 + n4 := by omega
  have q1 : (400 * n1 + 100 * n2 + 4 * n3 + n4) / 400 = n1 := by omega
  have q2 : (400 * n1 + 100 * n2 + 4 * n3 + n4) % 400 / 100 = n2 := by rw [r5]; omega
  have q3 : (400 * n1 + 100 * n2 + 4 * n3 + n4) % 100 / 4 = n3 := by rw [r4]; omega
  have q4 : (400 * n1 + 100 * n2 + 4 * n3 + n4) % 4 = n4 := by omega
  refine ⟨?_, ?_, hn2le, hn3le, hn4le, hd4le⟩
  · unfold daysZ
    rw [q1, q2, q3, q4]
    omega
  · have hl : leapZ (400 * n1 + 100 * n2 + 4 * n3 + n4) = true ↔
        (n4 = 3 ∧ (4 * n3 + n4 ≠ 99 ∨ 100 * n2 + 4 * n3 + n4 = 399)) := by
      unfold leapZ
      rw [q4, r4, r5]
      simp only [Bool.and_eq_true, Bool.or_eq_true, decide_eq_true_eq]
    unfold yearLen
    by_cases h : leapZ (400 * n1 + 100 * n2 + 4 * n3 + n4) = true
    · rw [if_pos h]; omega
    · rw [if_neg h]
      rw [hl] at h
      omega

theorem year_bound (n1 n2 n3 n4 : Nat) (h1 : n1 < 1461390599) (h2 : n2 ≤ 3) (h3 : n3 ≤ 24)
    (h4 : n4 ≤ 3) : 400 * n1 + 100 * n2 + 4 * n3 + n4 < 1099511627776 := by
  omega

theorem year_of_nat (Y : Nat) (h : Y < 1099511627776) :
    add64 (toInt64 Y) absoluteZeroYear = (Y : Int) + absoluteZeroYear := by
  have hz : absoluteZeroYear = -292277022399 := rfl
  rw [hz]
  unfold add64 toInt64 wrap64; omega

theorem toInt64_small (n : Nat) (h : n < 9223372036854775808) : toInt64 n = (n : Int) := by
  unfold toInt64 wrap64; omega

theorem isLeap_of_nat (Y : Nat) : isLeap ((Y : Int) + absoluteZeroYear) = leapZ Y := by
  have hz : absoluteZeroYear = -292277022399 := rfl
  rw [isLeap_eq_leapZ _ (by rw [hz]; omega)]
  congr 1
  omega

/-- The function `absDate` in closed form: the day count is `daysZ Y + yd` with `yd` a
day of year `Y` of the absolute era, and the month and day come from `monthDay`. -/
theorem absDate_eq (abs : Nat) (habs : abs < 18446744073709551616) (full : Bool) :
    ∃ Y yd : Nat, abs / 86400 = daysZ Y + yd ∧ yd < yearLen (leapZ Y) ∧
      Y < 1099511627776 ∧ yd ≤ 365 ∧
      absDate abs full =
        if full = true then
          (monthDay (leapZ Y) (yd : Int)).map
            fun md => ((Y : Int) + absoluteZeroYear, md.1, md.2, (yd : Int))
        else some ((Y : Int) + absoluteZeroYear, 0, 0, (yd : Int)) := by
  have c0 : secondsPerDay = 86400 := by decide
  have c1 : daysPer400Years = 146097 := by decide
  have c2 : daysPer100Years = 36524 := by decide
  have c3 : daysPer4Years = 1461 := by decide
  obtain ⟨D, hD⟩ : ∃ D, abs / 86400 = D := ⟨_, rfl⟩
  have hDlt : D < 213503982334602 := by omega
  obtain ⟨n1, r1⟩ : ∃ n, D / 146097 = n := ⟨_, rfl⟩
  obtain ⟨d1, hd1⟩ : ∃ n, D % 146097 = n := ⟨_, rfl⟩
  obtain ⟨k2, r2⟩ : ∃ n, d1 / 36524 = n := ⟨_, rfl⟩
  obtain ⟨n2, hn2⟩ : ∃ n, k2 - k2 / 4 = n := ⟨_, rfl⟩
  obtain ⟨d2, hd2⟩ : ∃ n, d1 - 36524 * n2 = n := ⟨_, rfl⟩
  obtain ⟨n3, r3⟩ : ∃ n, d2 / 1461 = n := ⟨_, rfl⟩
  obtain ⟨d3, hd3⟩ : ∃ n, d2 % 1461 = n := ⟨_, rfl⟩
  obtain ⟨k4, r4⟩ : ∃ n, d3 / 365 = n := ⟨_, rfl⟩
  obtain ⟨n4, hn4⟩ : ∃ n, k4 - k4 / 4 = n := ⟨_, rfl⟩
  obtain ⟨d4, hd4⟩ : ∃ n, d3 - 365 * n4 = n := ⟨_, rfl⟩
  obtain ⟨p1, p2, p3, p4, p5, p6⟩ := peel_arith D n1 d1 n2 d2 n3 d3 n4 d4 r1.symm hd1.symm
    (by rw [← hn2, r2]) hd2.symm r3.symm hd3.symm (by rw [← hn4, r4]) hd4.symm
  have hn1lt : n1 < 1461390599 := by omega
  have m1 : umul 400 n1 = 400 * n1 := umul_small _ _ (by omega)
  have m2a : umul 146097 n1 = 146097 * n1 := umul_small _ _ (by omega)
  have m2 : usub D (146097 * n1) = d1 := by
    rw [usub_small _ _ (by omega) (by omega)]; omega
  have s2 : k2 >>> 2 = k2 / 4 := by rw [Nat.shiftRight_eq_div_pow]
  have m3 : usub k2 (k2 / 4) = n2 := by
    rw [usub_small _ _ (by omega) (by omega)]; exact hn2
  have m4 : umul 100 n2 = 100 * n2 := umul_small _ _ (by omega)
  have m5 : uadd (400 * n1) (100 * n2) = 400 * n1 + 100 * n2 := uadd_small _ _ (by omega)
  have m6a : umul 36524 n2 = 36524 * n2 := umul_small _ _ (by omega)
  have m6 : usub d1 (36524 * n2) = d2 := by
    rw [usub_small _ _ (by omega) (by omega)]; exact hd2
  have m7 : umul 4 n3 = 4 * n3 := umul_small _ _ (by omega)
  have m8 : uadd (400 * n1 + 100 * n2) (4 * n3) = 400 * n1 + 100 * n2 + 4 * n3 :=
    uadd_small _ _ (by omega)
  have m9a : umul 1461 n3 = 1461 * n3 := umul_small _ _ (by omega)
  have m9 : usub d2 (1461 * n3) = d3 := by
    rw [usub_small _ _ (by omega) (by omega)]; omega
  have s4 : k4 >>> 2 = k4 / 4 := by rw [Nat.shiftRight_eq_div_pow]
  have m10 : usub k4 (k4 / 4) = n4 := by
    rw [usub_small _ _ (by omega) (by omega)]; exact hn4
  have m11 : uadd (400 * n1 + 100 * n2 + 4 * n3) n4 = 400 * n1 + 100 * n2 + 4 * n3 + n4 :=
    uadd_small _ _ (by omega)
  have m12a : umul 365 n4 = 365 * n4 := umul_small _ _ (by omega)
  have m12 : usub d3 (365 * n4) = d4 := by
    rw [usub_small _ _ (by omega) (by omega)]; exact hd4
  have hYb := year_bound n1 n2 n3 n4 hn1lt p3 p4 p5
  refine ⟨400 * n1 + 100 * n2 + 4 * n3 + n4, d4, hD.trans p1, p2, hYb, p6, ?_⟩
  have hyear := year_of_nat _ hYb
  have hyd : toInt64 d4 = (d4 : Int) := toInt64_small d4 (Nat.lt_of_le_of_lt p6 (by norm_num))
  have hleap := isLeap_of_nat (400 * n1 + 100 * n2 + 4 * n3 + n4)
  unfold absDate
  simp only [c0, c1, c2, c3, hD, r1, m1, m2a, m2, r2, s2, m3, m4, m5, m6a, m6, r3, m7, m8, m9a,
    m9, r4, s4, m10, m11, m12a, m12, hyear, hyd]
  cases full with
  | false => simp
  | true =>
    simp only [Bool.not_true, Bool.false_eq_true, if_false, if_true]
    rw [absDate_tail, hleap]

set_option maxRecDepth 100000 in
theorem monthDay_table : ∀ leap : Bool, ∀ yd : Fin 366, yd.val < yearLen leap →
    (monthDay leap (yd.val : Int)).map (fun p => decide (1 ≤ p.1 ∧ p.1 ≤ 12 ∧ 1 ≤ p.2 ∧
      p.2 ≤ monthLen leap p.1 ∧ ydayOf leap p.1 p.2 = (yd.val : Int))) = some true := by
  decide

set_option maxRecDepth 100000 in
theorem ydayOf_table : ∀ leap : Bool, ∀ m : Fin 13, ∀ d : Fin 32, 1 ≤ m.val → 1 ≤ d.val →
    (d.val : Int) ≤ monthLen leap (m.val : Int) →
    monthDay leap (ydayOf leap (m.val : Int) (d.val : Int)) = some ((m.val : Int), (d.val : Int))
      ∧ 0 ≤ ydayOf leap (m.val : Int) (d.val : Int)
      ∧ ydayOf leap (m.val : Int) (d.val : Int) < (yearLen leap : Int) := by
  decide

/-- The month and day that `absDate` finds for the day `yd` of a year: a day of a month
of the calendar, whose day of the year is `yd`. -/
theorem monthDay_spec (leap : Bool) (yd : Nat) (h : yd < yearLen leap) :
    ∃ m d : Int, monthDay leap (yd : Int) = some (m, d) ∧ 1 ≤ m ∧ m ≤ 12 ∧ 1 ≤ d ∧
      d ≤ monthLen leap m ∧ ydayOf leap m d = (yd : Int) := by
  have hlt : yd < 366 := by
    unfold yearLen at h
    split at h <;> omega
  have ht := monthDay_table leap ⟨yd, hlt⟩ h
  simp only at ht
  cases hm : monthDay leap (yd : Int) with
  | none => rw [hm] at ht; simp at ht
  | some p =>
    rw [hm] at ht
    simp only [Option.map_some', Option.some.injEq, decide_eq_true_eq] at ht
    exact ⟨p.1, p.2, rfl, ht⟩

/-- The day of the year of a day of a month, and back. -/
theorem ydayOf_spec (leap : Bool) (m d : Int) (hm1 : 1 ≤ m) (hm2 : m ≤ 12) (hd1 : 1 ≤ d)
    (hd2 : d ≤ monthLen leap m) :
    monthDay leap (ydayOf leap m d) = some (m, d) ∧ 0 ≤ ydayOf leap m d ∧
      ydayOf leap m d < (yearLen leap : Int) := by
  have hlen : monthLen leap m ≤ 31 := by
    have h : m = 1 ∨ m = 2 ∨ m = 3 ∨ m = 4 ∨ m = 5 ∨ m = 6 ∨ m = 7 ∨ m = 8 ∨ m = 9 ∨
        m = 10 ∨ m = 11 ∨ m = 12 := by omega
    rcases h with h | h | h | h | h | h | h | h | h | h | h | h <;> subst h <;>
      cases leap <;> decide
  have ht := ydayOf_table leap ⟨m.toNat, by omega⟩ ⟨d.toNat, by omega⟩
    (by show 1 ≤ m.toNat; omega) (by show 1 ≤ d.toNat; omega)
    (by
      show ((d.toNat : Nat) : Int) ≤ monthLen leap ((m.toNat : Nat) : Int)
      rw [Int.toNat_of_nonneg (by omega), Int.toNat_of_nonneg (by omega)]
      exact hd2)
  simp only at ht
  rw [Int.toNat_of_nonneg (by omega), Int.toNat_of_nonneg (by omega)] at ht
  exact ht

/-! ## The calendar: from the date to the day count -/

theorem daysZ_mono (a b : Nat) (h : a ≤ b) : daysZ a ≤ daysZ b := by
  induction b with
  | zero =>
    have : a = 0 := by omega
    rw [this]
  | succ k ih =>
    by_cases hk : a = k + 1
    · rw [hk]
    · have := ih (by omega)
      rw [daysZ_succ]
      omega

/-- A day count determines the year and the day of the year. -/
theorem year_unique (Y1 Y2 y1 y2 : Nat) (h : daysZ Y1 + y1 = daysZ Y2 + y2)
    (h1 : y1 < yearLen (leapZ Y1)) (h2 : y2 < yearLen (leapZ Y2)) : Y1 = Y2 ∧ y1 = y2 := by
  have key : ∀ A B a b : Nat, daysZ A + a = daysZ B + b → a < yearLen (leapZ A) → ¬ A < B := by
    intro A B a b hh ha hlt
    have m := daysZ_mono (A + 1) B (by omega)
    rw [daysZ_succ] at m
    omega
  have e : Y1 = Y2 := by
    have k1 := key Y1 Y2 y1 y2 h h1
    have k2 := key Y2 Y1 y2 y1 h.symm h2
    omega
  subst e
  exact ⟨rfl, by omega⟩

/-- The function `Date` on fields that are already in their ranges. -/
theorem Date_normal (Z : Zones) (y m d h mi s ns : Int) (loc : LocPtr)
    (hy : isInt64 y) (hd : isInt64 d) (hm1 : 1 ≤ m) (hm2 : m ≤ 12)
    (hh1 : 0 ≤ h) (hh2 : h < 24) (hmi1 : 0 ≤ mi) (hmi2 : mi < 60)
    (hs1 : 0 ≤ s) (hs2 : s < 60) (hn1 : 0 ≤ ns) (hn2 : ns < 1000000000)
    (hl : loc ≠ LocPtr.nil) :
    Date Z y m d h mi s ns loc = (dateDays y m d).map fun D => dateOfDays Z D h mi s ns loc := by
  unfold isInt64 at hy hd
  have e1 : sub64 m 1 = m - 1 := by unfold sub64 wrap64; omega
  have n1 : norm y (m - 1) 12 = (y, m - 1) := by
    rw [norm_12 y (m - 1) (by unfold isInt64; omega) (by omega) (by omega)]
    apply Prod.ext
    · show wrap64 (y + (m - 1) / 12) = y
      unfold wrap64; omega
    · show (m - 1) % 12 = m - 1
      omega
  have n2 : norm s ns 1000000000 = (s, ns) := by
    rw [norm_1000000000 s ns (by unfold isInt64; omega) (by omega) (by omega)]
    apply Prod.ext
    · show wrap64 (s + ns / 1000000000) = s
      unfold wrap64; omega
    · show ns % 1000000000 = ns
      omega
  have n3 : norm mi s 60 = (mi, s) := by
    rw [norm_60 mi s (by unfold isInt64; omega) (by omega) (by omega)]
    apply Prod.ext
    · show wrap64 (mi + s / 60) = mi
      unfold wrap64; omega
    · show s % 60 = s
      omega
  have n4 : norm h mi 60 = (h, mi) := by
    rw [norm_60 h mi (by unfold isInt64; omega) (by omega) (by omega)]
    apply Prod.ext
    · show wrap64 (h + mi / 60) = h
      unfold wrap64; omega
    · show mi % 60 = mi
      omega
  have n5 : norm d h 24 = (d, h) := by
    rw [norm_24 d h (by unfold isInt64; omega) (by omega) (by omega)]
    apply Prod.ext
    · show wrap64 (d + h / 24) = d
      unfold wrap64; omega
    · show h % 24 = h
      omega
  have e2 : add64 (m - 1) 1 = m := by unfold add64 wrap64; omega
  rw [Date_eq, if_neg hl, e1, n1]
  simp only [n2, n3, n4, n5, e2]

theorem daysBeforeAt_range (i : Int) (h0 : 0 ≤ i) (h1 : i ≤ 12) :
    daysBeforeAt i = some ((daysBeforeAt i).getD 0) ∧ 0 ≤ (daysBeforeAt i).getD 0 ∧
      (daysBeforeAt i).getD 0 ≤ 365 := by
  obtain ⟨b, hb, b0, b1⟩ := daysBeforeAt_isSome i h0 h1
  rw [hb]
  exact ⟨rfl, b0, b1⟩

/-- The day count that `Date` computes for a date of the calendar range. -/
theorem dateDays_eq (y m d : Int) (hy1 : absoluteZeroYear ≤ y)
    (hy2 : y - absoluteZeroYear < 1099511627776) (hm1 : 1 ≤ m) (hm2 : m ≤ 12)
    (hd1 : 1 ≤ d) (hd2 : d ≤ 4294967296) :
    dateDays y m d =
      some (daysZ (y - absoluteZeroYear).toNat + (ydayOf (isLeap y) m d).toNat) ∧
    0 ≤ ydayOf (isLeap y) m d := by
  have hz : absoluteZeroYear = -292277022399 := rfl
  have e1 : sub64 m 1 = m - 1 := by unfold sub64 wrap64; omega
  obtain ⟨b, hb, b0, b1⟩ := daysBeforeAt_isSome (m - 1) (by omega) (by omega)
  have hdz := daysSinceEpoch_eq y hy1 hy2
  have hY : (y - absoluteZeroYear).toNat < 1099511627776 := by omega
  have hdzlt : daysZ (y - absoluteZeroYear).toNat < 1099511627776 * 366 := by
    generalize (y - absoluteZeroYear).toNat = Y at hY
    unfold daysZ
    omega
  unfold dateDays ydayOf
  rw [e1, hb, hdz]
  simp only [Option.getD_some]
  generalize daysZ (y - absoluteZeroYear).toNat = dz at hdzlt
  have w1 : wrapU64 b = b.toNat := wrapU64_of_nonneg b0 (by omega)
  have w2 : wrapU64 (sub64 d 1) = (d - 1).toNat := by
    unfold wrapU64 sub64 wrap64; omega
  simp only [w1, w2]
  by_cases hl : isLeap y = true ∧ m ≥ March
  · have hl' : isLeap y = true ∧ m ≥ 3 := hl
    rw [if_pos hl, if_pos hl']
    refine ⟨?_, by omega⟩
    congr 1
    unfold uadd
    omega
  · have hl' : ¬ (isLeap y = true ∧ m ≥ 3) := hl
    rw [if_neg hl, if_neg hl']
    refine ⟨?_, by omega⟩
    congr 1
    unfold uadd
    omega

theorem wrap64_add_wrap64 (a b : Int) : wrap64 (wrap64 a + b) = wrap64 (a + b) := by
  unfold wrap64; omega

theorem wrapU64_wrap64_add (a b : Int) : wrapU64 (wrap64 a + b) = wrapU64 (a + b) := by
  unfold wrapU64 wrap64; omega

theorem abs_sec (Z : Zones) (t : Time) (h : t.loc = LocPtr.nil) :
    t.abs Z = wrapU64 (t.sec + internalToAbsolute) := by
  have hu : unixToInternal = 62135596800 := by decide
  have hi : internalToUnix = -62135596800 := by decide
  have ha : internalToAbsolute = 9223371966579724800 := by decide
  rw [abs_of_loc_nil Z t h]
  unfold Time.unixSec
  rw [hu, hi, ha]
  generalize t.sec = s
  unfold wrapU64 add64 wrap64
  omega

/-- The Time that `Date` builds in UTC from a day count and a time of day. -/
theorem dateOfDays_fields (Z : Zones) (D : Nat) (h mi s ns : Int)
    (hD : D * 86400 + (h * 3600 + mi * 60 + s).toNat < 18446744073709551616)
    (hh1 : 0 ≤ h) (hh2 : h < 24) (hmi1 : 0 ≤ mi) (hmi2 : mi < 60)
    (hs1 : 0 ≤ s) (hs2 : s < 60) (hn1 : 0 ≤ ns) (hn2 : ns < 1000000000) :
    (dateOfDays Z D h mi s ns UTC).abs Z = D * 86400 + (h * 3600 + mi * 60 + s).toNat ∧
      (dateOfDays Z D h mi s ns UTC).sec
        = wrap64 (((D * 86400 + (h * 3600 + mi * 60 + s).toNat : Nat) : Int)
            + absoluteToInternal) ∧
      (dateOfDays Z D h mi s ns UTC).nsec = ns ∧
      (dateOfDays Z D h mi s ns UTC).loc = LocPtr.nil ∧
      ¬ (dateOfDays Z D h mi s ns UTC).hasMono ∧
      (dateOfDays Z D h mi s ns UTC).wellFormed := by
  have hu : unixToInternal = 62135596800 := by decide
  have hi : internalToUnix = -62135596800 := by decide
  have ha : internalToAbsolute = 9223371966579724800 := by decide
  have hb : absoluteToInternal = -9223371966579724800 := by decide
  have c0 : secondsPerDay = 86400 := by decide
  have c1 : secondsPerHour = 3600 := by decide
  have c2 : secondsPerMinute = 60 := by decide
  have hw : wrap32 ns = ns := by unfold wrap32; omega
  have hsecs : wrapU64 (add64 (add64 (mul64 h (3600 : Nat)) (mul64 mi (60 : Nat))) s)
      = (h * 3600 + mi * 60 + s).toNat := by
    unfold wrapU64 add64 mul64 wrap64
    push_cast
    omega
  have habs : uadd (umul D 86400) (h * 3600 + mi * 60 + s).toNat
      = D * 86400 + (h * 3600 + mi * 60 + s).toNat := by
    unfold uadd umul
    omega
  have hloc : (dateOfDays Z D h mi s ns UTC).loc = LocPtr.nil := by
    unfold dateOfDays
    exact setLoc_loc _ _
  have hform : dateOfDays Z D h mi s ns UTC =
      (unixTime (add64 (toInt64 (D * 86400 + (h * 3600 + mi * 60 + s).toNat))
        (absoluteToInternal + internalToUnix)) ns).setLoc UTC := by
    unfold dateOfDays
    simp only [LocPtr.lookup, LocPtr.get, UTC, c0, c1, c2, hsecs, habs, hw]
    simp
  obtain ⟨f1, f2, f3, f4⟩ := unixTime_fields
    (add64 (toInt64 (D * 86400 + (h * 3600 + mi * 60 + s).toNat))
      (absoluteToInternal + internalToUnix)) ns hn1 (by omega)
  have hsec : (dateOfDays Z D h mi s ns UTC).sec
      = wrap64 (((D * 86400 + (h * 3600 + mi * 60 + s).toNat : Nat) : Int)
          + absoluteToInternal) := by
    rw [hform, setLoc_sec, f1, hu, hi, hb]
    unfold add64 toInt64
    rw [wrap64_add_wrap64, Int.add_assoc, wrap64_add_wrap64]
    norm_num
  refine ⟨?_, hsec, ?_, hloc, ?_, ?_⟩
  · rw [abs_sec Z _ hloc, hsec, ha, hb, wrapU64_wrap64_add]
    have hA := hD
    generalize D * 86400 + (h * 3600 + mi * 60 + s).toNat = A at hA ⊢
    clear hsec hform f1 f2 f3 f4 hloc habs hsecs hD
    unfold wrapU64
    omega
  · rw [hform, setLoc_nsec, f2]
  · rw [hform]; exact setLoc_not_hasMono _ _
  · rw [hform]; exact setLoc_wellFormed _ _ f4

theorem daysIn_eq (m y : Int) (hm1 : 1 ≤ m) (hm2 : m ≤ 12) :
    daysIn m y = some (monthLen (isLeap y) m) := by
  have h : m = 1 ∨ m = 2 ∨ m = 3 ∨ m = 4 ∨ m = 5 ∨ m = 6 ∨ m = 7 ∨ m = 8 ∨ m = 9 ∨
      m = 10 ∨ m = 11 ∨ m = 12 := by omega
  unfold daysIn monthLen
  generalize isLeap y = b
  rcases h with h | h | h | h | h | h | h | h | h | h | h | h <;> subst h <;>
    cases b <;> decide

theorem daysZ_bound (Y : Nat) (h : Y ≤ 584554044798) : daysZ Y ≤ 213503980707133 := by
  have := daysZ_mono Y 584554044798 h
  have e : daysZ 584554044798 = 213503980707133 := by decide
  omega

/-- The clock of an absolute time. -/
theorem absClock_eq (D : Nat) (h mi s : Int)
    (hh1 : 0 ≤ h) (hh2 : h < 24) (hmi1 : 0 ≤ mi) (hmi2 : mi < 60)
    (hs1 : 0 ≤ s) (hs2 : s < 60) :
    absClock (D * 86400 + (h * 3600 + mi * 60 + s).toNat) = (h, mi, s) := by
  have c0 : secondsPerDay = 86400 := by decide
  have c1 : secondsPerHour = 3600 := by decide
  have c2 : secondsPerMinute = 60 := by decide
  have hmod : (D * 86400 + (h * 3600 + mi * 60 + s).toNat) % 86400
      = (h * 3600 + mi * 60 + s).toNat := by omega
  have hsec : toInt64 ((h * 3600 + mi * 60 + s).toNat) = h * 3600 + mi * 60 + s := by
    unfold toInt64 wrap64; omega
  unfold absClock
  simp only [c0, c1, c2, hmod, hsec]
  have e1 : div64 (h * 3600 + mi * 60 + s) ((3600 : Nat) : Int) = h := by
    unfold div64
    rw [tdiv_eq _ _ (by norm_num), if_pos (by omega)]
    push_cast
    unfold wrap64; omega
  have e2 : sub64 (h * 3600 + mi * 60 + s) (mul64 h ((3600 : Nat) : Int)) = mi * 60 + s := by
    unfold sub64 mul64 wrap64
    push_cast
    omega
  rw [e1, e2]
  have e3 : div64 (mi * 60 + s) ((60 : Nat) : Int) = mi := by
    unfold div64
    rw [tdiv_eq _ _ (by norm_num), if_pos (by omega)]
    push_cast
    unfold wrap64; omega
  have e4 : sub64 (mi * 60 + s) (mul64 mi ((60 : Nat) : Int)) = s := by
    unfold sub64 mul64 wrap64
    push_cast
    omega
  rw [e3, e4]

/-- The date of an absolute time whose day count is day `d` of month `m` of year `y`. -/
theorem absDate_of_date (abs : Nat) (habs : abs < 18446744073709551616) (y m d : Int)
    (hy1 : absoluteZeroYear ≤ y) (hm1 : 1 ≤ m) (hm2 : m ≤ 12) (hd1 : 1 ≤ d)
    (hd2 : d ≤ monthLen (isLeap y) m)
    (hD : abs / 86400 = daysZ (y - absoluteZeroYear).toNat + (ydayOf (isLeap y) m d).toNat) :
    absDate abs true = some (y, m, d, ydayOf (isLeap y) m d) := by
  have hz : absoluteZeroYear = -292277022399 := rfl
  obtain ⟨s1, s2, s3⟩ := ydayOf_spec (isLeap y) m d hm1 hm2 hd1 hd2
  obtain ⟨Y, yd, p1, p2, p3, p4, p5⟩ := absDate_eq abs habs true
  have hl : isLeap y = leapZ (y - absoluteZeroYear).toNat := isLeap_eq_leapZ y hy1
  rw [hD] at p1
  have hu := year_unique (y - absoluteZeroYear).toNat Y (ydayOf (isLeap y) m d).toNat yd p1
    (by rw [← hl]; omega) p2
  obtain ⟨u1, u2⟩ := hu
  rw [p5, if_pos rfl, ← u1, ← u2, ← hl]
  have e1 : (((ydayOf (isLeap y) m d).toNat : Nat) : Int) = ydayOf (isLeap y) m d :=
    Int.toNat_of_nonneg s2
  have e2 : (((y - absoluteZeroYear).toNat : Nat) : Int) + absoluteZeroYear = y := by
    rw [Int.toNat_of_nonneg (by omega)]; omega
  rw [e1, e2, s1]
  rfl

theorem monthLen_le (leap : Bool) (m : Int) (hm1 : 1 ≤ m) (hm2 : m ≤ 12) :
    monthLen leap m ≤ 31 := by
  have h : m = 1 ∨ m = 2 ∨ m = 3 ∨ m = 4 ∨ m = 5 ∨ m = 6 ∨ m = 7 ∨ m = 8 ∨ m = 9 ∨
      m = 10 ∨ m = 11 ∨ m = 12 := by omega
  rcases h with h | h | h | h | h | h | h | h | h | h | h | h <;> subst h <;>
    cases leap <;> decide

theorem yearLen_le (leap : Bool) : yearLen leap ≤ 366 := by
  cases leap <;> decide

theorem day_bound (dz yd : Nat) (x : Int) (hz : dz ≤ 213503980707133) (hyd : yd < 366)
    (h0 : 0 ≤ x) (h1 : x < 86400) :
    (dz + yd) * 86400 + x.toNat < 18446744073709551616 ∧
      ((dz + yd) * 86400 + x.toNat) / 86400 = dz + yd := by
  omega

theorem secs_range (h mi s : Int) (hh1 : 0 ≤ h) (hh2 : h < 24) (hmi1 : 0 ≤ mi)
    (hmi2 : mi < 60) (hs1 : 0 ≤ s) (hs2 : s < 60) :
    0 ≤ h * 3600 + mi * 60 + s ∧ h * 3600 + mi * 60 + s < 86400 := by
  omega

theorem abs_lt (Z : Zones) (t : Time) : t.abs Z < 18446744073709551616 := by
  unfold Time.abs
  simp only
  generalize (add64 _ (unixToInternal + internalToAbsolute)) = x
  unfold wrapU64
  omega

/-- The year and the day of the year of every Time. -/
theorem date_false_eq (Z : Zones) (t : Time) :
    ∃ Y yd : Nat, t.abs Z / 86400 = daysZ Y + yd ∧ yd < yearLen (leapZ Y) ∧
      Y < 1099511627776 ∧ yd ≤ 365 ∧
      t.Year Z = some ((Y : Int) + absoluteZeroYear) ∧
      t.YearDay Z = some ((yd : Int) + 1) := by
  obtain ⟨Y, yd, p1, p2, p3, p4, p5⟩ := absDate_eq (t.abs Z) (abs_lt Z t) false
  refine ⟨Y, yd, p1, p2, p3, p4, ?_, ?_⟩
  · unfold Time.Year Time.date
    rw [p5]
    simp only [Bool.false_eq_true, if_false, Option.map_some']
  · have e : add64 (yd : Int) 1 = (yd : Int) + 1 := by unfold add64 wrap64; omega
    unfold Time.YearDay Time.date
    rw [p5]
    simp only [Bool.false_eq_true, if_false, Option.map_some', e]

theorem ydayOf_first (leap : Bool) : ydayOf leap 1 1 = 0 := by
  cases leap <;> decide

/-- January 1 of a year of the calendar range, at midnight UTC: its day count is
`daysSinceEpoch`. -/
theorem Date_january_first (Z : Zones) (Y : Nat) (hY : Y < 1099511627776)
    (hD : daysZ Y * 86400 < 18446744073709551616) :
    ∃ j : Time, Date Z ((Y : Int) + absoluteZeroYear) 1 1 0 0 0 0 UTC = some j ∧
      j.abs Z = daysSinceEpoch ((Y : Int) + absoluteZeroYear) * 86400 ∧
      daysSinceEpoch ((Y : Int) + absoluteZeroYear) = daysZ Y := by
  have hz : absoluteZeroYear = -292277022399 := rfl
  have hYn : ((Y : Int) + absoluteZeroYear - absoluteZeroYear).toNat = Y := by omega
  have hdz := daysSinceEpoch_eq ((Y : Int) + absoluteZeroYear) (by rw [hz]; omega)
    (by rw [hz]; omega)
  rw [hYn] at hdz
  obtain ⟨q1, _⟩ := dateDays_eq ((Y : Int) + absoluteZeroYear) 1 1 (by rw [hz]; omega)
    (by rw [hz]; omega) (by norm_num) (by norm_num) (by norm_num) (by norm_num)
  rw [hYn, ydayOf_first] at q1
  obtain ⟨f1, _⟩ := dateOfDays_fields Z (daysZ Y) 0 0 0 0 (by simpa using hD)
    (by norm_num) (by norm_num) (by norm_num) (by norm_num) (by norm_num) (by norm_num)
    (by norm_num) (by norm_num)
  refine ⟨dateOfDays Z (daysZ Y) 0 0 0 0 UTC, ?_, ?_, hdz⟩
  · rw [Date_normal Z _ 1 1 0 0 0 0 UTC (by rw [hz]; unfold isInt64; omega) (by decide)
      (by norm_num) (by norm_num) (by norm_num) (by norm_num) (by norm_num) (by norm_num)
      (by norm_num) (by norm_num) (by norm_num) (by norm_num) (by decide), q1]
    rfl
  · rw [f1, hdz]
    simp

/-- The date of every Time: a day of a month of the calendar. -/
theorem Time_Date_eq (Z : Zones) (t : Time) :
    ∃ (Y yd : Nat) (m d : Int), t.abs Z / 86400 = daysZ Y + yd ∧ Y < 1099511627776 ∧
      1 ≤ m ∧ m ≤ 12 ∧ 1 ≤ d ∧ d ≤ monthLen (leapZ Y) m ∧
      ydayOf (leapZ Y) m d = (yd : Int) ∧
      t.Date Z = some ((Y : Int) + absoluteZeroYear, m, d) := by
  obtain ⟨Y, yd, p1, p2, p3, p4, p5⟩ := absDate_eq (t.abs Z) (abs_lt Z t) true
  obtain ⟨m, d, q1, q2, q3, q4, q5, q6⟩ := monthDay_spec (leapZ Y) yd p2
  refine ⟨Y, yd, m, d, p1, p3, q2, q3, q4, q5, q6, ?_⟩
  unfold Time.Date Time.date
  rw [p5, if_pos rfl, q1]
  rfl

theorem Year_UTC (Z : Zones) (t : Time) (h : t.loc = LocPtr.nil) :
    t.Year Z = t.Year plainZones := by
  unfold Time.Year Time.date
  rw [abs_of_loc_nil Z t h, abs_of_loc_nil plainZones t h]

theorem AddDate_some (Z : Zones) (t : Time) (years months days y m d : Int)
    (h : t.Date Z = some (y, m, d)) :
    t.AddDate Z years months days = Date Z (add64 y years) (add64 m months) (add64 d days)
      (t.Clock Z).1 (t.Clock Z).2.1 (t.Clock Z).2.2 t.nsec t.Location := by
  have key : ∀ o : Option (Int × Int × Int), o = some (y, m, d) →
      (o.bind fun ymd =>
        let c := t.Clock Z
        GoTime.Date Z (add64 ymd.1 years) (add64 ymd.2.1 months) (add64 ymd.2.2 days)
          c.1 c.2.1 c.2.2 t.nsec t.Location)
      = Date Z (add64 y years) (add64 m months) (add64 d days)
        (t.Clock Z).1 (t.Clock Z).2.1 (t.Clock Z).2.2 t.nsec t.Location := by
    intro o ho
    subst ho
    rfl
  exact key (t.Date Z) h

theorem Location_ne_nil (t : Time) : t.Location ≠ LocPtr.nil := by
  unfold Time.Location
  split
  · decide
  · assumption

theorem AddDate_wellFormed (Z : Zones) (t : Time) (years months days : Int) :
    ∃ r : Time, t.AddDate Z years months days = some r ∧ r.wellFormed := by
  obtain ⟨Y, yd, m, d, _, _, _, _, _, _, _, hdate⟩ := Time_Date_eq Z t
  generalize (Y : Int) + absoluteZeroYear = y at hdate
  have hns : isInt64 t.nsec := by
    rw [nsec_eq]; unfold isInt64; omega
  rw [AddDate_some Z t years months days y m d hdate]
  exact Date_wellFormed Z _ _ _ _ _ _ _ _ hns (Location_ne_nil t)

theorem absClock_parts (abs : Nat) :
    ∃ h mi s : Int, absClock abs = (h, mi, s) ∧ 0 ≤ h ∧ h < 24 ∧ 0 ≤ mi ∧ mi < 60 ∧
      0 ≤ s ∧ s < 60 ∧ abs / 86400 * 86400 + (h * 3600 + mi * 60 + s).toNat = abs := by
  have hx : abs % 86400 < 86400 := Nat.mod_lt _ (by norm_num)
  generalize hX : abs % 86400 = x at hx
  have hsum : abs / 86400 * 86400 + x = abs := by omega
  have e : (((x / 3600 : Nat) : Int) * 3600 + ((x % 3600 / 60 : Nat) : Int) * 60
      + ((x % 60 : Nat) : Int)).toNat = x := by omega
  refine ⟨((x / 3600 : Nat) : Int), ((x % 3600 / 60 : Nat) : Int), ((x % 60 : Nat) : Int),
    ?_, by omega, by omega, by omega, by omega, by omega, by omega, by rw [e]; exact hsum⟩
  have h := absClock_eq (abs / 86400) ((x / 3600 : Nat) : Int) ((x % 3600 / 60 : Nat) : Int)
    ((x % 60 : Nat) : Int) (by omega) (by omega) (by omega) (by omega) (by omega) (by omega)
  rw [e, hsum] at h
  exact h

theorem Date_not_hasMono (Z : Zones) (y mo d h mi s ns : Int) (loc : LocPtr) (r : Time)
    (hr : Date Z y mo d h mi s ns loc = some r) : ¬ r.hasMono := by
  rw [Date_eq] at hr
  split at hr
  · exact absurd hr (by simp)
  · cases hd : dateDays (norm y (sub64 mo 1) 12).1 (add64 (norm y (sub64 mo 1) 12).2 1)
        (norm d (norm h (norm mi (norm s ns 1000000000).1 60).1 60).1 24).1 with
    | none => rw [hd] at hr; exact absurd hr (by simp)
    | some D =>
      rw [hd] at hr
      have e := Option.some.inj hr
      rw [← e]
      unfold dateOfDays
      exact setLoc_not_hasMono _ _

theorem Location_of_nil (t : Time) (h : t.loc = LocPtr.nil) : t.Location = UTC := by
  unfold Time.Location
  rw [if_pos h]

/-- Rebuilding a UTC time from its own date and clock gives the same instant. -/
theorem Date_of_own_fields (Z : Zones) (t : Time) (hloc : t.loc = LocPtr.nil)
    (hw : t.isWord) (hwf : t.wellFormed) :
    ∃ (Y M D : Int) (r : Time), t.Date Z = some (Y, M, D) ∧
      Date Z Y M D (t.Clock Z).1 (t.Clock Z).2.1 (t.Clock Z).2.2 t.nsec UTC = some r ∧
      r.sec = t.sec ∧ r.nsec = t.nsec ∧ isInt64 Y ∧ isInt64 M ∧ isInt64 D := by
  have hz : absoluteZeroYear = -292277022399 := rfl
  obtain ⟨Y, yd, m, d, p1, p2, p3, p4, p5, p6, p7, p8⟩ := Time_Date_eq Z t
  obtain ⟨h, mi, s, c1, c2, c3, c4, c5, c6, c7, c8⟩ := absClock_parts (t.abs Z)
  obtain ⟨n0, n1⟩ := wellFormed_nsec t hwf
  have hml := monthLen_le (leapZ Y) m p3 p4
  have hlt := abs_lt Z t
  have hYn : ((Y : Int) + absoluteZeroYear - absoluteZeroYear).toNat = Y := by omega
  have hleap := isLeap_of_nat Y
  obtain ⟨q1, q2⟩ := dateDays_eq ((Y : Int) + absoluteZeroYear) m d (by rw [hz]; omega)
    (by rw [hz]; omega) p3 p4 p5 (by omega)
  rw [hYn, hleap, p7, Int.toNat_ofNat, ← p1] at q1
  have hclock : t.Clock Z = (h, mi, s) := c1
  have hD : t.abs Z / 86400 * 86400 + (h * 3600 + mi * 60 + s).toNat
      < 18446744073709551616 := by rw [c8]; exact hlt
  obtain ⟨f1, f2, f3, f4, f5, f6⟩ := dateOfDays_fields Z (t.abs Z / 86400) h mi s t.nsec hD
    c2 c3 c4 c5 c6 c7 n0 n1
  refine ⟨(Y : Int) + absoluteZeroYear, m, d, dateOfDays Z (t.abs Z / 86400) h mi s t.nsec UTC,
    p8, ?_, ?_, f3, by rw [hz]; unfold isInt64; omega, by unfold isInt64; omega,
    by unfold isInt64; omega⟩
  · rw [hclock]
    simp only
    rw [Date_normal Z _ m d h mi s t.nsec UTC (by rw [hz]; unfold isInt64; omega)
      (by unfold isInt64; omega) p3 p4 c2 c3 c4 c5 c6 c7 n0 n1 (by decide), q1]
    rfl
  · rw [f2, c8]
    have ha := abs_sec Z t hloc
    have hs := isInt64_sec t hw
    have hi : internalToAbsolute = 9223371966579724800 := by decide
    have hb : absoluteToInternal = -9223371966579724800 := by decide
    rw [hi] at ha
    rw [hb, ha]
    generalize t.sec = x at hs
    unfold isInt64 at hs
    unfold wrapU64 wrap64
    omega

theorem AddDate_UTC (Z : Zones) (t : Time) (h : t.loc = LocPtr.nil) (years months days : Int) :
    t.AddDate Z years months days = t.AddDate plainZones years months days := by
  obtain ⟨Y, yd, m, d, _, _, _, _, _, _, _, hdate⟩ := Time_Date_eq Z t
  generalize (Y : Int) + absoluteZeroYear = y at hdate
  have e1 : t.Date plainZones = t.Date Z := by
    unfold Time.Date Time.date
    rw [abs_of_loc_nil Z t h, abs_of_loc_nil plainZones t h]
  have e2 : t.Clock plainZones = t.Clock Z := by
    unfold Time.Clock
    rw [abs_of_loc_nil Z t h, abs_of_loc_nil plainZones t h]
  rw [AddDate_some Z t years months days y m d hdate,
    AddDate_some plainZones t years months days y m d (e1.trans hdate), e2,
    Location_of_nil t h, Date_UTC Z]

theorem Date_normal2 (Z : Zones) (y m d h mi s ns : Int) (loc : LocPtr)
    (hd : isInt64 d)
    (hh1 : 0 ≤ h) (hh2 : h < 24) (hmi1 : 0 ≤ mi) (hmi2 : mi < 60)
    (hs1 : 0 ≤ s) (hs2 : s < 60) (hn1 : 0 ≤ ns) (hn2 : ns < 1000000000)
    (hl : loc ≠ LocPtr.nil) :
    Date Z y m d h mi s ns loc =
      (dateDays (norm y (sub64 m 1) 12).1 (add64 (norm y (sub64 m 1) 12).2 1) d).map
        fun D => dateOfDays Z D h mi s ns loc := by
  unfold isInt64 at hd
  have n2 : norm s ns 1000000000 = (s, ns) := by
    rw [norm_1000000000 s ns (by unfold isInt64; omega) (by omega) (by omega)]
    apply Prod.ext
    · show wrap64 (s + ns / 1000000000) = s
      unfold wrap64; omega
    · show ns % 1000000000 = ns
      omega
  have n3 : norm mi s 60 = (mi, s) := by
    rw [norm_60 mi s (by unfold isInt64; omega) (by omega) (by omega)]
    apply Prod.ext
    · show wrap64 (mi + s / 60) = mi
      unfold wrap64; omega
    · show s % 60 = s
      omega
  have n4 : norm h mi 60 = (h, mi) := by
    rw [norm_60 h mi (by unfold isInt64; omega) (by omega) (by omega)]
    apply Prod.ext
    · show wrap64 (h + mi / 60) = h
      unfold wrap64; omega
    · show mi % 60 = mi
      omega
  have n5 : norm d h 24 = (d, h) := by
    rw [norm_24 d h (by unfold isInt64; omega) (by omega) (by omega)]
    apply Prod.ext
    · show wrap64 (d + h / 24) = d
      unfold wrap64; omega
    · show h % 24 = h
      omega
  rw [Date_eq, if_neg hl]
  simp only [n2, n3, n4, n5]

theorem uadd_mod (a b : Nat) : uadd a b = (a + b) % 18446744073709551616 := rfl

/-- The day count that `Date` computes, for every `int` day. -/
theorem dateDays_general (y m d : Int) (hy1 : absoluteZeroYear ≤ y)
    (hy2 : y - absoluteZeroYear < 1099511627776) (hm1 : 1 ≤ m) (hm2 : m ≤ 12)
    (hd : isInt64 d) :
    dateDays y m d = some ((((daysZ (y - absoluteZeroYear).toNat : Nat) : Int)
      + ydayOf (isLeap y) m d) % 18446744073709551616).toNat := by
  have hz : absoluteZeroYear = -292277022399 := rfl
  have e1 : sub64 m 1 = m - 1 := by unfold sub64 wrap64; omega
  obtain ⟨b, hb, b0, b1⟩ := daysBeforeAt_isSome (m - 1) (by omega) (by omega)
  have hdz := daysSinceEpoch_eq y hy1 hy2
  have hY : (y - absoluteZeroYear).toNat < 1099511627776 := by omega
  have hdzlt : daysZ (y - absoluteZeroYear).toNat < 1099511627776 * 366 := by
    generalize (y - absoluteZeroYear).toNat = Y at hY
    unfold daysZ
    omega
  unfold isInt64 at hd
  unfold dateDays ydayOf
  rw [e1, hb, hdz]
  simp only [Option.getD_some]
  generalize daysZ (y - absoluteZeroYear).toNat = dz at hdzlt
  have w1 : wrapU64 b = b.toNat := wrapU64_of_nonneg b0 (by omega)
  have w2 : wrapU64 (sub64 d 1) = ((d - 1) % 18446744073709551616).toNat := by
    unfold wrapU64 sub64 wrap64; omega
  simp only [w1, w2]
  clear hdz hb e1 w1 w2 hy1 hy2 hY hm1 hm2
  by_cases hl : isLeap y = true ∧ m ≥ March
  · have hl' : isLeap y = true ∧ m ≥ 3 := hl
    rw [if_pos hl, if_pos hl']
    congr 1
    simp only [uadd_mod]
    omega
  · have hl' : ¬ (isLeap y = true ∧ m ≥ 3) := hl
    rw [if_neg hl, if_neg hl']
    congr 1
    simp only [uadd_mod]
    omega

theorem ydayOf_linear (leap : Bool) (m d : Int) :
    ydayOf leap m d = ydayOf leap m 0 + d := by
  unfold ydayOf
  omega

theorem ydayOf_next (leap : Bool) (m : Int) (hm1 : 1 ≤ m) (hm2 : m ≤ 11) :
    ydayOf leap m 0 + monthLen leap m = ydayOf leap (m + 1) 0 := by
  have h : m = 1 ∨ m = 2 ∨ m = 3 ∨ m = 4 ∨ m = 5 ∨ m = 6 ∨ m = 7 ∨ m = 8 ∨ m = 9 ∨
      m = 10 ∨ m = 11 := by omega
  rcases h with h | h | h | h | h | h | h | h | h | h | h <;> subst h <;>
    cases leap <;> decide

theorem ydayOf_december (leap : Bool) :
    ydayOf leap 12 0 + monthLen leap 12 = (yearLen leap : Int) + ydayOf leap 1 0 := by
  cases leap <;> decide

theorem ydayOf_january (leap : Bool) : ydayOf leap 1 0 = -1 := by
  cases leap <;> decide

theorem dateDays_overflow (y m k : Int) (hy1 : -292277022399 ≤ y) (hy2 : y ≤ 292277022399)
    (hm1 : 1 ≤ m) (hm2 : m ≤ 12) (hk : isInt64 k)
    (hLk : isInt64 (monthLen (isLeap y) m + k)) :
    dateDays y m (monthLen (isLeap y) m + k) =
      dateDays (norm y (sub64 (m + 1) 1) 12).1 (add64 (norm y (sub64 (m + 1) 1) 12).2 1) k := by
  have hz : absoluteZeroYear = -292277022399 := rfl
  have hya : absoluteZeroYear ≤ y := by rw [hz]; exact hy1
  have hyb : y - absoluteZeroYear < 1099511627776 := by rw [hz]; omega
  have e1 : sub64 (m + 1) 1 = m := by unfold sub64 wrap64; omega
  have hn := norm_12 y m (by unfold isInt64; omega) (by omega) (by omega)
  rw [e1, hn, dateDays_general y m _ hya hyb hm1 hm2 hLk, ydayOf_linear]
  by_cases h12 : m = 12
  · subst h12
    have a1 : wrap64 (y + 12 / 12) = y + 1 := by unfold wrap64; omega
    have a2 : add64 (12 % 12) 1 = 1 := by decide
    have hY : (y + 1 - absoluteZeroYear).toNat = (y - absoluteZeroYear).toNat + 1 := by
      rw [hz]; omega
    simp only [a1, a2]
    rw [dateDays_general (y + 1) 1 k (by rw [hz]; omega) (by rw [hz]; omega) (by norm_num)
      (by norm_num) hk, ydayOf_linear (isLeap (y + 1)) 1 k, ydayOf_january, hY, daysZ_succ,
      ← isLeap_eq_leapZ y hya]
    have hdec := ydayOf_december (isLeap y)
    rw [ydayOf_january] at hdec
    congr 2
    push_cast
    omega
  · have hm11 : m ≤ 11 := by omega
    have a1 : wrap64 (y + m / 12) = y := by unfold wrap64; omega
    have a2 : add64 (m % 12) 1 = m + 1 := by unfold add64 wrap64; omega
    simp only [a1, a2]
    rw [dateDays_general y (m + 1) k hya hyb (by omega) (by omega) hk,
      ydayOf_linear (isLeap y) (m + 1) k, ← ydayOf_next (isLeap y) m hm1 hm11]
    congr 2
    omega

theorem monthLen_ge (leap : Bool) (m : Int) (hm1 : 1 ≤ m) (hm2 : m ≤ 12) :
    28 ≤ monthLen leap m := by
  have h : m = 1 ∨ m = 2 ∨ m = 3 ∨ m = 4 ∨ m = 5 ∨ m = 6 ∨ m = 7 ∨ m = 8 ∨ m = 9 ∨
      m = 10 ∨ m = 11 ∨ m = 12 := by omega
  rcases h with h | h | h | h | h | h | h | h | h | h | h | h <;> subst h <;>
    cases leap <;> decide

theorem yearLen_ge (leap : Bool) : 365 ≤ yearLen leap := by
  cases leap <;> decide

theorem ydayOf_zero_ge (leap : Bool) (m : Int) (hm1 : 2 ≤ m) (hm2 : m ≤ 12) :
    30 ≤ ydayOf leap m 0 := by
  have h : m = 2 ∨ m = 3 ∨ m = 4 ∨ m = 5 ∨ m = 6 ∨ m = 7 ∨ m = 8 ∨ m = 9 ∨
      m = 10 ∨ m = 11 ∨ m = 12 := by omega
  rcases h with h | h | h | h | h | h | h | h | h | h | h <;> subst h <;>
    cases leap <;> decide

theorem ydayOf_end_le (leap : Bool) (m : Int) (hm1 : 1 ≤ m) (hm2 : m ≤ 11) :
    ydayOf leap m 0 + monthLen leap m + 32 ≤ (yearLen leap : Int) := by
  have h : m = 1 ∨ m = 2 ∨ m = 3 ∨ m = 4 ∨ m = 5 ∨ m = 6 ∨ m = 7 ∨ m = 8 ∨ m = 9 ∨
      m = 10 ∨ m = 11 := by omega
  rcases h with h | h | h | h | h | h | h | h | h | h | h <;> subst h <;>
    cases leap <;> decide

theorem ydayOf_december_zero (leap : Bool) : ydayOf leap 12 0 + 32 = (yearLen leap : Int) := by
  cases leap <;> decide

/-- The first three days of a year are January 1 to 3. -/
theorem yday_january (leap : Bool) (m d : Int) (hm1 : 1 ≤ m) (hm2 : m ≤ 12) (hd1 : 1 ≤ d)
    (h : ydayOf leap m d ≤ 2) : m = 1 ∧ d ≤ 3 := by
  rw [ydayOf_linear] at h
  by_cases h2 : 2 ≤ m
  · have := ydayOf_zero_ge leap m h2 hm2
    omega
  · have e : m = 1 := by omega
    subst e
    rw [ydayOf_january] at h
    exact ⟨rfl, by omega⟩

/-- The last three days of a year are December 29 to 31. -/
theorem yday_december (leap : Bool) (m d : Int) (hm1 : 1 ≤ m) (hm2 : m ≤ 12)
    (hd2 : d ≤ monthLen leap m) (h : (yearLen leap : Int) ≤ ydayOf leap m d + 3) :
    m = 12 ∧ 29 ≤ d := by
  rw [ydayOf_linear] at h
  by_cases h2 : m ≤ 11
  · have := ydayOf_end_le leap m hm1 h2
    omega
  · have e : m = 12 := by omega
    subst e
    have := ydayOf_december_zero leap
    exact ⟨rfl, by omega⟩

theorem iso_offset (N : Nat) :
    (if sub64 Thursday (((N + 1) % 7 : Nat) : Int) = 4 then (-3 : Int)
      else sub64 Thursday (((N + 1) % 7 : Nat) : Int)) = 3 - ((N % 7 : Nat) : Int) := by
  have hT : Thursday = 4 := rfl
  rw [hT]
  unfold sub64 wrap64
  split_ifs <;> omega

theorem iso_shift (abs r : Nat) (hr : r < 7) (hN : abs / 86400 % 7 = r)
    (h : abs + 259200 < 18446744073709551616) :
    uadd abs (umul (wrapU64 (3 - (r : Int))) secondsPerDay)
      = (7 * (abs / 86400 / 7) + 3) * 86400 + abs % 86400 := by
  have c0 : secondsPerDay = 86400 := by decide
  rw [c0]
  have hr7 : r = 0 ∨ r = 1 ∨ r = 2 ∨ r = 3 ∨ r = 4 ∨ r = 5 ∨ r = 6 := by omega
  rcases hr7 with e | e | e | e | e | e | e <;> subst e
  · have e : umul (wrapU64 (3 - ((0 : Nat) : Int))) 86400 = 259200 := by decide
    rw [e]; unfold uadd; omega
  · have e : umul (wrapU64 (3 - ((1 : Nat) : Int))) 86400 = 172800 := by decide
    rw [e]; unfold uadd; omega
  · have e : umul (wrapU64 (3 - ((2 : Nat) : Int))) 86400 = 86400 := by decide
    rw [e]; unfold uadd; omega
  · have e : umul (wrapU64 (3 - ((3 : Nat) : Int))) 86400 = 0 := by decide
    rw [e]; unfold uadd; omega
  · have e : umul (wrapU64 (3 - ((4 : Nat) : Int))) 86400 = 18446744073709551616 - 86400 := by
      decide
    rw [e]; unfold uadd; omega
  · have e : umul (wrapU64 (3 - ((5 : Nat) : Int))) 86400 = 18446744073709551616 - 172800 := by
      decide
    rw [e]; unfold uadd; omega
  · have e : umul (wrapU64 (3 - ((6 : Nat) : Int))) 86400 = 18446744073709551616 - 259200 := by
      decide
    rw [e]; unfold uadd; omega

/-- The method `ISOWeek` decomposes the absolute time of the Thursday of the week. -/
theorem ISOWeek_eq (Z : Zones) (t : Time) (h : t.abs Z + 259200 < 18446744073709551616) :
    t.ISOWeek Z =
      (absDate ((7 * (t.abs Z / 86400 / 7) + 3) * 86400 + t.abs Z % 86400) false).map
        fun r => (r.1, add64 (div64 r.2.2.2 7) 1) := by
  unfold Time.ISOWeek
  simp only
  rw [absWeekday_eq (t.abs Z) (by omega), iso_offset,
    iso_shift (t.abs Z) (t.abs Z / 86400 % 7) (Nat.mod_lt _ (by norm_num)) rfl h]

theorem week_of_yday (yd : Nat) (h : yd ≤ 365) :
    add64 (div64 (yd : Int) 7) 1 = ((yd / 7 + 1 : Nat) : Int) := by
  unfold add64 div64
  rw [tdiv_eq _ _ (by norm_num), if_pos (by omega)]
  unfold wrap64
  omega

/-- The year of the Thursday of the week of day `daysZ Y + yd`. -/
theorem iso_year (Y yd Y2 yd2 T : Nat) (hyd : yd < yearLen (leapZ Y))
    (hyd2 : yd2 < yearLen (leapZ Y2)) (hT : T = 7 * ((daysZ Y + yd) / 7) + 3)
    (hT2 : T = daysZ Y2 + yd2) :
    (Y2 = Y) ∨ (Y2 + 1 = Y ∧ yd ≤ 2 ∧ 362 ≤ yd2) ∨
      (Y2 = Y + 1 ∧ yearLen (leapZ Y) ≤ yd + 3 ∧ yd2 ≤ 2) := by
  have l1 := yearLen_le (leapZ Y)
  have g1 := yearLen_ge (leapZ Y)
  by_cases c1 : T < daysZ Y
  · right; left
    have hY : Y ≠ 0 := by
      intro h0
      subst h0
      have : daysZ 0 = 0 := by decide
      omega
    obtain ⟨K, hK⟩ : ∃ K, Y = K + 1 := ⟨Y - 1, by omega⟩
    subst hK
    have hs := daysZ_succ K
    have g2 := yearLen_ge (leapZ K)
    have hu := year_unique K Y2 (T - daysZ K) yd2 (by omega) (by omega) hyd2
    omega
  · by_cases c2 : daysZ Y + yearLen (leapZ Y) ≤ T
    · right; right
      have hs := daysZ_succ Y
      have g2 := yearLen_ge (leapZ (Y + 1))
      have hu := year_unique (Y + 1) Y2 (T - daysZ (Y + 1)) yd2 (by omega) (by omega) hyd2
      omega
    · left
      have hu := year_unique Y Y2 (T - daysZ Y) yd2 (by omega) (by omega) hyd2
      omega

theorem absWeekday_day (N : Nat) (x : Nat) (hx : x < 86400)
    (h : N * 86400 + x < 18446744073709551616 - 86400) :
    absWeekday (N * 86400 + x) = (((N + 1) % 7 : Nat) : Int) := by
  rw [absWeekday_eq _ h]
  have e : (N * 86400 + x) / 86400 = N := by omega
  rw [e]

theorem ISOWeek_examples :
    Time.ISOWeek plainZones ⟨0, 63429436800, LocPtr.nil⟩ = some (2010, 52) := by
  decide

/-! ## Formatting a `Duration`: the buffer and the reference rendering -/

theorem drop_set (l : List Nat) (k c : Nat) (h : k < l.length) :
    (l.set k c).drop k = c :: l.drop (k + 1) := by
  induction l generalizing k with
  | nil => simp at h
  | cons a t ih =>
    cases k with
    | zero => simp
    | succ j =>
      simp only [List.set_cons_succ, List.drop_succ_cons]
      exact ih j (by simpa using h)

theorem setByte_spec (buf : List Nat) (w : Int) (tail : List Nat) (c : Nat)
    (hb : bufHolds buf w tail) (hw : 1 ≤ w) :
    setByte buf (w - 1) c = some (buf.set (w - 1).toNat c) ∧
      bufHolds (buf.set (w - 1).toNat c) (w - 1) (c :: tail) := by
  obtain ⟨hl, h0, h1, hd⟩ := hb
  constructor
  · unfold setByte
    rw [if_pos ⟨by omega, by rw [hl]; omega⟩]
  · refine ⟨by rw [List.length_set]; exact hl, by omega, by omega, ?_⟩
    rw [drop_set buf _ c (by rw [hl]; omega)]
    have e : (w - 1).toNat + 1 = w.toNat := by omega
    rw [e, hd]

theorem putByte_spec (buf : List Nat) (w : Int) (tail : List Nat) (c : Nat)
    (hb : bufHolds buf w tail) (hw : 1 ≤ w) :
    ∃ (b : List Nat) (w2 : Int), putByte buf w c = some (b, w2) ∧ w2 = w - 1 ∧
      bufHolds b w2 (c :: tail) := by
  obtain ⟨s1, s2⟩ := setByte_spec buf w tail c hb hw
  have e : sub64 w 1 = w - 1 := by
    obtain ⟨_, h0, h1, _⟩ := hb
    unfold sub64 wrap64; omega
  refine ⟨buf.set (w - 1).toNat c, w - 1, ?_, rfl, s2⟩
  unfold putByte
  simp only [e, s1, Option.map_some']

theorem drop_set2 (l : List Nat) (k a b : Nat) (h : k + 1 < l.length) :
    ((l.set k a).set (k + 1) b).drop k = a :: b :: l.drop (k + 2) := by
  induction l generalizing k with
  | nil => simp at h
  | cons x t ih =>
    cases k with
    | zero =>
      cases t with
      | nil => simp at h
      | cons y t2 => simp
    | succ j =>
      simp only [List.set_cons_succ, List.drop_succ_cons]
      exact ih j (by simpa using h)

theorem copyMicro_spec (buf : List Nat) (w : Int) (tail : List Nat)
    (hb : bufHolds buf w tail) (hw : 2 ≤ w) :
    ∃ b : List Nat, copyMicro buf (w - 2) = some b ∧
      bufHolds b (w - 2) (194 :: 181 :: tail) := by
  obtain ⟨hl, h0, h1, hd⟩ := hb
  refine ⟨(buf.set (w - 2).toNat 194).set ((w - 2).toNat + 1) 181, ?_, ?_⟩
  · unfold copyMicro
    rw [if_pos ⟨by omega, by rw [hl]; omega⟩]
  · refine ⟨by rw [List.length_set, List.length_set]; exact hl, by omega, by omega, ?_⟩
    rw [drop_set2 _ _ 194 181 (by rw [hl]; omega)]
    have e : (w - 2).toNat + 2 = w.toNat := by omega
    rw [e, hd]

theorem fmtIntLoop_spec (fuel : Nat) : ∀ (k v : Nat) (buf : List Nat) (w : Int)
    (tail : List Nat), k < fuel → v < 10 ^ k → (k : Int) ≤ w → bufHolds buf w tail →
    ∃ (b : List Nat) (w2 : Int), fmtIntLoop fuel buf w v = some (b, w2) ∧ w - k ≤ w2 ∧
      bufHolds b w2 ((Nat.digits 10 v).reverse.map (fun c => c + 48) ++ tail) := by
  induction fuel with
  | zero => intro k v buf w tail hk; omega
  | succ f ih =>
    intro k v buf w tail hk hv hw hb
    rw [fmtIntLoop]
    by_cases h0 : v > 0
    · rw [if_pos h0]
      have hk1 : 1 ≤ k := by
        by_contra hc
        have hk0 : k = 0 := by omega
        rw [hk0, pow_zero] at hv
        omega
      obtain ⟨b1, w1, e1, l1, ok1⟩ :=
        putByte_spec buf w tail ((v % 10 % 256 + 48) % 256) hb (by omega)
      have hp : 10 ^ k = 10 * 10 ^ (k - 1) := by
        rw [← pow_succ']
        congr 1
        omega
      have hv2 : v / 10 < 10 ^ (k - 1) := by
        rw [hp] at hv
        omega
      obtain ⟨b2, w2, e2, l2, ok2⟩ := ih (k - 1) (v / 10) b1 w1 _ (by omega) hv2
        (by omega) ok1
      rw [e1, Option.some_bind]
      refine ⟨b2, w2, e2, by omega, ?_⟩
      have hd : Nat.digits 10 v = (v % 10) :: Nat.digits 10 (v / 10) :=
        Nat.digits_def' (by norm_num) h0
      have hc : (v % 10 % 256 + 48) % 256 = v % 10 + 48 := by omega
      rw [hc] at ok2
      rw [hd]
      simpa using ok2
    · rw [if_neg h0]
      have hv0 : v = 0 := by omega
      subst hv0
      exact ⟨buf, w, rfl, by omega, by simpa using hb⟩

theorem fmtInt_spec (k v : Nat) (buf : List Nat) (w : Int) (tail : List Nat)
    (hk1 : 1 ≤ k) (hk2 : k ≤ 20) (hv : v < 10 ^ k) (hw : (k : Int) ≤ w)
    (hb : bufHolds buf w tail) :
    ∃ (b : List Nat) (w2 : Int), fmtInt buf w v = some (b, w2) ∧ w - k ≤ w2 ∧
      bufHolds b w2 (refDecimal v ++ tail) := by
  have hb2 := hb
  obtain ⟨hl, h0, h1, _⟩ := hb2
  unfold fmtInt refDecimal
  rw [if_pos ⟨h0, by rw [hl]; omega⟩]
  by_cases hv0 : v = 0
  · rw [if_pos hv0, if_pos hv0]
    obtain ⟨b1, w1, e1, l1, ok1⟩ := putByte_spec buf w tail 48 hb (by omega)
    exact ⟨b1, w1, e1, by omega, ok1⟩
  · rw [if_neg hv0, if_neg hv0]
    exact fmtIntLoop_spec 21 k v buf w tail (by omega) hv hw hb

theorem fmtFracLoop_true (n : Nat) : ∀ (v : Nat) (buf : List Nat) (w : Int)
    (tail : List Nat), (n : Int) ≤ w → bufHolds buf w tail →
    ∃ (b : List Nat) (w2 : Int), fmtFracLoop n buf w v true = some (b, w2, v / 10 ^ n, true) ∧
      w - n ≤ w2 ∧
      bufHolds b w2 ((lowDigits n v).reverse.map (fun c => c + 48) ++ tail) := by
  induction n with
  | zero =>
    intro v buf w tail hw hb
    refine ⟨buf, w, ?_, by omega, by simpa [lowDigits] using hb⟩
    rw [fmtFracLoop, pow_zero, Nat.div_one]
  | succ n ih =>
    intro v buf w tail hw hb
    obtain ⟨b1, w1, e1, l1, ok1⟩ :=
      putByte_spec buf w tail ((v % 10 % 256 + 48) % 256) hb (by omega)
    obtain ⟨b2, w2, e2, l2, ok2⟩ := ih (v / 10) b1 w1 _ (by omega) ok1
    have hc : (v % 10 % 256 + 48) % 256 = v % 10 + 48 := by omega
    have hq : v / 10 / 10 ^ n = v / 10 ^ (n + 1) := by
      rw [Nat.div_div_eq_div_mul, pow_succ']
    rw [fmtFracLoop]
    simp only [Bool.true_or, if_true, e1, Option.some_bind, e2, hq]
    refine ⟨b2, w2, rfl, by omega, ?_⟩
    rw [hc] at ok2
    simpa [lowDigits] using ok2

theorem fmtFracLoop_false (n : Nat) : ∀ (v : Nat) (buf : List Nat) (w : Int)
    (tail : List Nat), (n : Int) ≤ w → bufHolds buf w tail →
    ∃ (b : List Nat) (w2 : Int),
      fmtFracLoop n buf w v false
        = some (b, w2, v / 10 ^ n,
            !((lowDigits n v).dropWhile fun c => c == 0).isEmpty) ∧
      w - n ≤ w2 ∧
      bufHolds b w2
        ((((lowDigits n v).dropWhile fun c => c == 0).reverse.map fun c => c + 48)
          ++ tail) := by
  induction n with
  | zero =>
    intro v buf w tail hw hb
    refine ⟨buf, w, ?_, by omega, by simpa [lowDigits] using hb⟩
    rw [fmtFracLoop, pow_zero, Nat.div_one]
    rfl
  | succ n ih =>
    intro v buf w tail hw hb
    have hq : v / 10 / 10 ^ n = v / 10 ^ (n + 1) := by
      rw [Nat.div_div_eq_div_mul, pow_succ']
    by_cases hd : v % 10 = 0
    · obtain ⟨b2, w2, e2, l2, ok2⟩ := ih (v / 10) buf w tail (by omega) hb
      rw [fmtFracLoop]
      simp only [hd, ne_eq, not_true_eq_false, decide_False, Bool.or_self,
        Bool.false_eq_true, if_false, e2, hq]
      refine ⟨b2, w2, ?_, by omega, ?_⟩
      · simp [lowDigits, hd]
      · simpa [lowDigits, hd] using ok2
    · obtain ⟨b1, w1, e1, l1, ok1⟩ :=
        putByte_spec buf w tail ((v % 10 % 256 + 48) % 256) hb (by omega)
      obtain ⟨b2, w2, e2, l2, ok2⟩ := fmtFracLoop_true n (v / 10) b1 w1 _ (by omega) ok1
      have hc : (v % 10 % 256 + 48) % 256 = v % 10 + 48 := by omega
      rw [fmtFracLoop]
      simp only [ne_eq, hd, not_false_eq_true, decide_True, Bool.or_true, if_true, e1,
        Option.some_bind, e2, hq]
      refine ⟨b2, w2, ?_, by omega, ?_⟩
      · simp [lowDigits, hd]
      · rw [hc] at ok2
        simpa [lowDigits, hd] using ok2

theorem lowDigits_zero_iff (n : Nat) : ∀ v : Nat,
    ((lowDigits n v).dropWhile fun c => c == 0) = [] ↔ v % 10 ^ n = 0 := by
  induction n with
  | zero => intro v; simp [lowDigits, Nat.mod_one]
  | succ n ih =>
    intro v
    have hm : v % 10 ^ (n + 1) = v % 10 + 10 * (v / 10 % 10 ^ n) := by
      rw [pow_succ', Nat.mod_mul]
    by_cases hd : v % 10 = 0
    · have e : ((lowDigits (n + 1) v).dropWhile fun c => c == 0)
          = ((lowDigits n (v / 10)).dropWhile fun c => c == 0) := by
        simp [lowDigits, hd]
      rw [e, ih (v / 10), hm]
      omega
    · have e : ((lowDigits (n + 1) v).dropWhile fun c => c == 0) ≠ [] := by
        simp [lowDigits, hd]
      constructor
      · intro h; exact absurd h e
      · intro h; rw [hm] at h; omega

theorem lowDigits_mod (n : Nat) : ∀ v : Nat, lowDigits n (v % 10 ^ n) = lowDigits n v := by
  induction n with
  | zero => intro v; rfl
  | succ n ih =>
    intro v
    have hm : v % 10 ^ (n + 1) = v % 10 + 10 * (v / 10 % 10 ^ n) := by
      rw [pow_succ', Nat.mod_mul]
    have h1 : v % 10 ^ (n + 1) % 10 = v % 10 := by rw [hm]; omega
    have h2 : v % 10 ^ (n + 1) / 10 = v / 10 % 10 ^ n := by rw [hm]; omega
    show (v % 10 ^ (n + 1) % 10) :: lowDigits n (v % 10 ^ (n + 1) / 10)
      = (v % 10) :: lowDigits n (v / 10)
    rw [h1, h2, ih]

theorem refFraction_eq (n F : Nat) :
    refFraction n F
      = ((lowDigits n F).dropWhile fun c => c == 0).reverse.map fun c => c + 48 := by
  unfold refFraction
  rw [List.rdropWhile, List.reverse_reverse]

theorem fmtFrac_spec (n v : Nat) (buf : List Nat) (w : Int) (tail : List Nat)
    (hw : (n : Int) + 1 ≤ w) (hb : bufHolds buf w tail) :
    ∃ (b : List Nat) (w2 : Int), fmtFrac buf w v n = some (b, w2, v / 10 ^ n) ∧
      w - n - 1 ≤ w2 ∧
      bufHolds b w2
        ((if v % 10 ^ n ≠ 0 then 46 :: refFraction n (v % 10 ^ n) else []) ++ tail) := by
  have hb2 := hb
  obtain ⟨hl, h0, h1, _⟩ := hb2
  obtain ⟨b1, w1, e1, l1, ok1⟩ := fmtFracLoop_false n v buf w tail (by omega) hb
  unfold fmtFrac
  rw [if_pos ⟨h0, by rw [hl]; omega⟩, e1, Option.some_bind]
  by_cases hz : v % 10 ^ n = 0
  · have hnil := (lowDigits_zero_iff n v).2 hz
    rw [hnil] at ok1
    refine ⟨b1, w1, ?_, by omega, ?_⟩
    · simp [hnil]
    · rw [if_neg (by simpa using hz)]
      simpa using ok1
  · have hne : ((lowDigits n v).dropWhile fun c => c == 0) ≠ [] := by
      intro h
      exact hz ((lowDigits_zero_iff n v).1 h)
    have hemp : (((lowDigits n v).dropWhile fun c => c == 0).isEmpty) = false := by
      cases hD : ((lowDigits n v).dropWhile fun c => c == 0) with
      | nil => exact absurd hD hne
      | cons a t => rfl
    obtain ⟨b2, w2, e2, l2, ok2⟩ := putByte_spec b1 w1 _ 46 ok1 (by omega)
    refine ⟨b2, w2, ?_, by omega, ?_⟩
    · simp only [hemp, Bool.not_false, if_true, e2, Option.map_some']
    · rw [if_pos hz, refFraction_eq, lowDigits_mod]
      exact ok2

theorem signAndSlice_spec (buf : List Nat) (w : Int) (tail : List Nat) (neg : Bool)
    (hw : 1 ≤ w) (hb : bufHolds buf w tail) :
    signAndSlice buf w neg = some ((if neg = true then [45] else []) ++ tail) := by
  have slice : ∀ (b : List Nat) (x : Int) (tl : List Nat), bufHolds b x tl →
      sliceFrom b x = some tl := by
    intro b x tl hx
    obtain ⟨hl, h0, h1, hd⟩ := hx
    unfold sliceFrom
    rw [if_pos ⟨h0, by rw [hl]; omega⟩, hd]
  unfold signAndSlice
  cases neg with
  | false =>
    simp only [Bool.false_eq_true, if_false, List.nil_append]
    exact slice buf w tail hb
  | true =>
    obtain ⟨b1, w1, e1, l1, ok1⟩ := putByte_spec buf w tail 45 hb hw
    simp only [if_true, e1, Option.some_bind]
    exact slice b1 w1 _ ok1

theorem u64_abs (d : Int) (hd : isInt64 d) :
    (if decide (d < 0) = true then usub 0 (wrapU64 d) else wrapU64 d) = d.natAbs := by
  unfold isInt64 at hd
  unfold usub wrapU64
  by_cases h : d < 0
  · rw [if_pos (by simpa using h)]
    omega
  · rw [if_neg (by simpa using h)]
    omega

theorem buf_initial : bufHolds (List.replicate 32 0) 32 [] := by
  refine ⟨by simp, by norm_num, by norm_num, ?_⟩
  decide

theorem String_long (d : Int) (hd : isInt64 d) (h : 1000000000 ≤ d.natAbs) :
    Duration.String d = some (refLong d) := by
  have hu := u64_abs d hd
  have hmax : d.natAbs ≤ 9223372036854775808 := by unfold isInt64 at hd; omega
  have c1 : wrapU64 Second = 1000000000 := by decide
  have p9 : (10 : Nat) ^ 9 = 1000000000 := by norm_num
  have p2 : (10 : Nat) ^ 2 = 100 := by norm_num
  have p7 : (10 : Nat) ^ 7 = 10000000 := by norm_num
  unfold Duration.String refLong
  simp only [hu, c1]
  generalize d.natAbs = u at h hmax
  rw [if_neg (by omega)]
  obtain ⟨b1, w1, e1, l1, k1⟩ := putByte_spec _ 32 [] 115 buf_initial (by norm_num)
  obtain ⟨b2, w2, e2, l2, k2⟩ := fmtFrac_spec 9 u b1 w1 [115] (by omega) k1
  rw [p9] at e2 k2
  obtain ⟨b3, w3, e3, l3, k3⟩ := fmtInt_spec 2 (u / 1000000000 % 60) b2 w2 _ (by norm_num)
    (by norm_num) (by rw [p2]; omega) (by omega) k2
  simp only [e1, Option.some_bind, e2, e3]
  have a1 : u / 1000000000 / 60 / 60 = u / 3600000000000 := by omega
  have a2 : u / 1000000000 / 60 % 60 = u / 60000000000 % 60 := by omega
  by_cases hm : u / 1000000000 / 60 > 0
  · have a4 : u ≥ 60000000000 := by omega
    rw [if_pos hm]
    obtain ⟨b4, w4, e4, l4, k4⟩ := putByte_spec b3 w3 _ 109 k3 (by omega)
    obtain ⟨b5, w5, e5, l5, k5⟩ := fmtInt_spec 2 (u / 1000000000 / 60 % 60) b4 w4 _
      (by norm_num) (by norm_num) (by rw [p2]; omega) (by omega) k4
    simp only [e4, Option.some_bind, e5]
    by_cases hh : u / 1000000000 / 60 / 60 > 0
    · have a3 : u / 3600000000000 > 0 := by omega
      rw [if_pos hh]
      obtain ⟨b6, w6, e6, l6, k6⟩ := putByte_spec b5 w5 _ 104 k5 (by omega)
      obtain ⟨b7, w7, e7, l7, k7⟩ := fmtInt_spec 7 (u / 1000000000 / 60 / 60) b6 w6 _
        (by norm_num) (by norm_num) (by rw [p7]; omega) (by omega) k6
      simp only [e6, Option.some_bind, e7]
      rw [signAndSlice_spec b7 w7 _ _ (by omega) k7, a1, a2, if_pos a3, if_pos a4]
      simp
    · have a3 : ¬ u / 3600000000000 > 0 := by omega
      rw [if_neg hh, signAndSlice_spec b5 w5 _ _ (by omega) k5, a2, if_neg a3, if_pos a4]
      simp
  · have a4 : ¬ u ≥ 60000000000 := by omega
    have a3 : ¬ u / 3600000000000 > 0 := by omega
    rw [if_neg hm, signAndSlice_spec b3 w3 _ _ (by omega) k3, if_neg a3, if_neg a4]
    simp

theorem short_tail (u p : Nat) (neg : Bool) (b : List Nat) (w : Int) (tail : List Nat)
    (hp : p ≤ 6) (hu : u / 10 ^ p < 10 ^ 3) (hw : 11 ≤ w) (hb : bufHolds b w tail) :
    ((fmtFrac b w u p).bind fun f =>
        (fmtInt f.1 f.2.1 f.2.2).bind fun r => signAndSlice r.1 r.2 neg)
      = some ((if neg = true then [45] else []) ++ (refDecimal (u / 10 ^ p)
          ++ ((if u % 10 ^ p ≠ 0 then 46 :: refFraction p (u % 10 ^ p) else []) ++ tail))) := by
  obtain ⟨b2, w2, e2, l2, k2⟩ := fmtFrac_spec p u b w tail (by omega) hb
  obtain ⟨b3, w3, e3, l3, k3⟩ := fmtInt_spec 3 (u / 10 ^ p) b2 w2 _ (by norm_num)
    (by norm_num) hu (by omega) k2
  simp only [e2, Option.some_bind, e3]
  exact signAndSlice_spec b3 w3 _ neg (by omega) k3

theorem String_short (d : Int) (hd : isInt64 d) (h0 : 0 < d.natAbs)
    (h1 : d.natAbs < 1000000000) :
    Duration.String d = some (refShort d) := by
  have hu := u64_abs d hd
  have c1 : wrapU64 Second = 1000000000 := by decide
  have c2 : wrapU64 Microsecond = 1000 := by decide
  have c3 : wrapU64 Millisecond = 1000000 := by decide
  have p0 : (10 : Nat) ^ 0 = 1 := by norm_num
  have p3 : (10 : Nat) ^ 3 = 1000 := by norm_num
  have p6 : (10 : Nat) ^ 6 = 1000000 := by norm_num
  have hs : (if d < 0 then [45] else ([] : List Nat))
      = (if decide (d < 0) = true then [45] else []) := by
    simp only [decide_eq_true_eq]
  unfold Duration.String refShort
  simp only [hu, c1, c2, c3, hs]
  generalize d.natAbs = u at h0 h1
  generalize decide (d < 0) = neg
  rw [if_pos h1]
  obtain ⟨b1, w1, e1, l1, k1⟩ := putByte_spec _ 32 [] 115 buf_initial (by norm_num)
  have hw1 : sub64 w1 1 = w1 - 1 := by unfold sub64 wrap64; omega
  have hw2 : sub64 (w1 - 1) 1 = w1 - 2 := by unfold sub64 wrap64; omega
  simp only [e1, Option.some_bind, hw1, hw2]
  rw [if_neg (by omega)]
  by_cases ca : u < 1000
  · obtain ⟨s1, s2⟩ := setByte_spec b1 w1 [115] 110 k1 (by omega)
    simp only [if_pos ca, s1, Option.map_some', Option.some_bind]
    refine (short_tail u 0 neg _ _ _ (by norm_num) (by rw [p0, p3]; omega) (by omega) s2).trans
      ?_
    simp
  · by_cases cb : u < 1000000
    · obtain ⟨b2, s1, s2⟩ := copyMicro_spec b1 w1 [115] k1 (by omega)
      simp only [if_neg ca, if_pos cb, s1, Option.map_some', Option.some_bind]
      refine (short_tail u 3 neg _ _ _ (by norm_num) (by rw [p3]; omega) (by omega) s2).trans
        ?_
      simp
    · obtain ⟨s1, s2⟩ := setByte_spec b1 w1 [115] 109 k1 (by omega)
      simp only [if_neg ca, if_neg cb, s1, Option.map_some', Option.some_bind]
      refine (short_tail u 6 neg _ _ _ (by norm_num) (by rw [p6, p3]; omega) (by omega) s2).trans
        ?_
      simp

theorem refDecimal_head (n : Nat) (h : n ≠ 0) : (refDecimal n).head? ≠ some 48 := by
  unfold refDecimal
  rw [if_neg h, List.head?_map, List.head?_reverse,
    List.getLast?_eq_getLast _ (Nat.digits_ne_nil_iff_ne_zero.mpr h)]
  have hl := Nat.getLast_digit_ne_zero 10 h
  simp only [Option.map_some', ne_eq, Option.some.injEq]
  omega

end GoTime
